import Mathlib

/-!
Verification development for the `codegen` package of the gensimd repository:
an SSA-to-amd64-assembly lowering engine.  The definitions below are a shallow
embedding of `src/codegen/codegen.go`.  Emitted assembly is modelled as a list
of text lines (every emission helper in the source produces newline-terminated
text; the concatenation order of the source is preserved as list concatenation).

The repository's assembly-text helper functions and the register catalog live
in a source file that is not part of `src/` (only `codegen.go` is); every
definition standing in for that missing file carries a doc comment starting
with `Modelled from the spec:`.

Machine `uint` arithmetic is modelled as `Nat` (exact below `2^64`, which all
reachable quantities are); the explicit `uint32` conversions of the source
(`localsSize`, the `uint32(offset)` cast in `asmIf`) are modelled as `% 2^32`.

Recoverable errors (`*codegen.Error` values in the source) and fatal aborts
(`panic`) are distinguished: emission results are `ERes α` with constructors
`ok` (value and updated state), `err` (recoverable error message and the state
at the point of the error; the partial diagnostic text the source returns next
to an error is not modelled, outcomes and state are) and `fatal` (panic).
-/

namespace Gensimd

/-! ### Decimal rendering of numerals

The output contract renders immediates as a dollar sign followed by the decimal
value.  `numStr` is our executable decimal renderer (structural fuel recursion
so that the kernel can evaluate it); `numStr_injective` is proved via a
round-trip evaluation function. -/

/-- One decimal digit as a character; only used with arguments below 10. -/
def digitChar (d : Nat) : Char :=
  if d = 0 then '0' else if d = 1 then '1' else if d = 2 then '2'
  else if d = 3 then '3' else if d = 4 then '4' else if d = 5 then '5'
  else if d = 6 then '6' else if d = 7 then '7' else if d = 8 then '8' else '9'

/-- Big-endian decimal digits of `n`, with structural fuel. -/
def numChars : Nat → Nat → List Char
  | 0, _ => []
  | fuel + 1, n =>
    if n < 10 then [digitChar n]
    else numChars fuel (n / 10) ++ [digitChar (n % 10)]

/-- Decimal rendering of a natural number. -/
def numStr (n : Nat) : String := ⟨numChars (n + 1) n⟩

/-- Numeric value of a digit character (inverse of `digitChar`). -/
def charVal (c : Char) : Nat := c.toNat - 48

theorem charVal_digitChar {d : Nat} (h : d < 10) : charVal (digitChar d) = d := by
  interval_cases d <;> rfl

/-- Round-trip evaluation of a big-endian digit-character list. -/
def charsVal (cs : List Char) : Nat := cs.foldl (fun a c => a * 10 + charVal c) 0

theorem charsVal_append_digit (cs : List Char) (c : Char) :
    charsVal (cs ++ [c]) = charsVal cs * 10 + charVal c := by
  simp [charsVal, List.foldl_append]

theorem charsVal_numChars : ∀ fuel n, n ≤ fuel → charsVal (numChars fuel n) = n := by
  intro fuel
  induction fuel with
  | zero => intro n hn; interval_cases n; rfl
  | succ fuel ih =>
    intro n hn
    by_cases h10 : n < 10
    · simp [numChars, h10, charsVal, charVal_digitChar h10]
    · have hdiv : n / 10 ≤ fuel := by
        have h1 : n / 10 < n := Nat.div_lt_self (by omega) (by omega)
        omega
      simp only [numChars, h10, if_false]
      rw [charsVal_append_digit, ih _ hdiv, charVal_digitChar (Nat.mod_lt _ (by omega))]
      omega

theorem numStr_injective : Function.Injective numStr := by
  intro m n h
  have hm := charsVal_numChars (m + 1) m (by omega)
  have hn := charsVal_numChars (n + 1) n (by omega)
  have hdata : numChars (m + 1) m = numChars (n + 1) n := congrArg String.data h
  rw [hdata, hn] at hm
  omega

/-! ### Register catalog (external file, spec-modelled) -/

/-- Register class: general-purpose data vs address (`RegType` in the source). -/
inductive RegType where
  | data
  | addr
deriving DecidableEq, Repr

/-- A physical register descriptor: name, class, bit width. -/
structure Register where
  name : String
  typ : RegType
  width : Nat
deriving DecidableEq, Repr

/-- Modelled from the spec: the immutable register catalog (the `registers`
module-level list lives in the repository's assembly-helper file, which is not
under `src/`).  A fixed deterministic order of amd64 general-purpose data
registers of width 64, plus the stack-pointer and frame-pointer address
registers.  Claims are insensitive to the exact membership beyond the
existence of free 64-bit data registers and of SP/FP. -/
def registers : List Register :=
  [⟨"RAX", .data, 64⟩, ⟨"RBX", .data, 64⟩, ⟨"RCX", .data, 64⟩, ⟨"RDX", .data, 64⟩,
   ⟨"RSI", .data, 64⟩, ⟨"RDI", .data, 64⟩, ⟨"R8", .data, 64⟩, ⟨"R9", .data, 64⟩,
   ⟨"R10", .data, 64⟩, ⟨"R11", .data, 64⟩, ⟨"R12", .data, 64⟩, ⟨"R13", .data, 64⟩,
   ⟨"R14", .data, 64⟩, ⟨"R15", .data, 64⟩, ⟨"SP", .addr, 64⟩, ⟨"FP", .addr, 64⟩]

/-- Modelled from the spec: registers reserved by the runtime/ABI and never
allocated (the exclusion set).  The stack and frame pointers are in it. -/
def excludedRegisters : List Register := [⟨"SP", .addr, 64⟩, ⟨"FP", .addr, 64⟩]

def REG_SP : String := "SP"
def REG_FP : String := "FP"

/-- Modelled from the spec: `getRegister` resolves a register name in the
catalog (the source's version lives in the missing helper file). -/
def getRegister (n : String) : Register :=
  (registers.find? (fun r => r.name = n)).getD ⟨n, .addr, 64⟩

/-- `DataRegSize` constant of the missing helper file: one machine word. -/
def DataRegSize : Nat := 8

/-! ### Type and layout model (`sizeof`, `sizeofElem`) -/

/-- Basic-type kinds (`types.BasicKind` as used by `sizeBasic`). -/
inductive BasicKind where
  | bool | int | int8 | int16 | int32 | int64
  | uint | uint8 | uint16 | uint32 | uint64
  | float32 | float64
  | other
deriving DecidableEq, Repr

/-- Static types as consumed by the code generator. -/
inductive Ty where
  | basic (k : BasicKind)
  | ptr (elem : Ty)
  | slice (elem : Ty)
  | array (len : Nat) (elem : Ty)
  | named (name : String)
  | tuple
  | unknown
deriving DecidableEq, Repr

def pointerSize : Nat := 8
def sliceSize : Nat := 24

/-- `math.MaxUint32`, the reserved placeholder frame size (`dummySpSize`). -/
def dummySpSize : Nat := 4294967295

/-- Registry entry of a fixed-size vector ("simd") type. -/
structure SimdInfo where
  name : String
  size : Nat
  elemSize : Nat
deriving DecidableEq, Repr

/-- The two registered simd types: `simd.Int` (a 64-bit named integer, no
element size) and `simd.Int4` (`[4]int32`, total 16 bytes, 4-byte elements),
as computed by `simdTypes` via reflection in the source. -/
def simdTypes : List SimdInfo := [⟨"Int", 8, 0⟩, ⟨"Int4", 16, 4⟩]

def simdLookup (n : String) : Option SimdInfo :=
  simdTypes.find? (fun s => s.name = n)

def isSimd : Ty → Bool
  | .named n => (simdLookup n).isSome
  | _ => false

/-- Byte size of the `types.Tuple` struct as measured by the (self-admittedly
wrong) `reflect` call in `sizeof`: a Go struct holding one slice header. -/
def tupleReflectSize : Nat := 24

/-- `sizeBasic`: size in bytes of a basic type; `none` models the
`panic("Unknown basic type")` default arm. -/
def sizeBasic : BasicKind → Option Nat
  | .bool => some 1
  | .int => some 8
  | .int8 => some 1
  | .int16 => some 2
  | .int32 => some 4
  | .int64 => some 8
  | .uint => some 8
  | .uint8 => some 1
  | .uint16 => some 2
  | .uint32 => some 4
  | .uint64 => some 8
  | .float32 => some 4
  | .float64 => some 8
  | .other => none

/-- `sizeof`: byte size of a static type.  `none` models the fatal panics
(unknown type, non-simd named type). -/
def sizeof : Ty → Option Nat
  | .basic k => sizeBasic k
  | .ptr _ => some pointerSize
  | .slice _ => some sliceSize
  | .array n e => (sizeof e).map (fun s => n * s)
  | .named n => (simdLookup n).map (fun i => i.size)
  | .tuple => some tupleReflectSize
  | .unknown => none

/-- `sizeofElem`: element size of an indexable type; `none` models the panics
(non-indexable type, simd type without an element size). -/
def sizeofElem : Ty → Option Nat
  | .slice e => sizeof e
  | .array _ e => sizeof e
  | .named n =>
    match simdLookup n with
    | some i => if i.elemSize > 0 then some i.elemSize else none
    | none => none
  | _ => none

/-! ### SSA input model

The code generator consumes `ssa.Value`s through `Name()`, `Type()` and the
dynamic type tests `*ssa.Const` (in `allocValueOnDemand`, `sizeof`,
`asmLoadValue`) and `*ssa.Parameter` (in `asmIndexAddr`); a value is therefore
modelled as a name, a static type and the observed kind. -/

inductive VKind where
  | konst (u64 : Nat)
  | parameter
  | opaq
deriving DecidableEq, Repr

structure Value where
  name : String
  typ : Ty
  kind : VKind
deriving DecidableEq, Repr

/-- `ssa.Phi`: edge values (positionally matching the block's predecessors),
plus name, type and comment. -/
structure PhiInstr where
  name : String
  typ : Ty
  comment : String
  edges : List Value
deriving DecidableEq, Repr

/-- A phi node used as an `ssa.Value` (as in the synthesized `ssa.Store` of
`asmJumpPreamble`). -/
def PhiInstr.toValue (p : PhiInstr) : Value := ⟨p.name, p.typ, .opaq⟩

/-- `token.Token` binary operators dispatched by `asmBinOp`. -/
inductive BinTok where
  | add | sub | mul | quo | rem
  | and | or | xor | shl | shr | andNot
  | eql | neq | leq | geq | lss | gtr
  | other
deriving DecidableEq, Repr

structure BinOpInstr where
  name : String
  typ : Ty
  op : BinTok
  x : Value
  y : Value
deriving DecidableEq, Repr

def BinOpInstr.toValue (b : BinOpInstr) : Value := ⟨b.name, b.typ, .opaq⟩

/-- `token.Token` unary operators dispatched by `asmUnOp`: logical negation
(NOT), bitwise complement (XOR), arithmetic negation (SUB), pointer
indirection (MUL). -/
inductive UnTok where
  | not | xor | sub | mul
  | other
deriving DecidableEq, Repr

structure UnOpInstr where
  name : String
  typ : Ty
  op : UnTok
  x : Value
deriving DecidableEq, Repr

structure StoreInstr where
  addr : Value
  val : Value
deriving DecidableEq, Repr

/-- `ssa.Alloc` appearing as an instruction (`asmAllocInstr`). -/
structure AllocInstr where
  name : String
  typ : Ty
  heap : Bool
deriving DecidableEq, Repr

structure IndexAddrInstr where
  name : String
  typ : Ty
  x : Value
  index : Value
deriving DecidableEq, Repr

structure RetInstr where
  results : List Value
deriving DecidableEq, Repr

/-- Supported SSA instruction kinds.  The many kinds the dispatcher
`asmInstr` renders only as a descriptive comment (`ssa.Call`,
`ssa.MakeChan`, ... — they differ only in the comment's text) are modelled
uniformly by `unsupported` carrying that text. -/
inductive Instr where
  | alloc (a : AllocInstr)
  | binOp (b : BinOpInstr)
  | cond (c : Value)
  | indexAddr (ia : IndexAddrInstr)
  | jump
  | phi (p : PhiInstr)
  | ret (r : RetInstr)
  | store (s : StoreInstr)
  | unOp (u : UnOpInstr)
  | unsupported (text : String)
deriving DecidableEq, Repr

/-- `ssa.BasicBlock`: index, instruction list, predecessor and successor
blocks (only their `Index` fields are read, so they are stored as indexes). -/
structure Block where
  index : Nat
  instrs : List Instr
  preds : List Nat
  succs : List Nat
deriving DecidableEq, Repr

/-- `ssa.Alloc` entries of `ssa.Function.Locals`: name, the alloc's (pointer)
type, heap flag. -/
structure LocalDecl where
  name : String
  typ : Ty
  heap : Bool
deriving DecidableEq, Repr

/-- The input `ssa.Function`: ordered parameters, declared locals, basic
blocks, signature result types, output name. -/
structure SsaFn where
  name : String
  params : List (String × Ty)
  locals : List LocalDecl
  blocks : List Block
  results : List Ty
deriving DecidableEq, Repr

/-! ### Name binding table and compilation state -/

/-- `varInfo`: a stack-pointer-relative local slot.  The `info *ssa.Alloc`
back-reference is observed only through nil-ness (`IsSsaLocal`), modelled by
`isSsa`. -/
structure VarInfo where
  name : String
  offset : Nat
  size : Nat
  isSsa : Bool
deriving DecidableEq, Repr

/-- `paramInfo`: a frame-pointer-relative parameter (or return) slot; `extra`
holds the slice length offset when the parameter is a slice. -/
structure ParamInfo where
  name : String
  offset : Nat
  size : Nat
  lenOffset : Option Nat
deriving DecidableEq, Repr

/-- `nameInfo`: binding of one SSA name to a storage location.  The source's
field name `local` is a reserved word in Lean and is rendered `locl`. -/
structure NameInfo where
  name : String
  typ : Ty
  locl : Option VarInfo
  param : Option ParamInfo
deriving DecidableEq, Repr

def NameInfo.IsSsaLocal (n : NameInfo) : Bool :=
  match n.locl with
  | some v => v.isSsa
  | none => false

def NameInfo.IsPointer (n : NameInfo) : Bool :=
  match n.typ with
  | .ptr _ => true
  | _ => false

/-- Compilation state of one function (`Function` receiver fields that
mutate): the name binding table, the register in-use map, the phi edge-copy
map, plus two ghost counters recording the number of register-pool allocate
and free calls (for the register-balance property). -/
structure FState where
  ssaNames : List (String × NameInfo)
  registers : List (String × Bool)
  phiInfo : List ((Nat × Nat) × List (Value × PhiInstr))
  allocCnt : Nat
  freeCnt : Nat
deriving DecidableEq, Repr

/-- Go map lookup on the association-list model. -/
def mapGet {α : Type} (m : List (String × α)) (k : String) : Option α :=
  (m.find? (fun e => e.1 = k)).map (fun e => e.2)

/-- Go map insert: replace in place if the key exists, else append. -/
def mapSet {α : Type} : List (String × α) → String → α → List (String × α)
  | [], k, v => [(k, v)]
  | e :: rest, k, v =>
    if e.1 = k then (k, v) :: rest else e :: mapSet rest k v

/-- Lookup in the nested phi map `phiInfo[pred][succ]` (a missing key reads
as the empty list, as for a Go map and nil slice). -/
def phiGet (pi : List ((Nat × Nat) × List (Value × PhiInstr))) (p b : Nat) :
    List (Value × PhiInstr) :=
  ((pi.find? (fun e => e.1 = (p, b))).map (fun e => e.2)).getD []

/-- Append one edge-copy entry under key `(p, b)`. -/
def phiAppend (pi : List ((Nat × Nat) × List (Value × PhiInstr))) (p b : Nat)
    (entry : Value × PhiInstr) : List ((Nat × Nat) × List (Value × PhiInstr)) :=
  match pi with
  | [] => [((p, b), [entry])]
  | e :: rest =>
    if e.1 = (p, b) then (e.1, e.2 ++ [entry]) :: rest
    else e :: phiAppend rest p b entry

/-- Emission result: `ok` and `err` (a returned `*codegen.Error`) carry the
state; `fatal` models `panic`. -/
inductive ERes (α : Type) where
  | ok (a : α) (st : FState)
  | err (msg : String) (st : FState)
  | fatal (msg : String)
deriving DecidableEq, Repr

def ERes.bind {α β : Type} : ERes α → (α → FState → ERes β) → ERes β
  | .ok a st, f => f a st
  | .err m st, _ => .err m st
  | .fatal m, _ => .fatal m

/-- Lift an `Option` produced by a size computation into `ERes`, `none`
becoming the given panic message. -/
def liftOpt {α : Type} (o : Option α) (msg : String) (st : FState) : ERes α :=
  match o with
  | some a => .ok a st
  | none => .fatal msg

/-! ### Assembly text rendering (missing helper file, spec-modelled)

Each helper renders one (or a list of) output lines following the output
contract: memory operands as `sym+offset(baseRegister)`, immediates as a
dollar sign and the decimal value, labels as `blockN`. -/

/-- `f.Indent`, set to eight spaces by `CreateFunction`. -/
def indent : String := "        "

/-- A comment output line: the indent, the comment marker, the body. -/
def commentLine (body : String) : String := indent ++ "// " ++ body

/-- Modelled from the spec: memory-operand rendering `sym+offset(reg)`. -/
def memOp (name : String) (offset : Nat) (reg : Register) : String :=
  name ++ "+" ++ numStr offset ++ "(" ++ reg.name ++ ")"

/-- Modelled from the spec: add an immediate to a register. -/
def asmAddImm32Reg (ind : String) (imm : Nat) (r : Register) : String :=
  ind ++ "ADDQ $" ++ numStr imm ++ ", " ++ r.name

/-- Modelled from the spec: subtract an immediate from a register. -/
def asmSubImm32Reg (ind : String) (imm : Nat) (r : Register) : String :=
  ind ++ "SUBQ $" ++ numStr imm ++ ", " ++ r.name

/-- Modelled from the spec: load an immediate into a register. -/
def asmMovImm64Reg (ind : String) (imm : Nat) (r : Register) : String :=
  ind ++ "MOVQ $" ++ numStr imm ++ ", " ++ r.name

/-- Modelled from the spec: load one machine word from memory into a register. -/
def asmMovMemReg (ind : String) (name : String) (offset : Nat) (src dst : Register) :
    String :=
  ind ++ "MOVQ " ++ memOp name offset src ++ ", " ++ dst.name

/-- Modelled from the spec: store one machine word from a register to memory. -/
def asmMovRegMem (ind : String) (reg : Register) (name : String) (dst : Register)
    (offset : Nat) : String :=
  ind ++ "MOVQ " ++ reg.name ++ ", " ++ memOp name offset dst

/-- Modelled from the spec: compare a memory operand against an immediate. -/
def asmCmpMemImm32 (ind : String) (name : String) (offset : Nat) (r : Register)
    (imm : Nat) : String :=
  ind ++ "CMPQ " ++ memOp name offset r ++ ", $" ++ numStr imm

/-- Modelled from the spec: load-effective-address into a register. -/
def asmLea (ind : String) (name : String) (offset : Nat) (base dst : Register) :
    String :=
  ind ++ "LEAQ " ++ memOp name offset base ++ ", " ++ dst.name

/-- Modelled from the spec: add one register into another. -/
def asmAddRegReg (ind : String) (src dst : Register) : String :=
  ind ++ "ADDQ " ++ src.name ++ ", " ++ dst.name

/-- Modelled from the spec: the return instruction. -/
def asmRet (ind : String) : List String := [ind ++ "RET"]

/-- Modelled from the spec: zero `size` bytes of memory in machine-word
stores at increasing offsets. -/
def asmZeroMemory (ind : String) (name : String) (offset size : Nat) (reg : Register) :
    List String :=
  (List.range (size / 8)).map
    (fun i => ind ++ "MOVQ $0, " ++ memOp name (offset + i * 8) reg)

/-- Modelled from the spec: indirect load — load the pointer, load through
it, store the result — using two scratch registers. -/
def asmMovMemIndirectMem (ind : String) (name : String) (offset : Nat) (reg : Register)
    (dstName : String) (dstOffset : Nat) (dstReg : Register) (size : Nat)
    (tmp1 tmp2 : Register) : List String :=
  [ind ++ "MOVQ " ++ memOp name offset reg ++ ", " ++ tmp1.name,
   ind ++ "MOVQ (" ++ tmp1.name ++ "), " ++ tmp2.name,
   ind ++ "MOVQ " ++ tmp2.name ++ ", " ++ memOp dstName dstOffset dstReg ++
     " // size " ++ numStr size]

/-- Mnemonic selection for the arithmetic operator family. -/
def arithMnemonic : BinTok → String
  | .add => "ADDQ" | .sub => "SUBQ" | .mul => "IMULQ" | .quo => "IDIVQ"
  | .rem => "IDIVQ" | _ => "?"

/-- Modelled from the spec: arithmetic binary operation on two operand
registers writing the result register. -/
def asmArithOp (ind : String) (op : BinTok) (x y val : Register) : List String :=
  [ind ++ arithMnemonic op ++ " " ++ x.name ++ ", " ++ y.name ++ ", " ++ val.name]

def bitwiseMnemonic : BinTok → String
  | .and => "ANDQ" | .or => "ORQ" | .xor => "XORQ" | .shl => "SHLQ"
  | .shr => "SHRQ" | .andNot => "ANDNQ" | _ => "?"

/-- Modelled from the spec: bitwise binary operation. -/
def asmBitwiseOp (ind : String) (op : BinTok) (x y val : Register) : List String :=
  [ind ++ bitwiseMnemonic op ++ " " ++ x.name ++ ", " ++ y.name ++ ", " ++ val.name]

def cmpMnemonic : BinTok → String
  | .eql => "SETEQ" | .neq => "SETNE" | .leq => "SETLE" | .geq => "SETGE"
  | .lss => "SETLT" | .gtr => "SETGT" | _ => "?"

/-- Modelled from the spec: comparison producing a word-promoted boolean. -/
def asmCmpOp (ind : String) (op : BinTok) (x y val : Register) : List String :=
  [ind ++ "CMPQ " ++ x.name ++ ", " ++ y.name,
   ind ++ cmpMnemonic op ++ " " ++ val.name]

/-! ### Pretty-printing of SSA entities for comment lines

The source interpolates `%v` of `ssa` package values into comment text; that
rendering comes from the external `ssa` library and is modelled by simple
deterministic functions of the observed fields. -/

def Value.str (v : Value) : String :=
  match v.kind with
  | .konst u => numStr u
  | _ => v.name

def PhiInstr.str (p : PhiInstr) : String :=
  "phi [" ++ String.intercalate ", " (p.edges.map Value.str) ++ "]"

def unTokStr : UnTok → String
  | .not => "!" | .xor => "^" | .sub => "-" | .mul => "*" | .other => "?"

def UnOpInstr.str (u : UnOpInstr) : String := unTokStr u.op ++ u.x.str

def IndexAddrInstr.str (ia : IndexAddrInstr) : String :=
  "&" ++ ia.x.str ++ "[" ++ ia.index.str ++ "]"

def binTokStr : BinTok → String
  | .add => "+" | .sub => "-" | .mul => "*" | .quo => "/" | .rem => "%"
  | .and => "&" | .or => "|" | .xor => "^" | .shl => "<<" | .shr => ">>"
  | .andNot => "&^" | .eql => "==" | .neq => "!=" | .leq => "<=" | .geq => ">="
  | .lss => "<" | .gtr => ">" | .other => "?"

def BinOpInstr.str (b : BinOpInstr) : String :=
  b.x.str ++ " " ++ binTokStr b.op ++ " " ++ b.y.str

/-! ### Name binding table operations -/

/-- `nameInfo.MemRegOffsetSize`: base register, offset and size of a binding;
`fatal` models the panic when the binding is neither local nor param. -/
def NameInfo.MemRegOffsetSize (n : NameInfo) (st : FState) :
    ERes (Register × Nat × Nat) :=
  match n.locl with
  | some v => .ok (getRegister REG_SP, v.offset, v.size) st
  | none =>
    match n.param with
    | some p => .ok (getRegister REG_FP, p.offset, p.size) st
    | none => .fatal "nameInfo is not a local or param"

/-- The 32-bit local-size sum over a name table (the body of `localsSize`). -/
def localsSizeT (tbl : List (String × NameInfo)) : Nat :=
  tbl.foldl
    (fun acc e =>
      match e.2.locl with
      | some v => (acc + v.size % 4294967296) % 4294967296
      | none => acc) 0

/-- `localsSize`: 32-bit sum of the sizes of all local bindings.  The Go map
iteration order is irrelevant here because 32-bit addition is commutative (see
`localsSize_perm`), so the canonical list order is used. -/
def localsSize (st : FState) : Nat := localsSizeT st.ssaNames

/-- `allocReg` catalog scan: first non-excluded free register of the wanted
class and width. -/
def findFreeReg (st : FState) (t : RegType) (size : Nat) : Option Register :=
  registers.find? (fun r =>
    ¬ (excludedRegisters.any (fun e => e.name = r.name)) ∧
    ((mapGet st.registers r.name).getD false) = false ∧
    r.typ = t ∧ r.width = size * 8)

/-- `allocReg`: allocate a register of class `t` and byte width `size`; an
address-class request falls back to the data class (the source re-invokes
itself once with `DataReg`); exhaustion is a panic.  The ghost `allocCnt` is
incremented once per successful acquisition. -/
def allocReg (st : FState) (t : RegType) (size : Nat) : ERes Register :=
  match findFreeReg st t size with
  | some r =>
    .ok r { st with registers := mapSet st.registers r.name true,
                    allocCnt := st.allocCnt + 1 }
  | none =>
    match t with
    | .addr =>
      match findFreeReg st .data size with
      | some r =>
        .ok r { st with registers := mapSet st.registers r.name true,
                        allocCnt := st.allocCnt + 1 }
      | none => .fatal "couldn't alloc register"
    | .data => .fatal "couldn't alloc register"

/-- `freeReg`: mark the register available; the ghost `freeCnt` counts the
call. -/
def freeReg (st : FState) (r : Register) : FState :=
  { st with registers := mapSet st.registers r.name false,
            freeCnt := st.freeCnt + 1 }

/-- `asmAllocLocal`: create a local binding at offset `localsSize` with the
type's size, promoting a 1-byte size to a machine word; the binding is
inserted into the table.  (Its `*Error` result is always nil in the source;
the only failure is the `sizeof` panic.) -/
def asmAllocLocal (st : FState) (name : String) (typ : Ty) : ERes NameInfo :=
  ERes.bind (liftOpt (sizeof typ) "Error unknown type in sizeof" st)
    (fun size st =>
      let size := if size = 1 then 8 else size
      let v : VarInfo := ⟨name, localsSize st, size, false⟩
      let info : NameInfo := ⟨name, typ, some v, none⟩
      .ok info { st with ssaNames := mapSet st.ssaNames name info })

/-- `allocValueOnDemand`: no-op for an already-bound name and for constants;
otherwise allocate a local slot for the value. -/
def allocValueOnDemand (st : FState) (v : Value) : ERes Unit :=
  if (mapGet st.ssaNames v.name).isSome then .ok () st
  else
    match v.kind with
    | .konst _ => .ok () st
    | _ => ERes.bind (asmAllocLocal st v.name v.typ) (fun _ st => .ok () st)

/-- `Function.sizeof` on a value: constants via their type, names via the
bound location; an unknown name is a panic. -/
def fsizeof (st : FState) (v : Value) : ERes Nat :=
  match v.kind with
  | .konst _ => liftOpt (sizeof v.typ) "Error unknown type in sizeof" st
  | _ =>
    match mapGet st.ssaNames v.name with
    | none => .fatal "Unknown name in sizeof"
    | some info =>
      ERes.bind (info.MemRegOffsetSize st) (fun rs st => .ok rs.2.2 st)

/-- `asmLoadValue`: constants become immediate loads; named values are loaded
from their bound location; a bound size that is not a multiple of 8, or a
requested size other than 8, is a panic.  (These calls read but do not mutate
the state, matching the source.) -/
def asmLoadValue (st : FState) (v : Value) (offset size : Nat) (reg : Register) :
    ERes (List String) :=
  match v.kind with
  | .konst u => .ok [asmMovImm64Reg indent u reg] st
  | _ =>
    match mapGet st.ssaNames v.name with
    | none => .fatal "Unknown name in asmLoadValue"
    | some info =>
      ERes.bind (info.MemRegOffsetSize st) (fun rs st =>
        let r := rs.1
        let roffset := rs.2.1
        let rsize := rs.2.2
        if rsize % 8 ≠ 0 ∨ size ≠ 8 then
          .fatal "Non 64bit sized value in asmLoadValue"
        else .ok [asmMovMemReg indent info.name (roffset + offset) r reg] st)

/-- `asmStoreReg`: store a register to a binding's location at an offset; a
1-byte bound size reads as a machine word; a non-multiple-of-8 size is a
panic. -/
def asmStoreReg (st : FState) (reg : Register) (addr : NameInfo) (offset : Nat) :
    ERes (List String) :=
  ERes.bind (addr.MemRegOffsetSize st) (fun rs st =>
    let r := rs.1
    let roffset := rs.2.1
    let rsize := if rs.2.2 = 1 then 8 else rs.2.2
    if rsize % 8 ≠ 0 then .fatal "Non multiple of 8 byte sized value in asmStoreReg"
    else .ok [asmMovRegMem indent reg addr.name r (offset + roffset)] st)

/-! ### Store emission -/

/-- `intSize`: the machine word size in bytes. -/
def intSize : Nat := 8

def retName : String := "ret0"

/-- The chunk loop of `asmStoreValAddr`: per word index, load the chunk into
the scratch register and store it to the destination at the matching offset. -/
def storeChunks (st : FState) (val : Value) (addr : NameInfo) (valReg : Register) :
    List Nat → ERes (List String)
  | [] => .ok [] st
  | i :: rest =>
    ERes.bind (asmLoadValue st val (i * intSize) intSize valReg) (fun l1 st =>
    ERes.bind (asmStoreReg st valReg addr (i * intSize)) (fun l2 st =>
    ERes.bind (storeChunks st val addr valReg rest) (fun ls st =>
    .ok (l1 ++ l2 ++ ls) st)))

/-- `asmStoreValAddr`: copy `val` into the binding `addr` in machine-word
chunks.  The size check `size % intSize == 0` is guarded by
`size > intSize` in the source, exactly as here. -/
def asmStoreValAddr (st : FState) (val : Value) (addr : NameInfo) :
    ERes (List String) :=
  ERes.bind (allocValueOnDemand st val) (fun _ st =>
  if addr.locl = none ∧ addr.param = none then
    .err "In asmStoreValAddr invalid addr" st
  else
    ERes.bind (fsizeof st val) (fun size st =>
    let iterations := size / intSize
    if size > intSize ∧ size % intSize ≠ 0 then
      .fatal "size not multiple of intSize in asmStore"
    else
      ERes.bind (allocReg st .data intSize) (fun valReg st =>
      ERes.bind (storeChunks st val addr valReg (List.range iterations)) (fun body st =>
      let st := freeReg st valReg
      .ok ([commentLine ("BEGIN asmStoreValAddr addr name:" ++ addr.name ++
              ", val name:" ++ val.name)] ++ body ++
           [commentLine ("END asmStoreValAddr addr name:" ++ addr.name ++
              ", val name:" ++ val.name)]) st))))

/-- The chunk loop of `asmStore`: the destination binding is looked up by
name inside the loop (each iteration), a missing name being a panic. -/
def storeChunksAddr (st : FState) (val : Value) (addrName : String)
    (valReg : Register) : List Nat → ERes (List String)
  | [] => .ok [] st
  | i :: rest =>
    ERes.bind (asmLoadValue st val (i * intSize) intSize valReg) (fun l1 st =>
    match mapGet st.ssaNames addrName with
    | none => .fatal "Unknown name in asmStore"
    | some addr =>
      ERes.bind (asmStoreReg st valReg addr (i * intSize)) (fun l2 st =>
      ERes.bind (storeChunksAddr st val addrName valReg rest) (fun ls st =>
      .ok (l1 ++ l2 ++ ls) st)))

/-- `asmStore` (`ssa.Store` lowering): allocate both operands on demand and
copy the value to the address in machine-word chunks. -/
def asmStore (st : FState) (instr : StoreInstr) : ERes (List String) :=
  ERes.bind (allocValueOnDemand st instr.val) (fun _ st =>
  ERes.bind (allocValueOnDemand st instr.addr) (fun _ st =>
  ERes.bind (fsizeof st instr.val) (fun size st =>
  let iterations := size / intSize
  if size > intSize ∧ size % intSize ≠ 0 then
    .fatal "size not multiple of intSize in asmStore"
  else
    ERes.bind (allocReg st .data intSize) (fun valReg st =>
    ERes.bind (storeChunksAddr st instr.val instr.addr.name valReg
        (List.range iterations)) (fun body st =>
    let st := freeReg st valReg
    .ok ([commentLine ("BEGIN ssa.Store addr name:" ++ instr.addr.name ++
            ", val name:" ++ instr.val.name)] ++ body ++
         [commentLine ("END ssa.Store addr name:" ++ instr.addr.name ++
            ", val name:" ++ instr.val.name)]) st)))))

/-! ### Binary operations -/

/-- Operator-family dispatch of `asmBinOp`; an unknown operator is a panic. -/
def binOpLines (op : BinTok) (x y val : Register) (st : FState) :
    ERes (List String) :=
  match op with
  | .add | .sub | .mul | .quo | .rem => .ok (asmArithOp indent op x y val) st
  | .and | .or | .xor | .shl | .shr | .andNot => .ok (asmBitwiseOp indent op x y val) st
  | .eql | .neq | .leq | .geq | .lss | .gtr => .ok (asmCmpOp indent op x y val) st
  | .other => .fatal "Unknown op in asmBinOp"

/-- `asmBinOpLoadXY`: allocate the instruction and both operands on demand,
allocate one register per operand and load the operands. -/
def asmBinOpLoadXY (st : FState) (instr : BinOpInstr) :
    ERes (List String × Register × Register) :=
  ERes.bind (allocValueOnDemand st instr.toValue) (fun _ st =>
  ERes.bind (allocValueOnDemand st instr.x) (fun _ st =>
  ERes.bind (allocValueOnDemand st instr.y) (fun _ st =>
  ERes.bind (fsizeof st instr.x) (fun sx st =>
  ERes.bind (allocReg st .data sx) (fun x st =>
  ERes.bind (fsizeof st instr.y) (fun sy st =>
  ERes.bind (allocReg st .data sy) (fun y st =>
  ERes.bind (asmLoadValue st instr.x 0 sx x) (fun lx st =>
  ERes.bind (asmLoadValue st instr.y 0 sy y) (fun ly st =>
  .ok (lx ++ ly, x, y) st)))))))))

/-- `asmBinOp`: result register (1-byte results are promoted to a word),
operand loading, operator dispatch, frees, result store. -/
def asmBinOp (st : FState) (instr : BinOpInstr) : ERes (List String) :=
  ERes.bind (allocValueOnDemand st instr.toValue) (fun _ st =>
  ERes.bind (fsizeof st instr.toValue) (fun sz st =>
  ERes.bind (if sz = 1 then allocReg st .data (8 * sz) else allocReg st .data sz)
    (fun regVal st =>
  ERes.bind (asmBinOpLoadXY st instr) (fun lxy st =>
  ERes.bind (binOpLines instr.op lxy.2.1 lxy.2.2 regVal st) (fun opLines st =>
  let st := freeReg st lxy.2.1
  let st := freeReg st lxy.2.2
  match mapGet st.ssaNames instr.name with
  | none => .fatal "Unknown name in asmBinOp"
  | some addr =>
    ERes.bind (asmStoreReg st regVal addr 0) (fun sl st =>
    let st := freeReg st regVal
    .ok ([commentLine ("BEGIN ssa.BinOp, " ++ instr.name ++ " = " ++ instr.str)] ++
         lxy.1 ++ opLines ++ sl ++
         [commentLine ("END ssa.BinOp, " ++ instr.name ++ " = " ++ instr.str)]) st))))))

/-! ### Unary operations -/

/-- `asmUnOpNot` (logical negation): comment-only placeholder emission. -/
def asmUnOpNot (st : FState) (instr : UnOpInstr) : ERes (List String) :=
  .ok [commentLine ("instr " ++ instr.str)] st

/-- `asmUnOpXor` (bitwise complement): comment-only placeholder emission. -/
def asmUnOpXor (st : FState) (instr : UnOpInstr) : ERes (List String) :=
  .ok [commentLine ("instr " ++ instr.str)] st

/-- `asmUnOpSub` (arithmetic negation): comment-only placeholder emission. -/
def asmUnOpSub (st : FState) (instr : UnOpInstr) : ERes (List String) :=
  .ok [commentLine ("instr " ++ instr.str)] st

/-- `asmUnOpPointer` (pointer indirection): indirect load through two scratch
registers into the (possibly on-demand) destination slot. -/
def asmUnOpPointer (st : FState) (instr : UnOpInstr) : ERes (List String) :=
  let assignmentOpt := mapGet st.ssaNames instr.name
  match mapGet st.ssaNames instr.x.name with
  | none => .fatal "Unknown name for UnOp X"
  | some xInfo =>
    if xInfo.locl = none ∧ xInfo.param = none ∧ xInfo.IsPointer = false then
      .fatal "In UnOp, X isn't a pointer"
    else
      ERes.bind (match assignmentOpt with
                 | some a => .ok a st
                 | none => asmAllocLocal st instr.name instr.typ) (fun assignment st =>
      ERes.bind (xInfo.MemRegOffsetSize st) (fun xrs st =>
      ERes.bind (assignment.MemRegOffsetSize st) (fun ars st =>
      if xrs.2.2 ≠ ars.2.2 then .fatal "xSize != aSize in asmUnOpPointer"
      else
        ERes.bind (allocReg st .data DataRegSize) (fun tmp1 st =>
        ERes.bind (allocReg st .data DataRegSize) (fun tmp2 st =>
        let lines := asmMovMemIndirectMem indent xInfo.name xrs.2.1 xrs.1
          assignment.name ars.2.1 ars.1 ars.2.2 tmp1 tmp2
        let st := { st with ssaNames := mapSet st.ssaNames assignment.name assignment }
        let st := freeReg st tmp1
        let st := freeReg st tmp2
        .ok lines st)))))

/-- `asmUnOp`: dispatch on the four unary operator categories (an unknown
operator is a panic) and wrap the emission in BEGIN/END comment lines. -/
def asmUnOp (st : FState) (instr : UnOpInstr) : ERes (List String) :=
  ERes.bind (match instr.op with
    | .not => asmUnOpNot st instr
    | .xor => asmUnOpXor st instr
    | .sub => asmUnOpSub st instr
    | .mul => asmUnOpPointer st instr
    | .other => .fatal "Unknown Op token in asmUnOp") (fun lines st =>
  .ok ([commentLine ("BEGIN ssa.UnOp: " ++ instr.name ++ " = " ++ instr.str)] ++
       lines ++
       [commentLine ("END ssa.UnOp: " ++ instr.name ++ " = " ++ instr.str)]) st)

/-! ### Indexed address computation -/

/-- `asmIndexAddr`: destination slot on demand; then exactly the constant-
index and parameter-index forms produce address code, any other index form an
inert comment.  (The source's extra `f.ssaNames[instr.Name()] = assignment`
writes re-insert the value already present, which `mapSet` renders
faithfully.) -/
def asmIndexAddr (st : FState) (instr : IndexAddrInstr) : ERes (List String) :=
  let xInfoOpt := mapGet st.ssaNames instr.x.name
  ERes.bind (match mapGet st.ssaNames instr.name with
             | some a => .ok a st
             | none => asmAllocLocal st instr.name instr.typ) (fun assignment st =>
  ERes.bind (match instr.index.kind with
    | .konst u =>
      ERes.bind (allocReg st .data pointerSize) (fun tmpReg st =>
      match xInfoOpt with
      | none => .fatal "not an array or slice type"
      | some xInfo =>
        ERes.bind (liftOpt (sizeofElem xInfo.typ) "not an array or slice type" st)
          (fun size st =>
        ERes.bind (xInfo.MemRegOffsetSize st) (fun xrs st =>
        ERes.bind (assignment.MemRegOffsetSize st) (fun ars st =>
        .ok [asmLea indent xInfo.name (xrs.2.1 + u * size) xrs.1 tmpReg,
             asmMovRegMem indent tmpReg assignment.name ars.1 ars.2.1]
          (freeReg st tmpReg)))))
    | .parameter =>
      let pOpt := mapGet st.ssaNames instr.index.name
      ERes.bind (allocReg st .data pointerSize) (fun tmpReg st =>
      ERes.bind (allocReg st .data pointerSize) (fun tmp2Reg st =>
      match xInfoOpt with
      | none => .fatal "nameInfo is not a local or param"
      | some xInfo =>
        ERes.bind (xInfo.MemRegOffsetSize st) (fun xrs st =>
        match pOpt with
        | none => .fatal "nameInfo is not a local or param"
        | some p =>
          ERes.bind (p.MemRegOffsetSize st) (fun prs st =>
          if prs.2.2 ≠ 8 then .fatal "Index size not 8 bytes in asmIndexAddr"
          else
            ERes.bind (assignment.MemRegOffsetSize st) (fun ars st =>
            .ok [asmMovMemReg indent p.name prs.2.1 prs.1 tmp2Reg,
                 asmLea indent xInfo.name xrs.2.1 xrs.1 tmpReg,
                 asmAddRegReg indent tmpReg tmp2Reg,
                 asmMovRegMem indent tmp2Reg assignment.name ars.1 ars.2.1]
              (freeReg (freeReg st tmpReg) tmp2Reg))))))
    | .opaq =>
      .ok [commentLine ("Unsupported ssa.IndexAddr:" ++ instr.str)] st) (fun lines st =>
  .ok ([commentLine ("BEGIN ssa.IndexAddr: " ++ instr.name ++ " = " ++ instr.str)] ++
       lines ++
       [commentLine ("END ssa.IndexAddr: " ++ instr.name ++ " = " ++ instr.str)])
    { st with ssaNames := mapSet st.ssaNames instr.name assignment }))

/-! ### Alloc, phi, branches, return -/

/-- `asmAllocInstr`: heap allocation is a (recoverable) error; the name must
already be bound as a local (slot reservation happened in the locals
pre-pass), else panic; no code is emitted. -/
def asmAllocInstr (st : FState) (instr : AllocInstr) : ERes (List String) :=
  if instr.heap then .err "asmAllocInstr: heap alloc" st
  else
    match mapGet st.ssaNames instr.name with
    | none => .fatal "Expect to be a local variable"
    | some info =>
      if info.locl = none then .fatal "Expect to be a local variable"
      else .ok [] { st with ssaNames := mapSet st.ssaNames instr.name info }

/-- `asmPhi`: ensure the phi's destination slot exists; emit comments only. -/
def asmPhi (st : FState) (phi : PhiInstr) : ERes (List String) :=
  ERes.bind (allocValueOnDemand st phi.toValue) (fun _ st =>
  .ok [commentLine ("BEGIN ssa.Phi, name (" ++ phi.name ++ "), comment (" ++
         phi.comment ++ "), value (" ++ phi.str ++ ")"),
       commentLine ("END ssa.Phi, " ++ phi.str)] st)

/-- The edge loop of `computePhiInstr`: edge `i` is paired with predecessor
`i` of the phi's block; an edge index without a predecessor is a panic. -/
def computePhiEdges (st : FState) (blk : Block) (phi : PhiInstr) :
    List (Nat × Value) → ERes Unit
  | [] => .ok () st
  | (i, edge) :: rest =>
    if h : i < blk.preds.length then
      computePhiEdges
        { st with phiInfo := phiAppend st.phiInfo (blk.preds.get ⟨i, h⟩) blk.index
                              (edge, phi) } blk phi rest
    else .fatal "computePhiInstr: malformed CFG"

/-- `computePhiInstr`: record the edge-copies of one phi node. -/
def computePhiInstr (st : FState) (blk : Block) (phi : PhiInstr) : ERes Unit :=
  computePhiEdges st blk phi phi.edges.enum

/-- `computeBasicBlockPhi`: scan a block's instructions for phi nodes. -/
def computeBasicBlockPhi (st : FState) (blk : Block) : List Instr → ERes Unit
  | [] => .ok () st
  | instr :: rest =>
    match instr with
    | .phi p =>
      ERes.bind (computePhiInstr st blk p) (fun _ st =>
        computeBasicBlockPhi st blk rest)
    | _ => computeBasicBlockPhi st blk rest

/-- `computePhi`: the phi pre-pass over all blocks. -/
def computePhi (st : FState) : List Block → ERes Unit
  | [] => .ok () st
  | blk :: rest =>
    ERes.bind (computeBasicBlockPhi st blk blk.instrs) (fun _ st =>
      computePhi st rest)

/-- The edge-copy loop of `asmJumpPreamble`: each recorded `(value, phi)`
pair becomes a synthesized `ssa.Store` of the value to the phi. -/
def preambleStores (st : FState) : List (Value × PhiInstr) → ERes (List String)
  | [] => .ok [] st
  | (v, p) :: rest =>
    ERes.bind (asmStore st ⟨p.toValue, v⟩) (fun l st =>
    ERes.bind (preambleStores st rest) (fun ls st =>
    .ok (l ++ ls) st))

/-- `asmJumpPreamble`: emit the edge-copies recorded for the edge
`(blockIndex, jmpIndex)`. -/
def asmJumpPreamble (st : FState) (blockIndex jmpIndex : Nat) : ERes (List String) :=
  preambleStores st (phiGet st.phiInfo blockIndex jmpIndex)

/-- `asmJump`: preamble for the single successor edge, then the jump. -/
def asmJump (st : FState) (blk : Block) : ERes (List String) :=
  match blk.succs with
  | [b] =>
    ERes.bind (asmJumpPreamble st blk.index b) (fun pre st =>
    .ok ([commentLine "BEGIN ssa.Jump"] ++ pre ++
         [indent ++ "JMP block" ++ numStr b, commentLine "END ssa.Jump"]) st)
  | _ => .fatal "asmJump: malformed CFG"

/-- `asmIf`: the block must have exactly two successors (else panic); an
unbound condition is a returned (recoverable) error; otherwise false-edge
preamble, compare against zero, JEQ to the false label, true-edge preamble,
JMP to the true label, wrapped in BEGIN/END comments.  The `uint32(offset)`
cast of the source is the `% 2^32`. -/
def asmIf (st : FState) (blk : Block) (cond : Value) : ERes (List String) :=
  match blk.succs with
  | [tblock, fblock] =>
    match mapGet st.ssaNames cond.name with
    | none => .err "asmIf: unhandled case, cond" st
    | some info =>
      ERes.bind (asmJumpPreamble st blk.index fblock) (fun preF st =>
      ERes.bind (info.MemRegOffsetSize st) (fun rs st =>
      ERes.bind (asmJumpPreamble st blk.index tblock) (fun preT st =>
      .ok ([commentLine ("BEGIN ssa.If, if " ++ cond.str)] ++ preF ++
           [asmCmpMemImm32 indent info.name (rs.2.1 % 4294967296) rs.1 0,
            indent ++ "JEQ    block" ++ numStr fblock] ++ preT ++
           [indent ++ "JMP    block" ++ numStr tblock,
            commentLine ("END ssa.If, if " ++ cond.str)]) st)))
  | _ => .fatal "asmIf: malformed CFG"

/-- `paramsSize`: sum of the parameter type sizes (panic on unknown type). -/
def paramsSizeE (fn : SsaFn) (st : FState) : ERes Nat :=
  match fn.params.mapM (fun p => sizeof p.2) with
  | some sizes => .ok sizes.sum st
  | none => .fatal "Error unknown type in sizeof"

/-- `retSize`: size of the return value.  A function with no result reaches
`sizeof(nil)` which panics; more than one result panics in `retType`. -/
def retSizeE (fn : SsaFn) (st : FState) : ERes Nat :=
  match fn.results with
  | [] => .fatal "Error unknown type in sizeof"
  | [t] => liftOpt (sizeof t) "Error unknown type in sizeof" st
  | _ => .fatal "Functions with more than one return value not supported"

/-- `asmCopyToRet`: no value → nothing; more than one → recoverable error;
one value → store it to the synthesized return-slot binding (frame-pointer
relative, at offset `paramsSize`, sized `retSize`). -/
def asmCopyToRet (st : FState) (fn : SsaFn) (vals : List Value) :
    ERes (List String) :=
  match vals with
  | [] => .ok [] st
  | [v] =>
    match fn.results with
    | _ :: _ :: _ => .fatal "Functions with more than one return value not supported"
    | _ =>
      ERes.bind (paramsSizeE fn st) (fun psz st =>
      ERes.bind (retSizeE fn st) (fun rsz st =>
      let rty := match fn.results with | [t] => t | _ => .unknown
      asmStoreValAddr st v ⟨retName, rty, none, some ⟨retName, psz, rsz, none⟩⟩))
  | _ => .err "Multiple return values not supported" st

/-- `asmResetStackPointer`: add `size` to the stack pointer. -/
def asmResetStackPointer (ind : String) (size : Nat) : String :=
  asmAddImm32Reg ind size (getRegister REG_SP)

/-- `asmReturn`: reset the stack pointer by the placeholder `dummySpSize`
(patched later by `fixupRets`), copy the return value, emit RET. -/
def asmReturn (st : FState) (fn : SsaFn) (r : RetInstr) : ERes (List String) :=
  ERes.bind (asmCopyToRet st fn r.results) (fun copy st =>
  .ok ([commentLine "BEGIN ssa.Return", asmResetStackPointer indent dummySpSize] ++
       copy ++ asmRet indent ++ [commentLine "END ssa.Return"]) st)

/-! ### Function assembler -/

/-- The sentinel stack-pointer-reset line emitted by every `asmReturn`. -/
def sentinelLine : String := asmResetStackPointer indent dummySpSize

/-- `fixupRets`: replace every occurrence of the sentinel stack-pointer-reset
text by the reset text for the true frame size.  The source performs
`strings.Replace(asm, old, new, -1)` on the concatenated text; both `old` and
`new` are full newline-terminated lines of identical shape and the emitted
sentinel always stands as a full line, so the faithful line-list rendering
replaces whole lines. -/
def fixupRets (st : FState) (asm : List String) : List String :=
  asm.map (fun l =>
    if l = sentinelLine then asmResetStackPointer indent (localsSize st) else l)

/-- `asmSetStackPointer`: subtract the (final) frame size from SP. -/
def asmSetStackPointer (st : FState) : List String :=
  [asmSubImm32Reg indent (localsSize st) (getRegister REG_SP)]

/-- The parameter loop of `asmParams`: parameters are laid out at cumulative
frame-pointer offsets in declaration order; only slices and plain `int`
parameters are supported (anything else is a recoverable error); slices
record the length-field offset. -/
def asmParamsLoop (st : FState) : Nat → List (String × Ty) → ERes (List String)
  | _, [] => .ok [] st
  | offset, (pname, pty) :: rest =>
    ERes.bind (liftOpt (sizeof pty) "Error unknown type in sizeof" st)
      (fun psize st =>
      let extra : Option (Option Nat) :=
        match pty with
        | .slice _ => some (some (offset + pointerSize))
        | .basic .int => some none
        | _ => none
      match extra with
      | none => .err "Unsupported param type" st
      | some lenOff =>
        let param : ParamInfo := ⟨pname, offset, psize, lenOff⟩
        let st := { st with
          ssaNames := mapSet st.ssaNames pname ⟨pname, pty, none, some param⟩ }
        asmParamsLoop st (offset + psize) rest)

/-- `asmParams`: bind every parameter (the emitted text is empty). -/
def asmParams (st : FState) (fn : SsaFn) : ERes (List String) :=
  asmParamsLoop st 0 fn.params

/-- `asmZeroRetValue`: zero the return slot (frame-pointer relative, at
offset `paramsSize`, sized `retSize`). -/
def asmZeroRetValue (st : FState) (fn : SsaFn) : ERes (List String) :=
  ERes.bind (paramsSizeE fn st) (fun off st =>
  ERes.bind (retSizeE fn st) (fun sz st =>
  .ok (asmZeroMemory indent retName off sz (getRegister REG_FP)) st))

/-- The locals loop of `asmZeroSsaLocals`: heap locals are a recoverable
error; each local's allocated type is the pointee of its (pointer) type; the
slot is bound at the running offset and zeroed. -/
def zeroSsaLoop (st : FState) : Nat → List LocalDecl → ERes (List String)
  | _, [] => .ok [] st
  | offset, l :: rest =>
    if l.heap then .err "Cannot heap alloc local" st
    else
      match l.typ with
      | .ptr typ =>
        ERes.bind (liftOpt (sizeof typ) "Error unknown type in sizeof" st)
          (fun size st =>
          let lines := asmZeroMemory indent l.name offset size (getRegister REG_SP)
          let v : VarInfo := ⟨l.name, offset, size, true⟩
          let st := { st with
            ssaNames := mapSet st.ssaNames l.name ⟨l.name, typ, some v, none⟩ }
          ERes.bind (zeroSsaLoop st (offset + size) rest) (fun ls st =>
          .ok (lines ++ ls) st))
      | _ => .fatal "local value is not a pointer type"

/-- `asmZeroSsaLocals`: zero and bind every declared SSA local. -/
def asmZeroSsaLocals (st : FState) (fn : SsaFn) : ERes (List String) :=
  zeroSsaLoop st 0 fn.locals

/-- The loop of `asmZeroNonSsaLocals` over one iteration order of the name
table: skip non-locals and SSA locals; promote a 1-byte size to a word
(writing through to the table, as the source's pointer write does); zero the
slot. -/
def zeroNonSsaLoop (st : FState) : List (String × NameInfo) → ERes (List String)
  | [] => .ok [] st
  | (_, name) :: rest =>
    match name.locl with
    | none => zeroNonSsaLoop st rest
    | some v =>
      if name.IsSsaLocal then zeroNonSsaLoop st rest
      else
        let v2 := if v.size = 1 then { v with size := 8 } else v
        let st := if v.size = 1 then
            { st with ssaNames := mapSet st.ssaNames name.name { name with locl := some v2 } }
          else st
        ERes.bind (zeroNonSsaLoop st rest) (fun ls st =>
        .ok (asmZeroMemory indent name.name v2.offset v2.size (getRegister REG_SP) ++ ls) st)

/-- `asmZeroNonSsaLocals` ranges over the Go map `f.ssaNames`, whose
iteration order is unspecified; the order is therefore an explicit parameter
`ord` (any permutation of the table models one possible run). -/
def asmZeroNonSsaLocals (ord : List (String × NameInfo) → List (String × NameInfo))
    (st : FState) : ERes (List String) :=
  zeroNonSsaLoop st (ord st.ssaNames)

/-- `asmInstr`: dispatch on the instruction kind.  All the kinds the source
renders as a descriptive comment are the `unsupported` arm. -/
def asmInstr (st : FState) (fn : SsaFn) (blk : Block) : Instr → ERes (List String)
  | .alloc a => asmAllocInstr st a
  | .binOp b => asmBinOp st b
  | .cond c => asmIf st blk c
  | .indexAddr ia => asmIndexAddr st ia
  | .jump => asmJump st blk
  | .phi p => asmPhi st p
  | .ret r => asmReturn st fn r
  | .store s => asmStore st s
  | .unOp u => asmUnOp st u
  | .unsupported text => .ok [indent ++ text] st

/-- The instruction loop of `asmBasicBlock`. -/
def asmInstrs (st : FState) (fn : SsaFn) (blk : Block) : List Instr → ERes (List String)
  | [] => .ok [] st
  | i :: rest =>
    ERes.bind (asmInstr st fn blk i) (fun l st =>
    ERes.bind (asmInstrs st fn blk rest) (fun ls st =>
    .ok (l ++ ls) st))

/-- `asmBasicBlock`: the block label line, then the instructions. -/
def asmBasicBlock (st : FState) (fn : SsaFn) (blk : Block) : ERes (List String) :=
  ERes.bind (asmInstrs st fn blk blk.instrs) (fun ls st =>
  .ok (("block" ++ numStr blk.index ++ ":") :: ls) st)

/-- `asmBasicBlocks`: emit every block in order. -/
def asmBasicBlocks (st : FState) (fn : SsaFn) : List Block → ERes (List String)
  | [] => .ok [] st
  | blk :: rest =>
    ERes.bind (asmBasicBlock st fn blk) (fun l st =>
    ERes.bind (asmBasicBlocks st fn rest) (fun ls st =>
    .ok (l ++ ls) st))

/-- `Function.init` state: empty tables, all catalog registers free. -/
def initState : FState :=
  ⟨[], registers.map (fun r => (r.name, false)), [], 0, 0⟩

/-- The pipeline of `asmFunc` up to (excluding) the frame-size fixup and the
TEXT header: parameters, return-slot zeroing, SSA-local zeroing, phi
pre-pass, basic blocks, zeroing of locals allocated on demand during block
emission; the pieces are concatenated in the source's order (the
stack-pointer set uses the final frame size).  The final state is returned
through `ERes.ok`'s state. -/
def asmFuncBody (ord : List (String × NameInfo) → List (String × NameInfo))
    (fn : SsaFn) : ERes (List String) :=
  ERes.bind (asmParams initState fn) (fun ps st =>
  ERes.bind (asmZeroRetValue st fn) (fun zr st =>
  ERes.bind (asmZeroSsaLocals st fn) (fun zs st =>
  ERes.bind (computePhi st fn.blocks) (fun _ st =>
  ERes.bind (asmBasicBlocks st fn fn.blocks) (fun bbs st =>
  ERes.bind (asmZeroNonSsaLocals ord st) (fun zn st =>
  .ok (ps ++ asmSetStackPointer st ++ zr ++ zs ++ zn ++ bbs) st))))))

/-- The emitted TEXT header: `TEXT ·name(SB),NOSPLIT,$frameSize-paramRetSize`. -/
def headerLine (fname : String) (frameSize paramRetSize : Nat) : String :=
  "TEXT ·" ++ fname ++ "(SB),NOSPLIT,$" ++ numStr frameSize ++ "-" ++
    numStr paramRetSize

/-- `asmFunc`: the full pipeline — body, frame-size fixup, TEXT header. -/
def asmFunc (ord : List (String × NameInfo) → List (String × NameInfo))
    (fn : SsaFn) : ERes (List String) :=
  ERes.bind (asmFuncBody ord fn) (fun asm st =>
  ERes.bind (paramsSizeE fn st) (fun psz st =>
  ERes.bind (retSizeE fn st) (fun rsz st =>
  .ok (headerLine fn.name (localsSize st) (psz + rsz) :: fixupRets st asm) st)))


/-! ### Basic lemmas about the emission monad and the tables -/

@[simp] theorem ERes.bind_ok {α β : Type} (a : α) (st : FState)
    (f : α → FState → ERes β) : ERes.bind (.ok a st) f = f a st := rfl

@[simp] theorem ERes.bind_err {α β : Type} (m : String) (st : FState)
    (f : α → FState → ERes β) : ERes.bind (.err m st) f = .err m st := rfl

@[simp] theorem ERes.bind_fatal {α β : Type} (m : String)
    (f : α → FState → ERes β) : ERes.bind (.fatal m) f = .fatal m := rfl

/-- The 32-bit local-size sum is insensitive to the order of the name table:
the Go map iteration order inside `localsSize` cannot influence its value. -/
theorem localsSize_perm (st st' : FState) (h : st.ssaNames.Perm st'.ssaNames) :
    localsSize st = localsSize st' := by
  unfold localsSize localsSizeT
  haveI : RightCommutative (fun (acc : Nat) (e : String × NameInfo) =>
      match e.2.locl with
      | some v => (acc + v.size % 4294967296) % 4294967296
      | none => acc) := by
    constructor
    intro acc e e'
    rcases e.2.locl with _ | v <;> rcases e'.2.locl with _ | v' <;> simp <;> omega
  exact h.foldl_eq 0


/-! ### C6: allocate-on-demand -/

/-- **C6.**  For every SSA value passed to `allocValueOnDemand`: an already
bound value is a no-op; a constant gets no binding (state unchanged);
otherwise a new Local binding is created at the next free offset — the
current 32-bit total of local slot sizes — sized by the value's type, a
1-byte size being promoted to the 8-byte machine word. -/
theorem allocValueOnDemand_spec (st : FState) (v : Value) :
    ((mapGet st.ssaNames v.name).isSome → allocValueOnDemand st v = .ok () st) ∧
    (mapGet st.ssaNames v.name = none → (∀ u, v.kind = .konst u →
      allocValueOnDemand st v = .ok () st)) ∧
    (mapGet st.ssaNames v.name = none → (∀ u, v.kind ≠ .konst u) →
      ∀ sz, sizeof v.typ = some sz →
        allocValueOnDemand st v = .ok ()
          { st with ssaNames := mapSet st.ssaNames v.name (NameInfo.mk v.name v.typ (some (VarInfo.mk v.name (localsSize st) (if sz = 1 then 8 else sz) false)) none) }) := by
  refine ⟨?_, ?_, ?_⟩
  · intro h
    unfold allocValueOnDemand
    simp [h]
  · intro h u hk
    unfold allocValueOnDemand
    simp [h, hk]
  · intro h hk sz hsz
    unfold allocValueOnDemand asmAllocLocal
    rcases hv : v.kind with u | _ | _
    · exact absurd hv (hk u)
    all_goals simp [h, hv, liftOpt, hsz]

/-- Witness for C6: allocating an unbound 1-byte (int8) value in the initial
state binds it at offset 0 with the promoted word size 8. -/
theorem allocValueOnDemand_spec_witness :
    allocValueOnDemand initState ⟨"t7", .basic .int8, .opaq⟩ = .ok ()
      { initState with ssaNames :=
          [("t7", ⟨"t7", .basic .int8, some ⟨"t7", 0, 8, false⟩, none⟩)] } :=
  (allocValueOnDemand_spec initState ⟨"t7", .basic .int8, .opaq⟩).2.2
    rfl (fun _ h => VKind.noConfusion h) 1 rfl

/-! ### C10: unary operations other than pointer dereference are comment-only -/

/-- A line whose first ten characters differ from `indent ++ "//"` is not a
comment line. -/
theorem ne_commentLine_of_take (l : String)
    (h10 : l.data.take 10 ≠ indent.data ++ ['/', '/']) :
    ∀ body, l ≠ commentLine body := by
  intro body h
  apply h10
  rw [h]
  show ((indent ++ ("// " ++ body)).data).take 10 = _
  rw [String.data_append, String.data_append, List.take_append_eq_append_take]
  norm_num [indent]

/-- **C10.**  For every unary operation whose operator is logical negation
(NOT), bitwise complement (XOR) or arithmetic negation (SUB), the emitter
returns successfully with an unchanged state, emitting only comment lines
(the BEGIN/END wrapper and a comment naming the instruction) and no machine
instruction; only the fourth category, pointer dereference (MUL), produces a
non-comment (executable) line. -/
theorem asmUnOp_comment_only (st : FState) (u : UnOpInstr)
    (hop : u.op = .not ∨ u.op = .xor ∨ u.op = .sub) :
    asmUnOp st u = .ok
      [commentLine ("BEGIN ssa.UnOp: " ++ u.name ++ " = " ++ u.str),
       commentLine ("instr " ++ u.str),
       commentLine ("END ssa.UnOp: " ++ u.name ++ " = " ++ u.str)] st ∧
    (∃ stp up lines stp2, up.op = UnTok.mul ∧ asmUnOp stp up = .ok lines stp2 ∧
      ∃ l, l ∈ lines ∧ ∀ body, l ≠ commentLine body) := by
  constructor
  · rcases hop with h | h | h <;>
      simp [asmUnOp, h, asmUnOpNot, asmUnOpXor, asmUnOpSub]
  · exact ⟨⟨[("p", ⟨"p", .ptr (.basic .int), some ⟨"p", 0, 8, false⟩, none⟩),
              ("t0", ⟨"t0", .basic .int, some ⟨"t0", 8, 8, false⟩, none⟩)],
             initState.registers, [], 0, 0⟩,
            ⟨"t0", .basic .int, .mul, ⟨"p", .ptr (.basic .int), .opaq⟩⟩,
            _, _, rfl, rfl, "        MOVQ p+0(SP), RAX", by decide,
            ne_commentLine_of_take _ (by decide)⟩

/-- Witness for C10 at a concrete logical-negation instruction. -/
theorem asmUnOp_comment_only_witness :
    asmUnOp initState ⟨"t1", .basic .bool, .not, ⟨"x", .basic .bool, .opaq⟩⟩ =
      .ok [commentLine "BEGIN ssa.UnOp: t1 = !x", commentLine "instr !x",
           commentLine "END ssa.UnOp: t1 = !x"] initState :=
  (asmUnOp_comment_only initState
    ⟨"t1", .basic .bool, .not, ⟨"x", .basic .bool, .opaq⟩⟩ (Or.inl rfl)).1

/-! ### C5: store emission in machine-word chunks -/

theorem eres_bind_ok {α β : Type} {e : ERes α} {f : α → FState → ERes β} {b : β}
    {st' : FState} (h : ERes.bind e f = .ok b st') :
    ∃ a stm, e = .ok a stm ∧ f a stm = .ok b st' := by
  cases e with
  | ok a stm => exact ⟨a, stm, rfl, h⟩
  | err m stm => simp at h
  | fatal m => simp at h

theorem memRegOffsetSize_state (n : NameInfo) (st : FState) (rs : Register × Nat × Nat)
    (st' : FState) (h : n.MemRegOffsetSize st = .ok rs st') : st' = st := by
  unfold NameInfo.MemRegOffsetSize at h
  split at h
  · cases h; rfl
  · split at h
    · cases h; rfl
    · cases h

theorem asmLoadValue_state (st : FState) (v : Value) (o s : Nat) (r : Register)
    (l : List String) (st' : FState) (h : asmLoadValue st v o s r = .ok l st') :
    st' = st := by
  unfold asmLoadValue at h
  split at h
  · cases h; rfl
  · split at h
    · cases h
    · rename_i info heq
      rcases hmem : info.MemRegOffsetSize st with ⟨rs, stm⟩ | ⟨m, stm⟩ | m <;>
          rw [hmem] at h <;>
        simp only [ERes.bind_ok, ERes.bind_err, ERes.bind_fatal] at h
      · have hst := memRegOffsetSize_state info st rs stm hmem
        subst hst
        split at h
        · cases h
        · cases h; rfl
      · cases h
      · cases h

theorem asmStoreReg_state (st : FState) (r : Register) (a : NameInfo) (o : Nat)
    (l : List String) (st' : FState) (h : asmStoreReg st r a o = .ok l st') :
    st' = st := by
  unfold asmStoreReg at h
  rcases hmem : a.MemRegOffsetSize st with ⟨rs, stm⟩ | ⟨m, stm⟩ | m <;>
      rw [hmem] at h <;>
    simp only [ERes.bind_ok, ERes.bind_err, ERes.bind_fatal] at h
  · have hst := memRegOffsetSize_state a st rs stm hmem
    subst hst
    by_cases h1 : rs.2.2 = 1
    · rw [if_pos h1, if_neg (by norm_num)] at h
      cases h; rfl
    · rw [if_neg h1] at h
      split at h
      · cases h
      · cases h; rfl
  · cases h
  · cases h

theorem bind_asmLoadValue_ok {st : FState} {v : Value} {o s : Nat} {reg : Register}
    {β : Type} {f : List String → FState → ERes β} {b : β} {st' : FState}
    (h : ERes.bind (asmLoadValue st v o s reg) f = .ok b st') :
    ∃ l, asmLoadValue st v o s reg = .ok l st ∧ f l st = .ok b st' := by
  obtain ⟨l, stm, hl, hf⟩ := eres_bind_ok h
  have hst := asmLoadValue_state _ _ _ _ _ _ _ hl
  subst hst
  exact ⟨l, hl, hf⟩

theorem bind_asmStoreReg_ok {st : FState} {r : Register} {a : NameInfo} {o : Nat}
    {β : Type} {f : List String → FState → ERes β} {b : β} {st' : FState}
    (h : ERes.bind (asmStoreReg st r a o) f = .ok b st') :
    ∃ l, asmStoreReg st r a o = .ok l st ∧ f l st = .ok b st' := by
  obtain ⟨l, stm, hl, hf⟩ := eres_bind_ok h
  have hst := asmStoreReg_state _ _ _ _ _ _ hl
  subst hst
  exact ⟨l, hl, hf⟩

/-- The word-chunk copy lines: per chunk index, the load lines then the store
lines. -/
def interleave (loads stores : Nat → List String) : List Nat → List String
  | [] => []
  | i :: rest => loads i ++ stores i ++ interleave loads stores rest

theorem interleave_congr (f g f' g' : Nat → List String) :
    ∀ is : List Nat, (∀ i ∈ is, f i = f' i ∧ g i = g' i) →
      interleave f g is = interleave f' g' is := by
  intro is
  induction is with
  | nil => intro _; rfl
  | cons i rest ih =>
    intro h
    have hi := h i (by simp)
    have hr := ih (fun j hj => h j (by simp [hj]))
    simp [interleave, hi.1, hi.2, hr]

/-- Characterization of the `asmStore` chunk loop: on success the state is
unchanged and the emitted lines are, per chunk index in order, the load of
the chunk into the scratch register followed by the store of that register to
the destination binding at the matching offset. -/
theorem storeChunksAddr_ok_elim (val : Value) (addrName : String) (reg : Register) :
    ∀ (is : List Nat) (st : FState) (lines : List String) (st' : FState),
      storeChunksAddr st val addrName reg is = .ok lines st' →
      st' = st ∧ ∃ loads stores : Nat → List String,
        lines = interleave loads stores is ∧
        ∀ i ∈ is,
          asmLoadValue st val (i * intSize) intSize reg = .ok (loads i) st ∧
          ∃ addrInfo, mapGet st.ssaNames addrName = some addrInfo ∧
            asmStoreReg st reg addrInfo (i * intSize) = .ok (stores i) st := by
  intro is
  induction is with
  | nil =>
    intro st lines st' h
    unfold storeChunksAddr at h
    cases h
    exact ⟨rfl, fun _ => [], fun _ => [], rfl, by simp⟩
  | cons i rest ih =>
    intro st lines st' h
    unfold storeChunksAddr at h
    have h2 := bind_asmLoadValue_ok h
    clear h
    obtain ⟨l1, hl, h⟩ := h2
    rcases hm : mapGet st.ssaNames addrName with _ | addrInfo <;> rw [hm] at h
    · cases h
    · have h2 := bind_asmStoreReg_ok h
      clear h
      obtain ⟨l2, hs, h⟩ := h2
      have h2 := eres_bind_ok h
      clear h
      obtain ⟨ls, stC, hr, h⟩ := h2
      obtain ⟨hC, loads0, stores0, hlines0, hprop0⟩ := ih st ls stC hr
      subst hC
      cases h
      refine ⟨rfl, fun j => if j = i then l1 else loads0 j,
              fun j => if j = i then l2 else stores0 j, ?_, ?_⟩
      · have hcong : interleave (fun j => if j = i then l1 else loads0 j)
            (fun j => if j = i then l2 else stores0 j) rest =
            interleave loads0 stores0 rest := by
          apply interleave_congr
          intro j hj
          by_cases hji : j = i
          · subst hji
            have h1 := (hprop0 j hj).1
            obtain ⟨addrInfo2, hm2, hs2⟩ := (hprop0 j hj).2
            rw [hl] at h1
            rw [hm] at hm2
            cases hm2
            rw [hs] at hs2
            cases h1
            cases hs2
            simp
          · simp [hji]
        simp [interleave, hcong, hlines0]
      · intro j hj
        rcases List.mem_cons.mp hj with hji | hjr
        · subst hji
          simp only [if_pos rfl]
          exact ⟨hl, addrInfo, rfl, hs⟩
        · by_cases hji : j = i
          · subst hji
            simp only [if_pos rfl]
            have h1 := (hprop0 j hjr).1
            obtain ⟨addrInfo2, hm2, hs2⟩ := (hprop0 j hjr).2
            rw [hl] at h1
            cases h1
            rw [hm] at hm2
            cases hm2
            rw [hs] at hs2
            cases hs2
            exact ⟨hl, addrInfo, rfl, hs⟩
          · simp only [if_neg hji]
            obtain ⟨ha, addrInfo2, hm2, hs2⟩ := hprop0 j hjr
            rw [hm] at hm2
            cases hm2
            exact ⟨ha, addrInfo, rfl, hs2⟩

/-- **C5 (amended).**  A store emission whose preliminary steps succeed is
fatal exactly when the value's size exceeds one machine word and is not a
multiple of it; on success the value is copied in `size / intSize`
machine-word chunks, each loaded into the scratch register and stored to the
destination binding at the matching offset (so for sizes of at most one word,
including 1-byte values, no chunk is copied and no failure occurs). -/
theorem asmStore_spec (st st1 st2 : FState) (instr : StoreInstr) (size : Nat)
    (h1 : allocValueOnDemand st instr.val = .ok () st1)
    (h2 : allocValueOnDemand st1 instr.addr = .ok () st2)
    (hs : fsizeof st2 instr.val = .ok size st2) :
    (size > intSize ∧ size % intSize ≠ 0 →
       asmStore st instr = .fatal "size not multiple of intSize in asmStore") ∧
    (∀ lines st', asmStore st instr = .ok lines st' →
       (size ≤ intSize ∨ size % intSize = 0) ∧
       ∃ reg st3 loads stores,
         allocReg st2 .data intSize = .ok reg st3 ∧
         st' = freeReg st3 reg ∧
         lines = commentLine ("BEGIN ssa.Store addr name:" ++ instr.addr.name ++ ", val name:" ++ instr.val.name) ::
           (interleave loads stores (List.range (size / intSize)) ++
            [commentLine ("END ssa.Store addr name:" ++ instr.addr.name ++ ", val name:" ++ instr.val.name)]) ∧
         ∀ i ∈ List.range (size / intSize),
           asmLoadValue st3 instr.val (i * intSize) intSize reg = .ok (loads i) st3 ∧
           ∃ addrInfo, mapGet st3.ssaNames instr.addr.name = some addrInfo ∧
             asmStoreReg st3 reg addrInfo (i * intSize) = .ok (stores i) st3) := by
  unfold asmStore
  rw [h1]
  simp only [ERes.bind_ok]
  rw [h2]
  simp only [ERes.bind_ok]
  rw [hs]
  simp only [ERes.bind_ok]
  constructor
  · intro hc
    rw [if_pos hc]
  · intro lines st' hok
    split at hok
    · cases hok
    · rename_i hc
      constructor
      · omega
      · have hok2 := eres_bind_ok hok
        clear hok
        obtain ⟨reg, st3, halloc, hok⟩ := hok2
        have hok2 := eres_bind_ok hok
        clear hok
        obtain ⟨body, st4, hchunks, hok⟩ := hok2
        obtain ⟨hst4, loads, stores, hbody, hprops⟩ :=
          storeChunksAddr_ok_elim instr.val instr.addr.name reg
            (List.range (size / intSize)) st3 body st4 hchunks
        subst hst4
        cases hok
        refine ⟨reg, _, loads, stores, halloc, rfl, ?_, hprops⟩
        simp [hbody]

/-- Counterexample to C5 as stated: the claim demands a fatal failure for
EVERY value size that is not a multiple of the machine word, including sizes
smaller than one word; but storing a 1-byte boolean constant to a bool local
completes successfully (the guard `size > intSize` skips the multiple check
and the chunk loop runs zero times). -/
theorem asmStore_small_cex :
    asmStore ⟨[("t0", ⟨"t0", .basic .bool, some ⟨"t0", 0, 1, true⟩, none⟩)],
               initState.registers, [], 0, 0⟩
        ⟨⟨"t0", .ptr (.basic .bool), .opaq⟩, ⟨"true:bool", .basic .bool, .konst 1⟩⟩ =
      .ok [commentLine "BEGIN ssa.Store addr name:t0, val name:true:bool",
           commentLine "END ssa.Store addr name:t0, val name:true:bool"]
        ⟨[("t0", ⟨"t0", .basic .bool, some ⟨"t0", 0, 1, true⟩, none⟩)],
          initState.registers, [], 1, 1⟩ := by
  rfl

/-- Witness for C5: a 12-byte (3 × int32 array) store is fatal, by the
amended theorem's first conjunct. -/
theorem asmStore_spec_witness :
    asmStore ⟨[("a", ⟨"a", .array 3 (.basic .int32), some ⟨"a", 0, 12, true⟩, none⟩),
               ("p", ⟨"p", .ptr (.array 3 (.basic .int32)), some ⟨"p", 12, 8, true⟩, none⟩)],
              initState.registers, [], 0, 0⟩
      ⟨⟨"p", .ptr (.array 3 (.basic .int32)), .opaq⟩,
       ⟨"a", .array 3 (.basic .int32), .opaq⟩⟩ =
      .fatal "size not multiple of intSize in asmStore" :=
  (asmStore_spec
    ⟨[("a", ⟨"a", .array 3 (.basic .int32), some ⟨"a", 0, 12, true⟩, none⟩),
      ("p", ⟨"p", .ptr (.array 3 (.basic .int32)), some ⟨"p", 12, 8, true⟩, none⟩)],
     initState.registers, [], 0, 0⟩
    ⟨[("a", ⟨"a", .array 3 (.basic .int32), some ⟨"a", 0, 12, true⟩, none⟩),
      ("p", ⟨"p", .ptr (.array 3 (.basic .int32)), some ⟨"p", 12, 8, true⟩, none⟩)],
     initState.registers, [], 0, 0⟩
    ⟨[("a", ⟨"a", .array 3 (.basic .int32), some ⟨"a", 0, 12, true⟩, none⟩),
      ("p", ⟨"p", .ptr (.array 3 (.basic .int32)), some ⟨"p", 12, 8, true⟩, none⟩)],
     initState.registers, [], 0, 0⟩
    ⟨⟨"p", .ptr (.array 3 (.basic .int32)), .opaq⟩,
     ⟨"a", .array 3 (.basic .int32), .opaq⟩⟩ 12 rfl rfl rfl).1 (by norm_num [intSize])

/-! ### C8: indexed address computation -/

/-- Modelled from the spec: the address computed by a load-effective-address
instruction whose memory operand is `sym+disp(baseReg)` is the base-register
value plus the displacement. -/
def leaEffectiveAddr (base disp : Nat) : Nat := base + disp

/-- **C8 (amended).**  Exactly two index forms produce address code: a
compile-time-constant index and a parameter index; any other index form
(even one held in a bound location) emits only an inert comment.  In the
constant case, for array base address `B = base + xOff`, element size `S`
and constant index `K`, the emitted load-effective-address displacement is
`xOff + K*S`, so the computed address equals `B + K*S`. -/
theorem asmIndexAddr_spec (st : FState) (instr : IndexAddrInstr)
    (xInfo assignment : NameInfo)
    (hx : mapGet st.ssaNames instr.x.name = some xInfo)
    (ha : mapGet st.ssaNames instr.name = some assignment) :
    (∀ K S xr xOff xsz ar aOff asz reg st2,
       instr.index.kind = .konst K →
       sizeofElem xInfo.typ = some S →
       (∀ s, xInfo.MemRegOffsetSize s = .ok (xr, xOff, xsz) s) →
       (∀ s, assignment.MemRegOffsetSize s = .ok (ar, aOff, asz) s) →
       allocReg st .data pointerSize = .ok reg st2 →
       asmIndexAddr st instr = .ok
         [commentLine ("BEGIN ssa.IndexAddr: " ++ instr.name ++ " = " ++ instr.str),
          asmLea indent xInfo.name (xOff + K * S) xr reg,
          asmMovRegMem indent reg assignment.name ar aOff,
          commentLine ("END ssa.IndexAddr: " ++ instr.name ++ " = " ++ instr.str)]
         { freeReg st2 reg with
             ssaNames := mapSet (freeReg st2 reg).ssaNames instr.name assignment } ∧
       (∀ base, leaEffectiveAddr base (xOff + K * S) = (base + xOff) + K * S)) ∧
    (∀ p pr pOff xr xOff xsz ar aOff asz reg st2 reg2 st3,
       instr.index.kind = .parameter →
       mapGet st.ssaNames instr.index.name = some p →
       (∀ s, p.MemRegOffsetSize s = .ok (pr, pOff, 8) s) →
       (∀ s, xInfo.MemRegOffsetSize s = .ok (xr, xOff, xsz) s) →
       (∀ s, assignment.MemRegOffsetSize s = .ok (ar, aOff, asz) s) →
       allocReg st .data pointerSize = .ok reg st2 →
       allocReg st2 .data pointerSize = .ok reg2 st3 →
       asmIndexAddr st instr = .ok
         [commentLine ("BEGIN ssa.IndexAddr: " ++ instr.name ++ " = " ++ instr.str),
          asmMovMemReg indent p.name pOff pr reg2,
          asmLea indent xInfo.name xOff xr reg,
          asmAddRegReg indent reg reg2,
          asmMovRegMem indent reg2 assignment.name ar aOff,
          commentLine ("END ssa.IndexAddr: " ++ instr.name ++ " = " ++ instr.str)]
         { freeReg (freeReg st3 reg) reg2 with
             ssaNames := mapSet (freeReg (freeReg st3 reg) reg2).ssaNames instr.name assignment }) ∧
    (instr.index.kind = .opaq →
       asmIndexAddr st instr = .ok
         [commentLine ("BEGIN ssa.IndexAddr: " ++ instr.name ++ " = " ++ instr.str),
          commentLine ("Unsupported ssa.IndexAddr:" ++ instr.str),
          commentLine ("END ssa.IndexAddr: " ++ instr.name ++ " = " ++ instr.str)]
         { st with ssaNames := mapSet st.ssaNames instr.name assignment }) := by
  refine ⟨?_, ?_, ?_⟩
  · intro K S xr xOff xsz ar aOff asz reg st2 hk hS hxm ham halloc
    constructor
    · unfold asmIndexAddr
      rw [hx, ha]
      simp only [ERes.bind_ok]
      rw [hk, halloc]
      simp only [ERes.bind_ok]
      rw [hS]
      simp only [liftOpt, ERes.bind_ok, hxm, ham]
      rfl
    · intro base
      unfold leaEffectiveAddr
      omega
  · intro p pr pOff xr xOff xsz ar aOff asz reg st2 reg2 st3 hk hp hpm hxm ham ha1 ha2
    unfold asmIndexAddr
    rw [hx, ha]
    simp only [ERes.bind_ok]
    rw [hk, hp, ha1]
    simp only [ERes.bind_ok]
    rw [ha2]
    simp only [ERes.bind_ok, hxm, hpm, ham]
    norm_num
  · intro hk
    unfold asmIndexAddr
    rw [hx, ha]
    simp only [ERes.bind_ok]
    rw [hk]
    simp only [ERes.bind_ok]
    rfl

/-- Counterexample to C8 as stated: an index value held in a bound location
("i", a bound local) that is neither a compile-time constant nor a parameter
emits only an inert comment — no address code — so "an index value held in a
bound location" is not a supported address-producing form; only a parameter
index is. -/
theorem asmIndexAddr_boundIndex_cex :
    asmIndexAddr
      ⟨[("x", ⟨"x", .array 4 (.basic .int), some ⟨"x", 0, 32, true⟩, none⟩),
        ("i", ⟨"i", .basic .int, some ⟨"i", 32, 8, false⟩, none⟩)],
       initState.registers, [], 0, 0⟩
      ⟨"t2", .ptr (.basic .int), ⟨"x", .array 4 (.basic .int), .opaq⟩,
       ⟨"i", .basic .int, .opaq⟩⟩ =
    .ok [commentLine "BEGIN ssa.IndexAddr: t2 = &x[i]",
         commentLine "Unsupported ssa.IndexAddr:&x[i]",
         commentLine "END ssa.IndexAddr: t2 = &x[i]"]
      ⟨[("x", ⟨"x", .array 4 (.basic .int), some ⟨"x", 0, 32, true⟩, none⟩),
        ("i", ⟨"i", .basic .int, some ⟨"i", 32, 8, false⟩, none⟩),
        ("t2", ⟨"t2", .ptr (.basic .int), some ⟨"t2", 40, 8, false⟩, none⟩)],
       initState.registers, [], 0, 0⟩ := by
  rfl

/-- Witness for C8: the constant-index case at index 2 over an `[4]int`
array computes displacement `0 + 2*8 = 16`. -/
theorem asmIndexAddr_spec_witness :
    asmIndexAddr
      ⟨[("x", ⟨"x", .array 4 (.basic .int), some ⟨"x", 0, 32, true⟩, none⟩),
        ("t2", ⟨"t2", .ptr (.basic .int), some ⟨"t2", 32, 8, false⟩, none⟩)],
       initState.registers, [], 0, 0⟩
      ⟨"t2", .ptr (.basic .int), ⟨"x", .array 4 (.basic .int), .opaq⟩,
       ⟨"2:int", .basic .int, .konst 2⟩⟩ =
    .ok [commentLine "BEGIN ssa.IndexAddr: t2 = &x[2]",
         asmLea indent "x" (0 + 2 * 8) (getRegister REG_SP) ⟨"RAX", .data, 64⟩,
         asmMovRegMem indent ⟨"RAX", .data, 64⟩ "t2" (getRegister REG_SP) 32,
         commentLine "END ssa.IndexAddr: t2 = &x[2]"]
      { freeReg
          ⟨[("x", ⟨"x", .array 4 (.basic .int), some ⟨"x", 0, 32, true⟩, none⟩),
            ("t2", ⟨"t2", .ptr (.basic .int), some ⟨"t2", 32, 8, false⟩, none⟩)],
           mapSet initState.registers "RAX" true, [], 1, 0⟩ ⟨"RAX", .data, 64⟩ with
          ssaNames := mapSet
            [("x", ⟨"x", .array 4 (.basic .int), some ⟨"x", 0, 32, true⟩, none⟩),
             ("t2", ⟨"t2", .ptr (.basic .int), some ⟨"t2", 32, 8, false⟩, none⟩)]
            "t2" ⟨"t2", .ptr (.basic .int), some ⟨"t2", 32, 8, false⟩, none⟩ } ∧
    (∀ base, leaEffectiveAddr base (0 + 2 * 8) = (base + 0) + 2 * 8) :=
  (asmIndexAddr_spec
      ⟨[("x", ⟨"x", .array 4 (.basic .int), some ⟨"x", 0, 32, true⟩, none⟩),
        ("t2", ⟨"t2", .ptr (.basic .int), some ⟨"t2", 32, 8, false⟩, none⟩)],
       initState.registers, [], 0, 0⟩
      ⟨"t2", .ptr (.basic .int), ⟨"x", .array 4 (.basic .int), .opaq⟩,
       ⟨"2:int", .basic .int, .konst 2⟩⟩
      ⟨"x", .array 4 (.basic .int), some ⟨"x", 0, 32, true⟩, none⟩
      ⟨"t2", .ptr (.basic .int), some ⟨"t2", 32, 8, false⟩, none⟩
      rfl rfl).1 2 8 (getRegister REG_SP) 0 32 (getRegister REG_SP) 32 8
      ⟨"RAX", .data, 64⟩ _ rfl rfl (fun _ => rfl) (fun _ => rfl) rfl

/-! ### C3: conditional branch lowering -/

/-- Counterexample to C3 as stated: a conditional branch whose condition has
no bound location does NOT fail fatally (no panic/abort); `asmIf` returns a
recoverable error (`ERes.err`, the source's returned `*Error`) instead. -/
theorem asmIf_unbound_cond_cex :
    asmIf initState ⟨0, [], [], [1, 2]⟩ ⟨"true:bool", .basic .bool, .konst 1⟩ =
      .err "asmIf: unhandled case, cond" initState := by
  rfl

/-- **C3 (amended).**  For a conditional branch whose block has exactly two
successors: an unbound condition is reported as a recoverable error; on a
bound condition the emitted text is, in order (inside the BEGIN/END comment
wrapper): the edge-copies recorded for the false edge, a compare of the
condition's stored value against zero, a jump-if-equal to the false-target
block label, the edge-copies recorded for the true edge, and an unconditional
jump to the true-target block label. -/
theorem asmIf_spec (st : FState) (blk : Block) (cond : Value) (tblock fblock : Nat)
    (hsuccs : blk.succs = [tblock, fblock]) :
    (mapGet st.ssaNames cond.name = none →
       asmIf st blk cond = .err "asmIf: unhandled case, cond" st) ∧
    (∀ info preF st1 rs st2 preT st3,
       mapGet st.ssaNames cond.name = some info →
       asmJumpPreamble st blk.index fblock = .ok preF st1 →
       info.MemRegOffsetSize st1 = .ok rs st2 →
       asmJumpPreamble st2 blk.index tblock = .ok preT st3 →
       asmIf st blk cond = .ok
         ([commentLine ("BEGIN ssa.If, if " ++ cond.str)] ++ preF ++
          [asmCmpMemImm32 indent info.name (rs.2.1 % 4294967296) rs.1 0,
           indent ++ "JEQ    block" ++ numStr fblock] ++ preT ++
          [indent ++ "JMP    block" ++ numStr tblock,
           commentLine ("END ssa.If, if " ++ cond.str)]) st3) := by
  constructor
  · intro h
    unfold asmIf
    rw [hsuccs, h]
  · intro info preF st1 rs st2 preT st3 hinfo hpreF hmem hpreT
    unfold asmIf
    rw [hsuccs, hinfo]
    dsimp only
    rw [hpreF]
    simp only [ERes.bind_ok]
    rw [hmem]
    simp only [ERes.bind_ok]
    rw [hpreT]
    simp only [ERes.bind_ok]

/-- Witness for C3 at a bound boolean condition with no recorded edge-copies:
compare against zero, JEQ to block2 (false target), JMP to block1 (true
target). -/
theorem asmIf_spec_witness :
    asmIf ⟨[("c", ⟨"c", .basic .bool, some ⟨"c", 0, 8, false⟩, none⟩)],
           initState.registers, [], 0, 0⟩
        ⟨0, [], [], [1, 2]⟩ ⟨"c", .basic .bool, .opaq⟩ =
      .ok ([commentLine "BEGIN ssa.If, if c"] ++ [] ++
           [asmCmpMemImm32 indent "c" (0 % 4294967296) (getRegister REG_SP) 0,
            indent ++ "JEQ    block" ++ numStr 2] ++ [] ++
           [indent ++ "JMP    block" ++ numStr 1,
            commentLine "END ssa.If, if c"])
        ⟨[("c", ⟨"c", .basic .bool, some ⟨"c", 0, 8, false⟩, none⟩)],
         initState.registers, [], 0, 0⟩ :=
  (asmIf_spec ⟨[("c", ⟨"c", .basic .bool, some ⟨"c", 0, 8, false⟩, none⟩)],
               initState.registers, [], 0, 0⟩
      ⟨0, [], [], [1, 2]⟩ ⟨"c", .basic .bool, .opaq⟩ 1 2 rfl).2
    ⟨"c", .basic .bool, some ⟨"c", 0, 8, false⟩, none⟩ [] _ (getRegister REG_SP, 0, 8)
    _ [] _ rfl rfl rfl rfl

/-! ### C2: the phi pre-pass -/

theorem phiGet_phiAppend_same (pi : List ((Nat × Nat) × List (Value × PhiInstr)))
    (p b : Nat) (e : Value × PhiInstr) :
    phiGet (phiAppend pi p b e) p b = phiGet pi p b ++ [e] := by
  induction pi with
  | nil => simp [phiAppend, phiGet]
  | cons hd rest ih =>
    by_cases hk : hd.1 = (p, b)
    · simp [phiAppend, phiGet, hk]
    · simp only [phiAppend, if_neg hk]
      simp only [phiGet, List.find?] at ih ⊢
      rw [show (decide (hd.1 = (p, b))) = false by simp [hk]]
      simpa using ih

theorem phiGet_phiAppend_other (pi : List ((Nat × Nat) × List (Value × PhiInstr)))
    (p b p' b' : Nat) (e : Value × PhiInstr) (hne : (p', b') ≠ (p, b)) :
    phiGet (phiAppend pi p b e) p' b' = phiGet pi p' b' := by
  induction pi with
  | nil => simp [phiAppend, phiGet, List.find?, hne, Ne.symm hne]
  | cons hd rest ih =>
    by_cases hk : hd.1 = (p, b)
    · have hne2 : ¬ (hd.1 = (p', b')) := by rw [hk]; exact fun h => hne h.symm
      simp [phiAppend, phiGet, hk, List.find?, hne2, Ne.symm hne]
    · simp only [phiAppend, if_neg hk]
      by_cases hk2 : hd.1 = (p', b')
      · simp [phiGet, List.find?, hk2]
      · simp only [phiGet, List.find?] at ih ⊢
        rw [show (decide (hd.1 = (p', b'))) = false by simp [hk2]]
        simpa using ih

/-- The entries `computePhiInstr` records for one phi: one `(value, phi)`
pair per `(edge value, predecessor index)` pair, keyed by the predecessor. -/
def recordAll (pi : List ((Nat × Nat) × List (Value × PhiInstr))) (b : Nat)
    (φ : PhiInstr) : List (Value × Nat) → List ((Nat × Nat) × List (Value × PhiInstr))
  | [] => pi
  | (e, pr) :: rest => recordAll (phiAppend pi pr b (e, φ)) b φ rest

theorem phiGet_recordAll (b : Nat) (φ : PhiInstr) :
    ∀ (pairs : List (Value × Nat)) (pi : List ((Nat × Nat) × List (Value × PhiInstr)))
      (p b' : Nat),
      phiGet (recordAll pi b φ pairs) p b' =
        phiGet pi p b' ++ pairs.filterMap
          (fun epr => if epr.2 = p ∧ b = b' then some (epr.1, φ) else none) := by
  intro pairs
  induction pairs with
  | nil => intro pi p b'; simp [recordAll]
  | cons hd rest ih =>
    intro pi p b'
    obtain ⟨e, pr⟩ := hd
    simp only [recordAll, ih, List.filterMap_cons]
    by_cases hc : pr = p ∧ b = b'
    · obtain ⟨h1, h2⟩ := hc
      subst h1; subst h2
      rw [phiGet_phiAppend_same]
      simp
    · have hne : (p, b') ≠ (pr, b) := by
        intro h
        cases h
        exact hc ⟨rfl, rfl⟩
      rw [phiGet_phiAppend_other _ _ _ _ _ _ hne]
      simp [hc]

/-- `computePhiEdges` over the edges enumerated from position `k`: succeeds
exactly when every remaining index has a predecessor, recording the pairs
`(edge, pred)` from the positional zip; otherwise the malformed-CFG panic. -/
theorem computePhiEdges_char (blk : Block) (φ : PhiInstr) :
    ∀ (es : List Value) (k : Nat) (st : FState),
      (k + es.length ≤ blk.preds.length →
        computePhiEdges st blk φ (List.enumFrom k es) = .ok ()
          { st with phiInfo := recordAll st.phiInfo blk.index φ (es.zip (blk.preds.drop k)) }) ∧
      (blk.preds.length < k + es.length → 0 < es.length →
        computePhiEdges st blk φ (List.enumFrom k es) =
          .fatal "computePhiInstr: malformed CFG") := by
  intro es
  induction es with
  | nil =>
    intro k st
    constructor
    · intro _
      simp [List.enumFrom, computePhiEdges, recordAll]
    · intro _ h
      simp at h
  | cons e rest ih =>
    intro k st
    constructor
    · intro hle
      have hk : k < blk.preds.length := by simp at hle; omega
      show computePhiEdges st blk φ ((k, e) :: List.enumFrom (k + 1) rest) = _
      unfold computePhiEdges
      rw [dif_pos hk]
      have hrec := (ih (k + 1)
        { st with phiInfo := phiAppend st.phiInfo (blk.preds.get ⟨k, hk⟩) blk.index (e, φ) }).1
        (by simp at hle ⊢; omega)
      rw [hrec]
      rw [List.drop_eq_getElem_cons hk, List.zip_cons_cons]
      rfl
    · intro hgt _
      show computePhiEdges st blk φ ((k, e) :: List.enumFrom (k + 1) rest) = _
      unfold computePhiEdges
      by_cases hk : k < blk.preds.length
      · rw [dif_pos hk]
        refine (ih (k + 1) _).2 ?_ ?_ <;> simp at hgt ⊢ <;> omega
      · rw [dif_neg hk]

/-- The phi entries recorded while scanning one block's instruction list. -/
def recordInstrs (pi : List ((Nat × Nat) × List (Value × PhiInstr))) (blk : Block) :
    List Instr → List ((Nat × Nat) × List (Value × PhiInstr))
  | [] => pi
  | .phi φ :: rest =>
    recordInstrs (recordAll pi blk.index φ (φ.edges.zip blk.preds)) blk rest
  | _ :: rest => recordInstrs pi blk rest

/-- The phi entries recorded over a block list. -/
def recordBlocks (pi : List ((Nat × Nat) × List (Value × PhiInstr))) :
    List Block → List ((Nat × Nat) × List (Value × PhiInstr))
  | [] => pi
  | blk :: rest => recordBlocks (recordInstrs pi blk blk.instrs) rest

theorem computeBasicBlockPhi_cons_other (st : FState) (blk : Block) (i : Instr)
    (rest : List Instr) (h : ∀ φ, i ≠ Instr.phi φ) :
    computeBasicBlockPhi st blk (i :: rest) = computeBasicBlockPhi st blk rest := by
  cases i <;> first | rfl | exact absurd rfl (h _)

theorem recordInstrs_cons_other (pi : List ((Nat × Nat) × List (Value × PhiInstr)))
    (blk : Block) (i : Instr) (rest : List Instr) (h : ∀ φ, i ≠ Instr.phi φ) :
    recordInstrs pi blk (i :: rest) = recordInstrs pi blk rest := by
  cases i <;> first | rfl | exact absurd rfl (h _)

theorem computeBasicBlockPhi_char (blk : Block) :
    ∀ (instrs : List Instr) (st : FState),
      ((∀ φ, Instr.phi φ ∈ instrs → φ.edges.length ≤ blk.preds.length) →
        computeBasicBlockPhi st blk instrs = .ok ()
          { st with phiInfo := recordInstrs st.phiInfo blk instrs }) ∧
      ((∃ φ, Instr.phi φ ∈ instrs ∧ blk.preds.length < φ.edges.length) →
        computeBasicBlockPhi st blk instrs = .fatal "computePhiInstr: malformed CFG") := by
  intro instrs
  induction instrs with
  | nil =>
    intro st
    constructor
    · intro _
      rfl
    · intro h
      simp at h
  | cons i rest ih =>
    intro st
    by_cases hp : ∃ φ, i = Instr.phi φ
    · obtain ⟨φ, rfl⟩ := hp
      constructor
      · intro hok
        have hlen : φ.edges.length ≤ blk.preds.length := hok φ (by simp)
        show ERes.bind (computePhiInstr st blk φ) _ = _
        unfold computePhiInstr
        have hchar := (computePhiEdges_char blk φ φ.edges 0 st).1 (by omega)
        rw [show φ.edges.enum = List.enumFrom 0 φ.edges from rfl, hchar]
        simp only [ERes.bind_ok]
        have := (ih { st with phiInfo := recordAll st.phiInfo blk.index φ (φ.edges.zip (blk.preds.drop 0)) }).1
          (fun ψ hψ => hok ψ (by simp [hψ]))
        rw [this]
        simp [recordInstrs]
      · intro hviol
        by_cases hv : blk.preds.length < φ.edges.length
        · show ERes.bind (computePhiInstr st blk φ) _ = _
          unfold computePhiInstr
          have hchar := (computePhiEdges_char blk φ φ.edges 0 st).2 (by omega) (by omega)
          rw [show φ.edges.enum = List.enumFrom 0 φ.edges from rfl, hchar]
          rfl
        · obtain ⟨ψ, hmem, hψ⟩ := hviol
          have hmem2 : Instr.phi ψ ∈ rest := by
            rcases List.mem_cons.mp hmem with heq | hm
            · cases heq
              omega
            · exact hm
          have hlen : φ.edges.length ≤ blk.preds.length := by omega
          show ERes.bind (computePhiInstr st blk φ) _ = _
          unfold computePhiInstr
          have hchar := (computePhiEdges_char blk φ φ.edges 0 st).1 (by omega)
          rw [show φ.edges.enum = List.enumFrom 0 φ.edges from rfl, hchar]
          simp only [ERes.bind_ok]
          exact (ih _).2 ⟨ψ, hmem2, hψ⟩
    · push_neg at hp
      rw [computeBasicBlockPhi_cons_other st blk i rest hp,
        recordInstrs_cons_other st.phiInfo blk i rest hp]
      constructor
      · intro hok
        exact (ih st).1 (fun ψ hψ => hok ψ (by simp [hψ]))
      · intro hviol
        obtain ⟨ψ, hmem, hψ⟩ := hviol
        have hmem2 : Instr.phi ψ ∈ rest := by
          rcases List.mem_cons.mp hmem with heq | hm
          · exact absurd heq.symm (hp ψ)
          · exact hm
        exact (ih st).2 ⟨ψ, hmem2, hψ⟩

theorem computePhi_char :
    ∀ (blocks : List Block) (st : FState),
      ((∀ blk ∈ blocks, ∀ φ, Instr.phi φ ∈ blk.instrs →
          φ.edges.length ≤ blk.preds.length) →
        computePhi st blocks = .ok () { st with phiInfo := recordBlocks st.phiInfo blocks }) ∧
      ((∃ blk ∈ blocks, ∃ φ, Instr.phi φ ∈ blk.instrs ∧
          blk.preds.length < φ.edges.length) →
        computePhi st blocks = .fatal "computePhiInstr: malformed CFG") := by
  intro blocks
  induction blocks with
  | nil =>
    intro st
    constructor
    · intro _
      rfl
    · intro h
      simp at h
  | cons blk rest ih =>
    intro st
    constructor
    · intro hok
      show ERes.bind (computeBasicBlockPhi st blk blk.instrs) _ = _
      rw [(computeBasicBlockPhi_char blk blk.instrs st).1 (hok blk (by simp))]
      simp only [ERes.bind_ok]
      rw [(ih _).1 (fun b hb => hok b (by simp [hb]))]
      rfl
    · intro hviol
      by_cases hb : ∃ φ, Instr.phi φ ∈ blk.instrs ∧ blk.preds.length < φ.edges.length
      · show ERes.bind (computeBasicBlockPhi st blk blk.instrs) _ = _
        rw [(computeBasicBlockPhi_char blk blk.instrs st).2 hb]
        rfl
      · push_neg at hb
        show ERes.bind (computeBasicBlockPhi st blk blk.instrs) _ = _
        rw [(computeBasicBlockPhi_char blk blk.instrs st).1 (fun φ hφ => hb φ hφ)]
        simp only [ERes.bind_ok]
        obtain ⟨b, hmem, ψ, hψmem, hψ⟩ := hviol
        have hmem2 : b ∈ rest := by
          rcases List.mem_cons.mp hmem with heq | hm
          · subst heq
            exact absurd hψ (by have := hb ψ hψmem; omega)
          · exact hm
        exact (ih _).2 ⟨b, hmem2, ψ, hψmem, hψ⟩

/-- The edge-copy list C2 describes for the key `(p, b)`, scanning one
block's instruction list: for each phi node in visit order, pair edge `i`
with predecessor block `i` of the phi's block, and keep the pairs whose key
(predecessor index, phi's block index) is `(p, b)`. -/
def phiSpecInstrs (blk : Block) (p b : Nat) : List Instr → List (Value × PhiInstr)
  | [] => []
  | .phi φ :: rest =>
    (φ.edges.zip blk.preds).filterMap
      (fun epr => if epr.2 = p ∧ blk.index = b then some (epr.1, φ) else none)
      ++ phiSpecInstrs blk p b rest
  | _ :: rest => phiSpecInstrs blk p b rest

/-- The edge-copy list C2 describes for the key `(p, b)` over all blocks in
order. -/
def phiSpec (p b : Nat) : List Block → List (Value × PhiInstr)
  | [] => []
  | blk :: rest => phiSpecInstrs blk p b blk.instrs ++ phiSpec p b rest

theorem phiSpecInstrs_cons_other (blk : Block) (p b : Nat) (i : Instr)
    (rest : List Instr) (h : ∀ φ, i ≠ Instr.phi φ) :
    phiSpecInstrs blk p b (i :: rest) = phiSpecInstrs blk p b rest := by
  cases i <;> first | rfl | exact absurd rfl (h _)

theorem phiGet_recordInstrs (blk : Block) :
    ∀ (instrs : List Instr) (pi : List ((Nat × Nat) × List (Value × PhiInstr)))
      (p b : Nat),
      phiGet (recordInstrs pi blk instrs) p b =
        phiGet pi p b ++ phiSpecInstrs blk p b instrs := by
  intro instrs
  induction instrs with
  | nil => intro pi p b; simp [recordInstrs, phiSpecInstrs]
  | cons i rest ih =>
    intro pi p b
    by_cases hp : ∃ φ, i = Instr.phi φ
    · obtain ⟨φ, rfl⟩ := hp
      show phiGet (recordInstrs (recordAll pi blk.index φ (φ.edges.zip blk.preds)) blk rest) p b = _
      rw [ih, phiGet_recordAll]
      show _ = phiGet pi p b ++ ((φ.edges.zip blk.preds).filterMap _ ++ phiSpecInstrs blk p b rest)
      rw [List.append_assoc]
    · push_neg at hp
      rw [recordInstrs_cons_other pi blk i rest hp, phiSpecInstrs_cons_other blk p b i rest hp]
      exact ih pi p b

theorem phiGet_recordBlocks :
    ∀ (blocks : List Block) (pi : List ((Nat × Nat) × List (Value × PhiInstr)))
      (p b : Nat),
      phiGet (recordBlocks pi blocks) p b = phiGet pi p b ++ phiSpec p b blocks := by
  intro blocks
  induction blocks with
  | nil => intro pi p b; simp [recordBlocks, phiSpec]
  | cons blk rest ih =>
    intro pi p b
    show phiGet (recordBlocks (recordInstrs pi blk blk.instrs) rest) p b = _
    rw [ih, phiGet_recordInstrs]
    simp [phiSpec]

/-- **C2.**  Starting from an empty edge-copy map, the phi pre-pass: (a)
when every phi's edge count is covered by its block's predecessor list, it
succeeds, and the recorded list under every key (predecessor index, phi's
block index) is exactly the claim's list — the `(edge value, phi)` pairs
obtained by pairing edge `i` with predecessor `i`, appended in the order phi
nodes are visited; (b) when some phi has an edge index with no corresponding
predecessor, the pre-pass fails fatally (the malformed-CFG panic). -/
theorem computePhi_spec (blocks : List Block) (st : FState)
    (h0 : st.phiInfo = []) :
    ((∀ blk ∈ blocks, ∀ φ, Instr.phi φ ∈ blk.instrs →
        φ.edges.length ≤ blk.preds.length) →
      ∃ st', computePhi st blocks = .ok () st' ∧
        ∀ p b, phiGet st'.phiInfo p b = phiSpec p b blocks) ∧
    ((∃ blk ∈ blocks, ∃ φ, Instr.phi φ ∈ blk.instrs ∧
        blk.preds.length < φ.edges.length) →
      computePhi st blocks = .fatal "computePhiInstr: malformed CFG") := by
  constructor
  · intro hok
    refine ⟨_, (computePhi_char blocks st).1 hok, ?_⟩
    intro p b
    show phiGet (recordBlocks st.phiInfo blocks) p b = _
    rw [phiGet_recordBlocks, h0]
    rfl
  · exact (computePhi_char blocks st).2

/-- Witness for C2 on a concrete two-block function: block 1 has two
predecessors (0 and 1) and one phi with two edges; the pre-pass records the
pairs under keys (0,1) and (1,1). -/
theorem computePhi_spec_witness :
    (∃ st', computePhi initState
        [⟨0, [], [], [1]⟩,
         ⟨1, [Instr.phi ⟨"t0", .basic .int, "", [⟨"x", .basic .int, .parameter⟩, ⟨"t0", .basic .int, .opaq⟩]⟩], [0, 1], [1]⟩] = .ok () st' ∧
      ∀ p b, phiGet st'.phiInfo p b =
        phiSpec p b
          [⟨0, [], [], [1]⟩,
           ⟨1, [Instr.phi ⟨"t0", .basic .int, "", [⟨"x", .basic .int, .parameter⟩, ⟨"t0", .basic .int, .opaq⟩]⟩], [0, 1], [1]⟩]) :=
  (computePhi_spec
    [⟨0, [], [], [1]⟩,
     ⟨1, [Instr.phi ⟨"t0", .basic .int, "", [⟨"x", .basic .int, .parameter⟩, ⟨"t0", .basic .int, .opaq⟩]⟩], [0, 1], [1]⟩]
    initState rfl).1 (by
      intro blk hblk φ hφ
      simp only [List.mem_cons, List.not_mem_nil, or_false] at hblk
      rcases hblk with rfl | rfl
      · simp at hφ
      · simp only [List.mem_singleton, Instr.phi.injEq] at hφ
        subst hφ
        simp)

/-! ### C9: register-pool balance -/

/-- Register-balance relation between an entry state and an exit state: the
number of pool-allocate calls performed equals the number of pool-free
calls. -/
def balanced (st st' : FState) : Prop :=
  st'.allocCnt + st.freeCnt = st'.freeCnt + st.allocCnt

theorem balanced_refl (st : FState) : balanced st st := by
  unfold balanced
  omega

theorem balanced_trans {st1 st2 st3 : FState} (h1 : balanced st1 st2)
    (h2 : balanced st2 st3) : balanced st1 st3 := by
  unfold balanced at h1 h2 ⊢
  omega

theorem eres_bind_err {α β : Type} {e : ERes α} {f : α → FState → ERes β}
    {m : String} {st' : FState} (h : ERes.bind e f = .err m st') :
    e = .err m st' ∨ ∃ a stm, e = .ok a stm ∧ f a stm = .err m st' := by
  cases e with
  | ok a stm => exact Or.inr ⟨a, stm, rfl, h⟩
  | err m2 stm =>
    cases h
    exact Or.inl rfl
  | fatal m2 => simp at h

theorem allocReg_counts (st : FState) (t : RegType) (s : Nat) (r : Register)
    (st' : FState) (h : allocReg st t s = .ok r st') :
    st'.allocCnt = st.allocCnt + 1 ∧ st'.freeCnt = st.freeCnt := by
  unfold allocReg at h
  split at h
  · cases h
    exact ⟨rfl, rfl⟩
  · split at h
    · split at h
      · cases h
        exact ⟨rfl, rfl⟩
      · cases h
    · cases h

theorem allocReg_no_err (st : FState) (t : RegType) (s : Nat) (m : String)
    (st' : FState) : allocReg st t s ≠ .err m st' := by
  intro h
  unfold allocReg at h
  split at h
  · cases h
  · split at h
    · split at h <;> cases h
    · cases h

theorem freeReg_counts (st : FState) (r : Register) :
    (freeReg st r).allocCnt = st.allocCnt ∧ (freeReg st r).freeCnt = st.freeCnt + 1 :=
  ⟨rfl, rfl⟩

theorem asmAllocLocal_counts (st : FState) (n : String) (t : Ty) (info : NameInfo)
    (st' : FState) (h : asmAllocLocal st n t = .ok info st') :
    st'.allocCnt = st.allocCnt ∧ st'.freeCnt = st.freeCnt := by
  unfold asmAllocLocal liftOpt at h
  rcases hs : sizeof t with _ | s <;> rw [hs] at h
  · simp at h
  · cases h
    exact ⟨rfl, rfl⟩

theorem asmAllocLocal_no_err (st : FState) (n : String) (t : Ty) (m : String)
    (st' : FState) : asmAllocLocal st n t ≠ .err m st' := by
  intro h
  unfold asmAllocLocal liftOpt at h
  rcases hs : sizeof t with _ | s <;> rw [hs] at h <;> simp at h

theorem allocValueOnDemand_counts (st : FState) (v : Value) (st' : FState)
    (h : allocValueOnDemand st v = .ok () st') :
    st'.allocCnt = st.allocCnt ∧ st'.freeCnt = st.freeCnt := by
  unfold allocValueOnDemand at h
  split at h
  · cases h
    exact ⟨rfl, rfl⟩
  · split at h
    · cases h
      exact ⟨rfl, rfl⟩
    · rcases ha : asmAllocLocal st v.name v.typ with ⟨info, stm⟩ | ⟨m, stm⟩ | m <;>
        rw [ha] at h <;> simp only [ERes.bind_ok, ERes.bind_err, ERes.bind_fatal] at h
      · cases h
        exact asmAllocLocal_counts st v.name v.typ info st' ha
      · cases h
      · cases h

theorem allocValueOnDemand_no_err (st : FState) (v : Value) (m : String)
    (st' : FState) : allocValueOnDemand st v ≠ .err m st' := by
  intro h
  unfold allocValueOnDemand at h
  split at h
  · cases h
  · split at h
    · cases h
    · rcases ha : asmAllocLocal st v.name v.typ with ⟨info, stm⟩ | ⟨m2, stm⟩ | m2 <;>
        rw [ha] at h <;> simp only [ERes.bind_ok, ERes.bind_err, ERes.bind_fatal] at h
      · cases h
      · cases h
        exact asmAllocLocal_no_err st v.name v.typ _ _ ha
      · cases h

theorem memRegOffsetSize_no_err (n : NameInfo) (st : FState) (m : String)
    (st' : FState) : n.MemRegOffsetSize st ≠ .err m st' := by
  intro h
  unfold NameInfo.MemRegOffsetSize at h
  split at h
  · cases h
  · split at h <;> cases h

theorem fsizeof_state (st : FState) (v : Value) (s : Nat) (st' : FState)
    (h : fsizeof st v = .ok s st') : st' = st := by
  unfold fsizeof liftOpt at h
  split at h
  · split at h
    · cases h; rfl
    · cases h
  · split at h
    · cases h
    · rename_i info heq
      rcases hmem : info.MemRegOffsetSize st with ⟨rs, stm⟩ | ⟨m, stm⟩ | m <;>
          rw [hmem] at h <;>
        simp only [ERes.bind_ok, ERes.bind_err, ERes.bind_fatal] at h
      · cases h
        exact memRegOffsetSize_state info st rs _ hmem
      · cases h
      · cases h

theorem fsizeof_no_err (st : FState) (v : Value) (m : String) (st' : FState) :
    fsizeof st v ≠ .err m st' := by
  intro h
  unfold fsizeof liftOpt at h
  split at h
  · split at h <;> cases h
  · split at h
    · cases h
    · rename_i info heq
      rcases hmem : info.MemRegOffsetSize st with ⟨rs, stm⟩ | ⟨m2, stm⟩ | m2 <;>
          rw [hmem] at h <;>
        simp only [ERes.bind_ok, ERes.bind_err, ERes.bind_fatal] at h
      · cases h
      · exact memRegOffsetSize_no_err info st _ _ hmem
      · cases h

theorem asmLoadValue_no_err (st : FState) (v : Value) (o s : Nat) (r : Register)
    (m : String) (st' : FState) : asmLoadValue st v o s r ≠ .err m st' := by
  intro h
  unfold asmLoadValue at h
  split at h
  · cases h
  · split at h
    · cases h
    · rename_i info heq
      rcases hmem : info.MemRegOffsetSize st with ⟨rs, stm⟩ | ⟨m2, stm⟩ | m2 <;>
          rw [hmem] at h <;>
        simp only [ERes.bind_ok, ERes.bind_err, ERes.bind_fatal] at h
      · split at h <;> cases h
      · exact memRegOffsetSize_no_err info st _ _ hmem
      · cases h

theorem asmStoreReg_no_err (st : FState) (r : Register) (a : NameInfo) (o : Nat)
    (m : String) (st' : FState) : asmStoreReg st r a o ≠ .err m st' := by
  intro h
  unfold asmStoreReg at h
  rcases hmem : a.MemRegOffsetSize st with ⟨rs, stm⟩ | ⟨m2, stm⟩ | m2 <;>
      rw [hmem] at h <;>
    simp only [ERes.bind_ok, ERes.bind_err, ERes.bind_fatal] at h
  · by_cases h1 : rs.2.2 = 1
    · rw [if_pos h1, if_neg (by norm_num)] at h
      cases h
    · rw [if_neg h1] at h
      split at h <;> cases h
  · exact memRegOffsetSize_no_err a st _ _ hmem
  · cases h

theorem balanced_of_counts {st st' : FState} (h1 : st'.allocCnt = st.allocCnt)
    (h2 : st'.freeCnt = st.freeCnt) : balanced st st' := by
  unfold balanced
  omega

theorem balanced_of_eq {st st' : FState} (h : st' = st) : balanced st st' := by
  subst h
  exact balanced_refl _

theorem storeChunks_state (val : Value) (addr : NameInfo) (reg : Register) :
    ∀ (is : List Nat) (st : FState) (l : List String) (st' : FState),
      storeChunks st val addr reg is = .ok l st' → st' = st := by
  intro is
  induction is with
  | nil =>
    intro st l st' h
    cases h
    rfl
  | cons i rest ih =>
    intro st l st' h
    unfold storeChunks at h
    have h2 := bind_asmLoadValue_ok h
    clear h
    obtain ⟨l1, hl, h⟩ := h2
    have h2 := bind_asmStoreReg_ok h
    clear h
    obtain ⟨l2, hs, h⟩ := h2
    have h2 := eres_bind_ok h
    clear h
    obtain ⟨ls, stC, hr, h⟩ := h2
    cases h
    exact ih _ _ _ hr

theorem storeChunks_no_err (val : Value) (addr : NameInfo) (reg : Register) :
    ∀ (is : List Nat) (st : FState) (m : String) (st' : FState),
      storeChunks st val addr reg is ≠ .err m st' := by
  intro is
  induction is with
  | nil =>
    intro st m st' h
    cases h
  | cons i rest ih =>
    intro st m st' h
    unfold storeChunks at h
    rcases eres_bind_err h with h1 | ⟨l1, stm, hl, h1⟩
    · exact asmLoadValue_no_err _ _ _ _ _ _ _ h1
    · rcases eres_bind_err h1 with h2 | ⟨l2, stm2, hs, h2⟩
      · exact asmStoreReg_no_err _ _ _ _ _ _ h2
      · rcases eres_bind_err h2 with h3 | ⟨ls, stm3, hr, h3⟩
        · exact ih _ _ _ h3
        · cases h3

theorem storeChunksAddr_no_err (val : Value) (addrName : String) (reg : Register) :
    ∀ (is : List Nat) (st : FState) (m : String) (st' : FState),
      storeChunksAddr st val addrName reg is ≠ .err m st' := by
  intro is
  induction is with
  | nil =>
    intro st m st' h
    cases h
  | cons i rest ih =>
    intro st m st' h
    unfold storeChunksAddr at h
    rcases eres_bind_err h with h1 | ⟨l1, stm, hl, h1⟩
    · exact asmLoadValue_no_err _ _ _ _ _ _ _ h1
    · rcases hm : mapGet stm.ssaNames addrName with _ | addrInfo <;> rw [hm] at h1
      · cases h1
      · rcases eres_bind_err h1 with h2 | ⟨l2, stm2, hs, h2⟩
        · exact asmStoreReg_no_err _ _ _ _ _ _ h2
        · rcases eres_bind_err h2 with h3 | ⟨ls, stm3, hr, h3⟩
          · exact ih _ _ _ h3
          · cases h3

theorem asmStoreValAddr_balance (st : FState) (val : Value) (addr : NameInfo) :
    (∀ l st', asmStoreValAddr st val addr = .ok l st' → balanced st st') ∧
    (∀ m st', asmStoreValAddr st val addr = .err m st' → balanced st st') := by
  constructor
  · intro l st' h
    unfold asmStoreValAddr at h
    have h2 := eres_bind_ok h
    clear h
    obtain ⟨u, st1, ha, h⟩ := h2
    obtain ⟨⟩ := u
    obtain ⟨hA1, hA2⟩ := allocValueOnDemand_counts st val st1 ha
    split at h
    · cases h
    · have h2 := eres_bind_ok h
      clear h
      obtain ⟨size, st2, hf, h⟩ := h2
      have hst2 := fsizeof_state _ _ _ _ hf
      subst hst2
      split at h
      · cases h
      · have h2 := eres_bind_ok h
        clear h
        obtain ⟨reg, st3, hrg, h⟩ := h2
        obtain ⟨hR1, hR2⟩ := allocReg_counts _ _ _ _ _ hrg
        have h2 := eres_bind_ok h
        clear h
        obtain ⟨body, st4, hc, h⟩ := h2
        have hst4 := storeChunks_state _ _ _ _ _ _ _ hc
        subst hst4
        cases h
        unfold balanced freeReg
        simp only []
        omega
  · intro m st' h
    unfold asmStoreValAddr at h
    rcases eres_bind_err h with h1 | ⟨u, st1, ha, h1⟩
    · exact absurd h1 (allocValueOnDemand_no_err _ _ _ _)
    · obtain ⟨⟩ := u
      obtain ⟨hA1, hA2⟩ := allocValueOnDemand_counts st val st1 ha
      split at h1
      · cases h1
        exact balanced_of_counts hA1 hA2
      · rcases eres_bind_err h1 with h2 | ⟨size, st2, hf, h2⟩
        · exact absurd h2 (fsizeof_no_err _ _ _ _)
        · have hst2 := fsizeof_state _ _ _ _ hf
          subst hst2
          split at h2
          · cases h2
          · rcases eres_bind_err h2 with h3 | ⟨reg, st3, hrg, h3⟩
            · exact absurd h3 (allocReg_no_err _ _ _ _ _)
            · rcases eres_bind_err h3 with h4 | ⟨body, st4, hc, h4⟩
              · exact absurd h4 (storeChunks_no_err _ _ _ _ _ _ _)
              · cases h4

theorem asmStore_balance (st : FState) (instr : StoreInstr) :
    (∀ l st', asmStore st instr = .ok l st' → balanced st st') ∧
    (∀ m st', asmStore st instr ≠ .err m st') := by
  constructor
  · intro l st' h
    unfold asmStore at h
    have h2 := eres_bind_ok h
    clear h
    obtain ⟨u, st1, ha, h⟩ := h2
    obtain ⟨⟩ := u
    obtain ⟨hA1, hA2⟩ := allocValueOnDemand_counts st instr.val st1 ha
    have h2 := eres_bind_ok h
    clear h
    obtain ⟨u, st2, hb, h⟩ := h2
    obtain ⟨⟩ := u
    obtain ⟨hB1, hB2⟩ := allocValueOnDemand_counts st1 instr.addr st2 hb
    have h2 := eres_bind_ok h
    clear h
    obtain ⟨size, st3, hf, h⟩ := h2
    have hst3 := fsizeof_state _ _ _ _ hf
    subst hst3
    split at h
    · cases h
    · have h2 := eres_bind_ok h
      clear h
      obtain ⟨reg, st4, hrg, h⟩ := h2
      obtain ⟨hR1, hR2⟩ := allocReg_counts _ _ _ _ _ hrg
      have h2 := eres_bind_ok h
      clear h
      obtain ⟨body, st5, hc, h⟩ := h2
      obtain ⟨hst5, -⟩ := storeChunksAddr_ok_elim _ _ _ _ _ _ _ hc
      subst hst5
      cases h
      unfold balanced freeReg
      simp only []
      omega
  · intro m st' h
    unfold asmStore at h
    rcases eres_bind_err h with h1 | ⟨u, st1, ha, h1⟩
    · exact absurd h1 (allocValueOnDemand_no_err _ _ _ _)
    · rcases eres_bind_err h1 with h2 | ⟨u2, st2, hb, h2⟩
      · exact absurd h2 (allocValueOnDemand_no_err _ _ _ _)
      · rcases eres_bind_err h2 with h3 | ⟨size, st3, hf, h3⟩
        · exact absurd h3 (fsizeof_no_err _ _ _ _)
        · split at h3
          · cases h3
          · rcases eres_bind_err h3 with h4 | ⟨reg, st4, hrg, h4⟩
            · exact absurd h4 (allocReg_no_err _ _ _ _ _)
            · rcases eres_bind_err h4 with h5 | ⟨body, st5, hc, h5⟩
              · exact absurd h5 (storeChunksAddr_no_err _ _ _ _ _ _ _)
              · cases h5

theorem binOpLines_state (op : BinTok) (x y v : Register) (st : FState)
    (l : List String) (st' : FState) (h : binOpLines op x y v st = .ok l st') :
    st' = st := by
  unfold binOpLines at h
  split at h <;> first | (cases h; rfl) | cases h

theorem binOpLines_no_err (op : BinTok) (x y v : Register) (st : FState)
    (m : String) (st' : FState) : binOpLines op x y v st ≠ .err m st' := by
  intro h
  unfold binOpLines at h
  split at h <;> cases h

theorem asmBinOpLoadXY_counts (st : FState) (instr : BinOpInstr)
    (res : List String × Register × Register) (st' : FState)
    (h : asmBinOpLoadXY st instr = .ok res st') :
    st'.allocCnt = st.allocCnt + 2 ∧ st'.freeCnt = st.freeCnt := by
  unfold asmBinOpLoadXY at h
  have h2 := eres_bind_ok h
  clear h
  obtain ⟨u, st1, ha, h⟩ := h2
  obtain ⟨⟩ := u
  obtain ⟨hA1, hA2⟩ := allocValueOnDemand_counts _ _ _ ha
  have h2 := eres_bind_ok h
  clear h
  obtain ⟨u, st2, hb, h⟩ := h2
  obtain ⟨⟩ := u
  obtain ⟨hB1, hB2⟩ := allocValueOnDemand_counts _ _ _ hb
  have h2 := eres_bind_ok h
  clear h
  obtain ⟨u, st3, hc, h⟩ := h2
  obtain ⟨⟩ := u
  obtain ⟨hC1, hC2⟩ := allocValueOnDemand_counts _ _ _ hc
  have h2 := eres_bind_ok h
  clear h
  obtain ⟨sx, st4, hsx, h⟩ := h2
  have hst4 := fsizeof_state _ _ _ _ hsx
  subst hst4
  have h2 := eres_bind_ok h
  clear h
  obtain ⟨x, st5, hx, h⟩ := h2
  obtain ⟨hX1, hX2⟩ := allocReg_counts _ _ _ _ _ hx
  have h2 := eres_bind_ok h
  clear h
  obtain ⟨sy, st6, hsy, h⟩ := h2
  have hst6 := fsizeof_state _ _ _ _ hsy
  subst hst6
  have h2 := eres_bind_ok h
  clear h
  obtain ⟨y, st7, hy, h⟩ := h2
  obtain ⟨hY1, hY2⟩ := allocReg_counts _ _ _ _ _ hy
  have h2 := bind_asmLoadValue_ok h
  clear h
  obtain ⟨lx, hlx, h⟩ := h2
  have h2 := bind_asmLoadValue_ok h
  clear h
  obtain ⟨ly, hly, h⟩ := h2
  cases h
  omega

theorem asmBinOpLoadXY_no_err (st : FState) (instr : BinOpInstr) (m : String)
    (st' : FState) : asmBinOpLoadXY st instr ≠ .err m st' := by
  intro h
  unfold asmBinOpLoadXY at h
  rcases eres_bind_err h with h1 | ⟨u, st1, ha, h1⟩
  · exact absurd h1 (allocValueOnDemand_no_err _ _ _ _)
  rcases eres_bind_err h1 with h2 | ⟨u2, st2, hb, h2⟩
  · exact absurd h2 (allocValueOnDemand_no_err _ _ _ _)
  rcases eres_bind_err h2 with h3 | ⟨u3, st3, hc, h3⟩
  · exact absurd h3 (allocValueOnDemand_no_err _ _ _ _)
  rcases eres_bind_err h3 with h4 | ⟨sx, st4, hsx, h4⟩
  · exact absurd h4 (fsizeof_no_err _ _ _ _)
  rcases eres_bind_err h4 with h5 | ⟨x, st5, hx, h5⟩
  · exact absurd h5 (allocReg_no_err _ _ _ _ _)
  rcases eres_bind_err h5 with h6 | ⟨sy, st6, hsy, h6⟩
  · exact absurd h6 (fsizeof_no_err _ _ _ _)
  rcases eres_bind_err h6 with h7 | ⟨y, st7, hy, h7⟩
  · exact absurd h7 (allocReg_no_err _ _ _ _ _)
  rcases eres_bind_err h7 with h8 | ⟨lx, st8, hlx, h8⟩
  · exact absurd h8 (asmLoadValue_no_err _ _ _ _ _ _ _)
  rcases eres_bind_err h8 with h9 | ⟨ly, st9, hly, h9⟩
  · exact absurd h9 (asmLoadValue_no_err _ _ _ _ _ _ _)
  cases h9

theorem allocReg_ite_counts {c : Prop} [Decidable c] {st : FState}
    {t1 t2 : RegType} {s1 s2 : Nat} {r : Register} {st' : FState}
    (h : (if c then allocReg st t1 s1 else allocReg st t2 s2) = .ok r st') :
    st'.allocCnt = st.allocCnt + 1 ∧ st'.freeCnt = st.freeCnt := by
  split at h <;> exact allocReg_counts _ _ _ _ _ h

theorem asmBinOp_balance (st : FState) (instr : BinOpInstr) :
    (∀ l st', asmBinOp st instr = .ok l st' → balanced st st') ∧
    (∀ m st', asmBinOp st instr ≠ .err m st') := by
  constructor
  · intro l st' h
    unfold asmBinOp at h
    have h2 := eres_bind_ok h
    clear h
    obtain ⟨u, st1, ha, h⟩ := h2
    obtain ⟨⟩ := u
    obtain ⟨hA1, hA2⟩ := allocValueOnDemand_counts _ _ _ ha
    have h2 := eres_bind_ok h
    clear h
    obtain ⟨sz, st2, hsz, h⟩ := h2
    have hst2 := fsizeof_state _ _ _ _ hsz
    subst hst2
    have h2 := eres_bind_ok h
    clear h
    obtain ⟨regVal, st3, hrv, h⟩ := h2
    obtain ⟨hV1, hV2⟩ := allocReg_ite_counts hrv
    have h2 := eres_bind_ok h
    clear h
    obtain ⟨lxy, st4, hxy, h⟩ := h2
    obtain ⟨hL1, hL2⟩ := asmBinOpLoadXY_counts _ _ _ _ hxy
    have h2 := eres_bind_ok h
    clear h
    obtain ⟨opLines, st5, hop, h⟩ := h2
    have hst5 := binOpLines_state _ _ _ _ _ _ _ hop
    subst hst5
    dsimp only [] at h
    split at h
    · cases h
    · have h2 := bind_asmStoreReg_ok h
      clear h
      obtain ⟨sl, hsl, h⟩ := h2
      cases h
      unfold balanced freeReg
      simp only []
      omega
  · intro m st' h
    unfold asmBinOp at h
    rcases eres_bind_err h with h1 | ⟨u, st1, ha, h1⟩
    · exact absurd h1 (allocValueOnDemand_no_err _ _ _ _)
    rcases eres_bind_err h1 with h2 | ⟨sz, st2, hsz, h2⟩
    · exact absurd h2 (fsizeof_no_err _ _ _ _)
    rcases eres_bind_err h2 with h3 | ⟨regVal, st3, hrv, h3⟩
    · revert h3
      split <;> exact allocReg_no_err _ _ _ _ _
    rcases eres_bind_err h3 with h4 | ⟨lxy, st4, hxy, h4⟩
    · exact absurd h4 (asmBinOpLoadXY_no_err _ _ _ _)
    rcases eres_bind_err h4 with h5 | ⟨opLines, st5, hop, h5⟩
    · exact absurd h5 (binOpLines_no_err _ _ _ _ _ _ _)
    dsimp only [] at h5
    split at h5
    · cases h5
    · rcases eres_bind_err h5 with h6 | ⟨sl, st6, hsl, h6⟩
      · exact absurd h6 (asmStoreReg_no_err _ _ _ _ _ _)
      · cases h6

theorem assignmentBind_counts {st : FState} {o : Option NameInfo} {n : String}
    {t : Ty} {a : NameInfo} {st' : FState}
    (h : (match o with
          | some a => ERes.ok a st
          | none => asmAllocLocal st n t) = .ok a st') :
    st'.allocCnt = st.allocCnt ∧ st'.freeCnt = st.freeCnt := by
  match o with
  | some x =>
    cases h
    exact ⟨rfl, rfl⟩
  | none => exact asmAllocLocal_counts _ _ _ _ _ h

theorem assignmentBind_no_err {st : FState} {o : Option NameInfo} {n : String}
    {t : Ty} {m : String} {st' : FState} :
    (match o with
     | some a => ERes.ok a st
     | none => asmAllocLocal st n t) ≠ .err m st' := by
  intro h
  match o with
  | some x => cases h
  | none => exact asmAllocLocal_no_err _ _ _ _ _ h

theorem asmUnOpPointer_balance (st : FState) (instr : UnOpInstr) :
    (∀ l st', asmUnOpPointer st instr = .ok l st' → balanced st st') ∧
    (∀ m st', asmUnOpPointer st instr ≠ .err m st') := by
  constructor
  · intro l st' h
    unfold asmUnOpPointer at h
    split at h
    · cases h
    · split at h
      · cases h
      · have h2 := eres_bind_ok h
        clear h
        obtain ⟨assignment, st1, hasn, h⟩ := h2
        obtain ⟨hA1, hA2⟩ := assignmentBind_counts hasn
        have h2 := eres_bind_ok h
        clear h
        obtain ⟨xrs, st2, hx, h⟩ := h2
        have hst2 := memRegOffsetSize_state _ _ _ _ hx
        subst hst2
        have h2 := eres_bind_ok h
        clear h
        obtain ⟨ars, st3, ha2, h⟩ := h2
        have hst3 := memRegOffsetSize_state _ _ _ _ ha2
        subst hst3
        split at h
        · cases h
        · have h2 := eres_bind_ok h
          clear h
          obtain ⟨tmp1, st4, ht1, h⟩ := h2
          obtain ⟨hT1, hT2⟩ := allocReg_counts _ _ _ _ _ ht1
          have h2 := eres_bind_ok h
          clear h
          obtain ⟨tmp2, st5, ht2, h⟩ := h2
          obtain ⟨hU1, hU2⟩ := allocReg_counts _ _ _ _ _ ht2
          cases h
          unfold balanced freeReg
          simp only []
          omega
  · intro m st' h
    unfold asmUnOpPointer at h
    split at h
    · cases h
    · split at h
      · cases h
      · rcases eres_bind_err h with h1 | ⟨assignment, st1, hasn, h1⟩
        · exact absurd h1 assignmentBind_no_err
        rcases eres_bind_err h1 with h2 | ⟨xrs, st2, hx, h2⟩
        · exact absurd h2 (memRegOffsetSize_no_err _ _ _ _)
        rcases eres_bind_err h2 with h3 | ⟨ars, st3, ha2, h3⟩
        · exact absurd h3 (memRegOffsetSize_no_err _ _ _ _)
        split at h3
        · cases h3
        · rcases eres_bind_err h3 with h4 | ⟨tmp1, st4, ht1, h4⟩
          · exact absurd h4 (allocReg_no_err _ _ _ _ _)
          rcases eres_bind_err h4 with h5 | ⟨tmp2, st5, ht2, h5⟩
          · exact absurd h5 (allocReg_no_err _ _ _ _ _)
          cases h5

theorem asmUnOp_balance (st : FState) (instr : UnOpInstr) :
    (∀ l st', asmUnOp st instr = .ok l st' → balanced st st') ∧
    (∀ m st', asmUnOp st instr ≠ .err m st') := by
  constructor
  · intro l st' h
    unfold asmUnOp at h
    have h2 := eres_bind_ok h
    clear h
    obtain ⟨lines, st1, hin, h⟩ := h2
    cases h
    rcases hop : instr.op <;> rw [hop] at hin
    · cases hin
      exact balanced_refl _
    · cases hin
      exact balanced_refl _
    · cases hin
      exact balanced_refl _
    · exact (asmUnOpPointer_balance st instr).1 _ _ hin
    · cases hin
  · intro m st' h
    unfold asmUnOp at h
    rcases eres_bind_err h with h1 | ⟨lines, st1, hin, h1⟩
    · rcases hop : instr.op <;> rw [hop] at h1
      · cases h1
      · cases h1
      · cases h1
      · exact (asmUnOpPointer_balance st instr).2 _ _ h1
      · cases h1
    · cases h1

theorem asmIndexAddr_balance (st : FState) (instr : IndexAddrInstr) :
    (∀ l st', asmIndexAddr st instr = .ok l st' → balanced st st') ∧
    (∀ m st', asmIndexAddr st instr ≠ .err m st') := by
  constructor
  · intro l st' h
    unfold asmIndexAddr at h
    have h2 := eres_bind_ok h
    clear h
    obtain ⟨assignment, st1, hasn, h⟩ := h2
    obtain ⟨hA1, hA2⟩ := assignmentBind_counts hasn
    have h2 := eres_bind_ok h
    clear h
    obtain ⟨lines, st2, hlines, h⟩ := h2
    cases h
    have hbal2 : balanced st1 st2 := by
      rcases hk : instr.index.kind <;> rw [hk] at hlines
      · have h2 := eres_bind_ok hlines
        clear hlines
        obtain ⟨tmpReg, stA, hta, h3⟩ := h2
        obtain ⟨hTA1, hTA2⟩ := allocReg_counts _ _ _ _ _ hta
        split at h3
        · cases h3
        · have h2 := eres_bind_ok h3
          clear h3
          obtain ⟨size, stB, hsz, h3⟩ := h2
          have hstB : stB = stA := by
            unfold liftOpt at hsz
            split at hsz
            · cases hsz; rfl
            · cases hsz
          subst hstB
          have h2 := eres_bind_ok h3
          clear h3
          obtain ⟨xrs, stC, hx, h3⟩ := h2
          have hstC := memRegOffsetSize_state _ _ _ _ hx
          subst hstC
          have h2 := eres_bind_ok h3
          clear h3
          obtain ⟨ars, stD, ha3, h3⟩ := h2
          have hstD := memRegOffsetSize_state _ _ _ _ ha3
          subst hstD
          cases h3
          unfold balanced freeReg
          simp only []
          omega
      · have h2 := eres_bind_ok hlines
        clear hlines
        obtain ⟨tmpReg, stA, hta, h3⟩ := h2
        obtain ⟨hTA1, hTA2⟩ := allocReg_counts _ _ _ _ _ hta
        have h2 := eres_bind_ok h3
        clear h3
        obtain ⟨tmp2Reg, stB, htb, h3⟩ := h2
        obtain ⟨hTB1, hTB2⟩ := allocReg_counts _ _ _ _ _ htb
        split at h3
        · cases h3
        · have h2 := eres_bind_ok h3
          clear h3
          obtain ⟨xrs, stC, hx, h3⟩ := h2
          have hstC := memRegOffsetSize_state _ _ _ _ hx
          subst hstC
          split at h3
          · cases h3
          · have h2 := eres_bind_ok h3
            clear h3
            obtain ⟨prs, stD, hp, h3⟩ := h2
            have hstD := memRegOffsetSize_state _ _ _ _ hp
            subst hstD
            split at h3
            · cases h3
            · have h2 := eres_bind_ok h3
              clear h3
              obtain ⟨ars, stE, ha3, h3⟩ := h2
              have hstE := memRegOffsetSize_state _ _ _ _ ha3
              subst hstE
              cases h3
              unfold balanced freeReg
              simp only []
              omega
      · cases hlines
        exact balanced_refl _
    unfold balanced at hbal2 ⊢
    simp only []
    omega
  · intro m st' h
    unfold asmIndexAddr at h
    rcases eres_bind_err h with h1 | ⟨assignment, st1, hasn, h1⟩
    · exact absurd h1 assignmentBind_no_err
    rcases eres_bind_err h1 with h2 | ⟨lines, st2, hlines, h2⟩
    swap
    · cases h2
    rcases hk : instr.index.kind <;> rw [hk] at h2
    · rcases eres_bind_err h2 with h3 | ⟨tmpReg, stA, hta, h3⟩
      · exact absurd h3 (allocReg_no_err _ _ _ _ _)
      split at h3
      · cases h3
      · rcases eres_bind_err h3 with h4 | ⟨size, stB, hsz, h4⟩
        · unfold liftOpt at h4
          split at h4 <;> cases h4
        rcases eres_bind_err h4 with h5 | ⟨xrs, stC, hx, h5⟩
        · exact absurd h5 (memRegOffsetSize_no_err _ _ _ _)
        rcases eres_bind_err h5 with h6 | ⟨ars, stD, ha3, h6⟩
        · exact absurd h6 (memRegOffsetSize_no_err _ _ _ _)
        cases h6
    · rcases eres_bind_err h2 with h3 | ⟨tmpReg, stA, hta, h3⟩
      · exact absurd h3 (allocReg_no_err _ _ _ _ _)
      rcases eres_bind_err h3 with h4 | ⟨tmp2Reg, stB, htb, h4⟩
      · exact absurd h4 (allocReg_no_err _ _ _ _ _)
      split at h4
      · cases h4
      · rcases eres_bind_err h4 with h5 | ⟨xrs, stC, hx, h5⟩
        · exact absurd h5 (memRegOffsetSize_no_err _ _ _ _)
        split at h5
        · cases h5
        · rcases eres_bind_err h5 with h6 | ⟨prs, stD, hp, h6⟩
          · exact absurd h6 (memRegOffsetSize_no_err _ _ _ _)
          split at h6
          · cases h6
          · rcases eres_bind_err h6 with h7 | ⟨ars, stE, ha3, h7⟩
            · exact absurd h7 (memRegOffsetSize_no_err _ _ _ _)
            cases h7
    · cases h2

theorem asmAllocInstr_balance (st : FState) (instr : AllocInstr) :
    (∀ l st', asmAllocInstr st instr = .ok l st' → balanced st st') ∧
    (∀ m st', asmAllocInstr st instr = .err m st' → balanced st st') := by
  unfold asmAllocInstr
  constructor
  · intro l st' h
    split at h
    · cases h
    · split at h
      · cases h
      · split at h
        · cases h
        · cases h
          exact balanced_refl _
  · intro m st' h
    split at h
    · cases h
      exact balanced_refl _
    · split at h
      · cases h
      · split at h <;> cases h

theorem asmPhi_balance (st : FState) (phi : PhiInstr) :
    (∀ l st', asmPhi st phi = .ok l st' → balanced st st') ∧
    (∀ m st', asmPhi st phi ≠ .err m st') := by
  constructor
  · intro l st' h
    unfold asmPhi at h
    have h2 := eres_bind_ok h
    clear h
    obtain ⟨u, st1, ha, h⟩ := h2
    obtain ⟨⟩ := u
    obtain ⟨hA1, hA2⟩ := allocValueOnDemand_counts _ _ _ ha
    cases h
    exact balanced_of_counts hA1 hA2
  · intro m st' h
    unfold asmPhi at h
    rcases eres_bind_err h with h1 | ⟨u, st1, ha, h1⟩
    · exact absurd h1 (allocValueOnDemand_no_err _ _ _ _)
    · cases h1

theorem preambleStores_balance (entries : List (Value × PhiInstr)) :
    ∀ (st : FState),
      (∀ l st', preambleStores st entries = .ok l st' → balanced st st') ∧
      (∀ m st', preambleStores st entries ≠ .err m st') := by
  induction entries with
  | nil =>
    intro st
    constructor
    · intro l st' h
      cases h
      exact balanced_refl _
    · intro m st' h
      cases h
  | cons e rest ih =>
    intro st
    constructor
    · intro l st' h
      unfold preambleStores at h
      have h2 := eres_bind_ok h
      clear h
      obtain ⟨l1, st1, hs, h⟩ := h2
      have hb1 := (asmStore_balance st _).1 _ _ hs
      have h2 := eres_bind_ok h
      clear h
      obtain ⟨ls, st2, hr, h⟩ := h2
      have hb2 := (ih st1).1 _ _ hr
      cases h
      exact balanced_trans hb1 hb2
    · intro m st' h
      unfold preambleStores at h
      rcases eres_bind_err h with h1 | ⟨l1, st1, hs, h1⟩
      · exact absurd h1 ((asmStore_balance st _).2 _ _)
      rcases eres_bind_err h1 with h2 | ⟨ls, st2, hr, h2⟩
      · exact absurd h2 ((ih st1).2 _ _)
      cases h2

theorem asmJumpPreamble_balance (st : FState) (bi ji : Nat) :
    (∀ l st', asmJumpPreamble st bi ji = .ok l st' → balanced st st') ∧
    (∀ m st', asmJumpPreamble st bi ji ≠ .err m st') :=
  preambleStores_balance (phiGet st.phiInfo bi ji) st

theorem asmJump_balance (st : FState) (blk : Block) :
    (∀ l st', asmJump st blk = .ok l st' → balanced st st') ∧
    (∀ m st', asmJump st blk ≠ .err m st') := by
  unfold asmJump
  constructor
  · intro l st' h
    split at h
    · have h2 := eres_bind_ok h
      clear h
      obtain ⟨pre, st1, hp, h⟩ := h2
      cases h
      exact (asmJumpPreamble_balance st _ _).1 _ _ hp
    · cases h
  · intro m st' h
    split at h
    · rcases eres_bind_err h with h1 | ⟨pre, st1, hp, h1⟩
      · exact absurd h1 ((asmJumpPreamble_balance st _ _).2 _ _)
      · cases h1
    · cases h

theorem asmIf_balance (st : FState) (blk : Block) (cond : Value) :
    (∀ l st', asmIf st blk cond = .ok l st' → balanced st st') ∧
    (∀ m st', asmIf st blk cond = .err m st' → balanced st st') := by
  unfold asmIf
  constructor
  · intro l st' h
    split at h
    · split at h
      · cases h
      · have h2 := eres_bind_ok h
        clear h
        obtain ⟨preF, st1, hpF, h⟩ := h2
        have hb1 := (asmJumpPreamble_balance st _ _).1 _ _ hpF
        have h2 := eres_bind_ok h
        clear h
        obtain ⟨rs, st2, hm, h⟩ := h2
        have hst2 := memRegOffsetSize_state _ _ _ _ hm
        subst hst2
        have h2 := eres_bind_ok h
        clear h
        obtain ⟨preT, st3, hpT, h⟩ := h2
        have hb2 := (asmJumpPreamble_balance _ _ _).1 _ _ hpT
        cases h
        exact balanced_trans hb1 hb2
    · cases h
  · intro m st' h
    split at h
    · split at h
      · cases h
        exact balanced_refl _
      · rcases eres_bind_err h with h1 | ⟨preF, st1, hpF, h1⟩
        · exact absurd h1 ((asmJumpPreamble_balance st _ _).2 _ _)
        rcases eres_bind_err h1 with h2 | ⟨rs, st2, hm, h2⟩
        · exact absurd h2 (memRegOffsetSize_no_err _ _ _ _)
        rcases eres_bind_err h2 with h3 | ⟨preT, st3, hpT, h3⟩
        · exact absurd h3 ((asmJumpPreamble_balance st2 _ _).2 _ _)
        cases h3
    · cases h

theorem paramsSizeE_state (fn : SsaFn) (st : FState) (s : Nat) (st' : FState)
    (h : paramsSizeE fn st = .ok s st') : st' = st := by
  unfold paramsSizeE at h
  split at h
  · cases h; rfl
  · cases h

theorem paramsSizeE_no_err (fn : SsaFn) (st : FState) (m : String) (st' : FState) :
    paramsSizeE fn st ≠ .err m st' := by
  intro h
  unfold paramsSizeE at h
  split at h <;> cases h

theorem retSizeE_state (fn : SsaFn) (st : FState) (s : Nat) (st' : FState)
    (h : retSizeE fn st = .ok s st') : st' = st := by
  unfold retSizeE liftOpt at h
  split at h
  · cases h
  · split at h
    · cases h; rfl
    · cases h
  · cases h

theorem retSizeE_no_err (fn : SsaFn) (st : FState) (m : String) (st' : FState) :
    retSizeE fn st ≠ .err m st' := by
  intro h
  unfold retSizeE liftOpt at h
  split at h
  · cases h
  · split at h <;> cases h
  · cases h

theorem asmCopyToRet_balance (st : FState) (fn : SsaFn) (vals : List Value) :
    (∀ l st', asmCopyToRet st fn vals = .ok l st' → balanced st st') ∧
    (∀ m st', asmCopyToRet st fn vals = .err m st' → balanced st st') := by
  unfold asmCopyToRet
  constructor
  · intro l st' h
    split at h
    · cases h
      exact balanced_refl _
    · split at h
      · cases h
      · have h2 := eres_bind_ok h
        clear h
        obtain ⟨psz, st1, hps, h⟩ := h2
        have hst1 := paramsSizeE_state _ _ _ _ hps
        subst hst1
        have h2 := eres_bind_ok h
        clear h
        obtain ⟨rsz, st2, hrs, h⟩ := h2
        have hst2 := retSizeE_state _ _ _ _ hrs
        subst hst2
        exact (asmStoreValAddr_balance _ _ _).1 _ _ h
    · cases h
  · intro m st' h
    split at h
    · cases h
    · split at h
      · cases h
      · rcases eres_bind_err h with h1 | ⟨psz, st1, hps, h1⟩
        · exact absurd h1 (paramsSizeE_no_err _ _ _ _)
        have hst1 := paramsSizeE_state _ _ _ _ hps
        subst hst1
        rcases eres_bind_err h1 with h2 | ⟨rsz, st2, hrs, h2⟩
        · exact absurd h2 (retSizeE_no_err _ _ _ _)
        have hst2 := retSizeE_state _ _ _ _ hrs
        subst hst2
        exact (asmStoreValAddr_balance _ _ _).2 _ _ h2
    · cases h
      exact balanced_refl _

theorem asmReturn_balance (st : FState) (fn : SsaFn) (r : RetInstr) :
    (∀ l st', asmReturn st fn r = .ok l st' → balanced st st') ∧
    (∀ m st', asmReturn st fn r = .err m st' → balanced st st') := by
  unfold asmReturn
  constructor
  · intro l st' h
    have h2 := eres_bind_ok h
    clear h
    obtain ⟨copy, st1, hc, h⟩ := h2
    cases h
    exact (asmCopyToRet_balance st fn r.results).1 _ _ hc
  · intro m st' h
    rcases eres_bind_err h with h1 | ⟨copy, st1, hc, h1⟩
    · exact (asmCopyToRet_balance st fn r.results).2 _ _ h1
    · cases h1

/-- **C9.**  For every single instruction emission that completes (returns a
result or a recoverable error rather than aborting fatally), the number of
register-pool allocate calls performed equals the number of register-pool
free calls, on every execution path: no register is leaked across
instructions and none is freed twice.  The calls are counted by the ghost
`allocCnt`/`freeCnt` fields incremented by `allocReg` (once per successful
acquisition) and `freeReg`. -/
theorem asmInstr_reg_balance (st : FState) (fn : SsaFn) (blk : Block) (i : Instr) :
    (∀ lines st', asmInstr st fn blk i = .ok lines st' →
        st'.allocCnt + st.freeCnt = st'.freeCnt + st.allocCnt) ∧
    (∀ m st', asmInstr st fn blk i = .err m st' →
        st'.allocCnt + st.freeCnt = st'.freeCnt + st.allocCnt) := by
  cases i with
  | alloc a => exact asmAllocInstr_balance st a
  | binOp b =>
    exact ⟨(asmBinOp_balance st b).1,
           fun m st' h => absurd h ((asmBinOp_balance st b).2 m st')⟩
  | cond c => exact asmIf_balance st blk c
  | indexAddr ia =>
    exact ⟨(asmIndexAddr_balance st ia).1,
           fun m st' h => absurd h ((asmIndexAddr_balance st ia).2 m st')⟩
  | jump =>
    exact ⟨(asmJump_balance st blk).1,
           fun m st' h => absurd h ((asmJump_balance st blk).2 m st')⟩
  | phi p =>
    exact ⟨(asmPhi_balance st p).1,
           fun m st' h => absurd h ((asmPhi_balance st p).2 m st')⟩
  | ret r => exact asmReturn_balance st fn r
  | store s =>
    exact ⟨(asmStore_balance st s).1,
           fun m st' h => absurd h ((asmStore_balance st s).2 m st')⟩
  | unOp u =>
    exact ⟨(asmUnOp_balance st u).1,
           fun m st' h => absurd h ((asmUnOp_balance st u).2 m st')⟩
  | unsupported txt =>
    constructor
    · intro lines st' h
      cases h
      omega
    · intro m st' h
      cases h

/-- Witness for C9 at a concrete emission (a comment-only unsupported
instruction in the initial state). -/
theorem asmInstr_reg_balance_witness :
    initState.allocCnt + initState.freeCnt = initState.freeCnt + initState.allocCnt :=
  (asmInstr_reg_balance initState ⟨"f", [], [], [], []⟩ ⟨0, [], [], []⟩
    (.unsupported "ssa.Call: c, name: t3")).1
    [indent ++ "ssa.Call: c, name: t3"] initState rfl

/-! ### Storage-slot disjointness (C7): table-level notions -/

/-- The size contribution of one binding to the exact local-slot total. -/
def localSizeOf (ni : NameInfo) : Nat :=
  match ni.locl with
  | some v => v.size
  | none => 0

/-- Exact (untruncated) sum of the local-slot sizes bound in a table. -/
def sumLocals (tbl : List (String × NameInfo)) : Nat :=
  (tbl.map (fun e => localSizeOf e.2)).sum

/-- Two byte ranges `[o1, o1+s1)` and `[o2, o2+s2)` share a byte. -/
def overlaps (o1 s1 o2 s2 : Nat) : Prop :=
  ∃ x, o1 ≤ x ∧ x < o1 + s1 ∧ o2 ≤ x ∧ x < o2 + s2

theorem sumLocals_nil : sumLocals [] = 0 := rfl

theorem sumLocals_cons (e : String × NameInfo) (m : List (String × NameInfo)) :
    sumLocals (e :: m) = localSizeOf e.2 + sumLocals m := by
  unfold sumLocals
  rw [List.map_cons, List.sum_cons]

theorem sumLocals_append (m1 m2 : List (String × NameInfo)) :
    sumLocals (m1 ++ m2) = sumLocals m1 + sumLocals m2 := by
  unfold sumLocals
  rw [List.map_append, List.sum_append]

theorem mapGet_nil {α : Type} (k : String) :
    mapGet ([] : List (String × α)) k = none := rfl

theorem mapGet_cons {α : Type} (e : String × α) (m : List (String × α)) (k : String) :
    mapGet (e :: m) k = if e.1 = k then some e.2 else mapGet m k := by
  by_cases hk : e.1 = k
  · rw [if_pos hk]
    unfold mapGet
    rw [List.find?_cons_of_pos _ (by simp [hk])]
    rfl
  · rw [if_neg hk]
    unfold mapGet
    rw [List.find?_cons_of_neg _ (by simp [hk])]

theorem mapGet_mapSet {α : Type} (m : List (String × α)) (k k' : String) (v : α) :
    mapGet (mapSet m k v) k' = if k = k' then some v else mapGet m k' := by
  induction m with
  | nil =>
    show mapGet [(k, v)] k' = _
    by_cases hk : k = k' <;> simp [mapGet_cons, mapGet_nil, hk]
  | cons e rest ih =>
    by_cases he : e.1 = k
    · rw [mapSet, if_pos he]
      by_cases hk : k = k'
      · simp [mapGet_cons, hk]
      · simp [mapGet_cons, hk, he]
    · rw [mapSet, if_neg he, mapGet_cons, mapGet_cons, ih]
      by_cases hk : e.1 = k'
      · have hkk : ¬ k = k' := fun h0 => he (hk.trans h0.symm)
        rw [if_pos hk, if_neg hkk, if_pos hk]
      · rw [if_neg hk, if_neg hk]

theorem mapSet_self {α : Type} (m : List (String × α)) (k : String) (v : α)
    (h : mapGet m k = some v) : mapSet m k v = m := by
  induction m with
  | nil => cases h
  | cons e rest ih =>
    rw [mapGet_cons] at h
    by_cases he : e.1 = k
    · rw [if_pos he] at h
      cases h
      rw [mapSet, if_pos he, ← he]
    · rw [if_neg he] at h
      rw [mapSet, if_neg he, ih h]

theorem mapSet_fresh {α : Type} (m : List (String × α)) (k : String) (v : α)
    (h : mapGet m k = none) : mapSet m k v = m ++ [(k, v)] := by
  induction m with
  | nil => rfl
  | cons e rest ih =>
    rw [mapGet_cons] at h
    by_cases he : e.1 = k
    · rw [if_pos he] at h
      cases h
    · rw [if_neg he] at h
      rw [mapSet, if_neg he, ih h, List.cons_append]

theorem mem_keys_mapSet {α : Type} (m : List (String × α)) (k : String) (v : α)
    (x : String) (h : x ∈ (mapSet m k v).map Prod.fst) :
    x = k ∨ x ∈ m.map Prod.fst := by
  induction m with
  | nil =>
    simp only [mapSet, List.map_cons, List.map_nil, List.mem_singleton] at h
    exact Or.inl h
  | cons e rest ih =>
    by_cases he : e.1 = k
    · rw [mapSet, if_pos he] at h
      simp only [List.map_cons, List.mem_cons] at h ⊢
      rcases h with h | h
      · exact Or.inl h
      · exact Or.inr (Or.inr h)
    · rw [mapSet, if_neg he] at h
      simp only [List.map_cons, List.mem_cons] at h ⊢
      rcases h with h | h
      · exact Or.inr (Or.inl h)
      · rcases ih h with h | h
        · exact Or.inl h
        · exact Or.inr (Or.inr h)

theorem keys_mapSet_nodup {α : Type} (m : List (String × α)) (k : String) (v : α)
    (h : (m.map Prod.fst).Nodup) : ((mapSet m k v).map Prod.fst).Nodup := by
  induction m with
  | nil => simp [mapSet]
  | cons e rest ih =>
    rw [List.map_cons, List.nodup_cons] at h
    by_cases he : e.1 = k
    · rw [mapSet, if_pos he, List.map_cons, List.nodup_cons]
      exact ⟨he ▸ h.1, h.2⟩
    · rw [mapSet, if_neg he, List.map_cons, List.nodup_cons]
      refine ⟨fun hmem => ?_, ih h.2⟩
      rcases mem_keys_mapSet rest k v e.1 hmem with hk | hk
      · exact he hk
      · exact h.1 hk

theorem mapGet_of_mem {α : Type} (m : List (String × α)) (k : String) (v : α)
    (hmem : (k, v) ∈ m) (hnd : (m.map Prod.fst).Nodup) : mapGet m k = some v := by
  induction m with
  | nil => cases hmem
  | cons e rest ih =>
    rw [List.map_cons, List.nodup_cons] at hnd
    rcases List.mem_cons.mp hmem with he | hm
    · rw [← he, mapGet_cons, if_pos rfl]
    · rw [mapGet_cons]
      by_cases he : e.1 = k
      · exact absurd (he ▸ List.mem_map.mpr ⟨(k, v), hm, rfl⟩) hnd.1
      · rw [if_neg he]
        exact ih hm hnd.2

theorem sumLocals_mapSet_nonlocal (m : List (String × NameInfo)) (k : String)
    (v : NameInfo)
    (h : mapGet m k = none ∨ ∃ o, mapGet m k = some o ∧ o.locl = none) :
    sumLocals (mapSet m k v) = sumLocals m + localSizeOf v := by
  induction m with
  | nil =>
    show sumLocals [(k, v)] = _
    rw [sumLocals_cons, sumLocals_nil]
    have h2 : localSizeOf (k, v).2 = localSizeOf v := rfl
    omega
  | cons e rest ih =>
    by_cases he : e.1 = k
    · rw [mapSet, if_pos he, sumLocals_cons, sumLocals_cons]
      rcases h with h | ⟨o, ho, hol⟩
      · rw [mapGet_cons, if_pos he] at h
        cases h
      · rw [mapGet_cons, if_pos he] at ho
        cases ho
        have : localSizeOf e.2 = 0 := by
          unfold localSizeOf
          rw [hol]
        have h2 : localSizeOf (k, v).2 = localSizeOf v := rfl
        omega
    · rw [mapSet, if_neg he, sumLocals_cons, sumLocals_cons]
      have hrest : mapGet rest k = none ∨
          ∃ o, mapGet rest k = some o ∧ o.locl = none := by
        rcases h with h | ⟨o, ho, hol⟩
        · rw [mapGet_cons, if_neg he] at h
          exact Or.inl h
        · rw [mapGet_cons, if_neg he] at ho
          exact Or.inr ⟨o, ho, hol⟩
      rw [ih hrest]
      omega

theorem localsSizeT_fold (tbl : List (String × NameInfo)) :
    ∀ acc, acc < 4294967296 →
      tbl.foldl
        (fun acc e =>
          match e.2.locl with
          | some v => (acc + v.size % 4294967296) % 4294967296
          | none => acc) acc = (acc + sumLocals tbl) % 4294967296 := by
  induction tbl with
  | nil =>
    intro acc h
    rw [List.foldl_nil, sumLocals_nil]
    omega
  | cons e rest ih =>
    intro acc h
    rw [List.foldl_cons, sumLocals_cons]
    rcases hl : e.2.locl with _ | v
    · simp only [hl]
      rw [ih acc h]
      have : localSizeOf e.2 = 0 := by
        unfold localSizeOf
        rw [hl]
      omega
    · simp only [hl]
      rw [ih ((acc + v.size % 4294967296) % 4294967296) (Nat.mod_lt _ (by norm_num))]
      have : localSizeOf e.2 = v.size := by
        unfold localSizeOf
        rw [hl]
      omega

/-- The truncated table sum `localsSize` is the exact sum reduced mod 2^32. -/
theorem localsSizeT_eq (tbl : List (String × NameInfo)) :
    localsSizeT tbl = sumLocals tbl % 4294967296 := by
  unfold localsSizeT
  rw [localsSizeT_fold tbl 0 (by norm_num)]
  omega

/-! ### The table invariant -/

/-- Every binding records its own table key as its name (all the writers in
the source key the map by the binding's name). -/
def NamesMatch (tbl : List (String × NameInfo)) : Prop :=
  ∀ k ni, mapGet tbl k = some ni → ni.name = k

/-- Frame-pointer (parameter/return) slots of distinct names never share a
byte. -/
def ParamsDisjoint (tbl : List (String × NameInfo)) : Prop :=
  ∀ k k' ni ni' p p', k ≠ k' → mapGet tbl k = some ni →
    mapGet tbl k' = some ni' → ni.param = some p → ni'.param = some p' →
    ¬ overlaps p.offset p.size p'.offset p'.size

/-- Stack-pointer (local) slots of distinct names never share a byte. -/
def LocalsDisjoint (tbl : List (String × NameInfo)) : Prop :=
  ∀ k k' ni ni' v v', k ≠ k' → mapGet tbl k = some ni →
    mapGet tbl k' = some ni' → ni.locl = some v → ni'.locl = some v' →
    ¬ overlaps v.offset v.size v'.offset v'.size

/-- Every local slot lies inside `[0, sumLocals tbl)`. -/
def LocalsBounded (tbl : List (String × NameInfo)) : Prop :=
  ∀ k ni v, mapGet tbl k = some ni → ni.locl = some v →
    v.offset + v.size ≤ sumLocals tbl

/-- No local binding allocated on demand (`isSsa = false`) has size 1:
`asmAllocLocal` promotes 1-byte sizes to a word, so the promotion write in
the final zeroing pass never fires. -/
def NonSsaSizes (tbl : List (String × NameInfo)) : Prop :=
  ∀ k ni v, mapGet tbl k = some ni → ni.locl = some v → v.isSsa = false →
    v.size ≠ 1

/-- The structural invariant the pipeline maintains on the name table.  The
local-slot layout facts are conditional on the exact size sum not having
overflowed 32 bits, because on-demand offsets are computed by the truncated
`localsSize`. -/
def TableInv (tbl : List (String × NameInfo)) : Prop :=
  (tbl.map Prod.fst).Nodup ∧ NamesMatch tbl ∧ ParamsDisjoint tbl ∧
  NonSsaSizes tbl ∧
  (sumLocals tbl < 4294967296 → LocalsBounded tbl ∧ LocalsDisjoint tbl)

theorem not_overlaps_left {o1 s1 o2 s2 : Nat} (h : o1 + s1 ≤ o2) :
    ¬ overlaps o1 s1 o2 s2 := by
  intro hov
  unfold overlaps at hov
  obtain ⟨x, h1, h2, h3, h4⟩ := hov
  omega

theorem not_overlaps_right {o1 s1 o2 s2 : Nat} (h : o2 + s2 ≤ o1) :
    ¬ overlaps o1 s1 o2 s2 := by
  intro hov
  unfold overlaps at hov
  obtain ⟨x, h1, h2, h3, h4⟩ := hov
  omega

/-! ### Table evolution during block emission

During basic-block emission the name table mutates in exactly two ways:
a fresh on-demand local allocation (`asmAllocLocal`, keyed by the new
binding's name, at offset `localsSize`, with the 1-byte promotion), and a
re-insert of a binding already present (the source's
`f.ssaNames[v.name] = v` writes). -/

inductive TStep : List (String × NameInfo) → List (String × NameInfo) → Prop
  | alloc {tbl : List (String × NameInfo)} (n : String) (typ : Ty) (sz : Nat) :
      mapGet tbl n = none → sizeof typ = some sz →
      TStep tbl (mapSet tbl n
        ⟨n, typ, some ⟨n, localsSizeT tbl, if sz = 1 then 8 else sz, false⟩, none⟩)
  | rebind {tbl : List (String × NameInfo)} (k : String) (v : NameInfo) :
      mapGet tbl k = some v → TStep tbl (mapSet tbl v.name v)
  | rebindKey {tbl : List (String × NameInfo)} (k : String) (v : NameInfo) :
      mapGet tbl k = some v → TStep tbl (mapSet tbl k v)

/-- Reflexive-transitive closure of `TStep`. -/
inductive TEvol : List (String × NameInfo) → List (String × NameInfo) → Prop
  | refl (tbl : List (String × NameInfo)) : TEvol tbl tbl
  | tail {t1 t2 t3 : List (String × NameInfo)} :
      TEvol t1 t2 → TStep t2 t3 → TEvol t1 t3

theorem TEvol.single {t1 t2 : List (String × NameInfo)} (h : TStep t1 t2) :
    TEvol t1 t2 :=
  .tail (.refl t1) h

theorem TEvol.trans {t1 t2 t3 : List (String × NameInfo)} (h1 : TEvol t1 t2)
    (h2 : TEvol t2 t3) : TEvol t1 t3 := by
  induction h2 with
  | refl => exact h1
  | tail _ hs ih => exact .tail ih hs

/-- Each emission-phase table mutation preserves the table invariant. -/
theorem TStep_inv {t1 t2 : List (String × NameInfo)} (hs : TStep t1 t2)
    (hinv : TableInv t1) : TableInv t2 := by
  obtain ⟨hnd, hnm, hpd, hns, hcond⟩ := hinv
  cases hs with
  | rebind k v hget =>
    rw [hnm k v hget, mapSet_self t1 k v hget]
    exact ⟨hnd, hnm, hpd, hns, hcond⟩
  | rebindKey k v hget =>
    rw [mapSet_self t1 k v hget]
    exact ⟨hnd, hnm, hpd, hns, hcond⟩
  | alloc n typ sz hfresh hsz =>
    set vni : NameInfo :=
      ⟨n, typ, some ⟨n, localsSizeT t1, if sz = 1 then 8 else sz, false⟩, none⟩
      with hvni
    have hsum2 : sumLocals (mapSet t1 n vni) =
        sumLocals t1 + (if sz = 1 then 8 else sz) := by
      rw [sumLocals_mapSet_nonlocal t1 n vni (Or.inl hfresh)]
      rfl
    refine ⟨keys_mapSet_nodup _ _ _ hnd, ?_, ?_, ?_, ?_⟩
    · intro k ni hk
      rw [mapGet_mapSet] at hk
      by_cases h1 : n = k
      · rw [if_pos h1] at hk
        cases hk
        exact h1
      · rw [if_neg h1] at hk
        exact hnm k ni hk
    · intro k k' ni ni' p p' hkk hk hk' hp hp'
      rw [mapGet_mapSet] at hk hk'
      by_cases h1 : n = k
      · rw [if_pos h1] at hk
        cases hk
        exact Option.noConfusion hp
      · rw [if_neg h1] at hk
        by_cases h2 : n = k'
        · rw [if_pos h2] at hk'
          cases hk'
          exact Option.noConfusion hp'
        · rw [if_neg h2] at hk'
          exact hpd k k' ni ni' p p' hkk hk hk' hp hp'
    · intro k ni v hk hl hssa
      rw [mapGet_mapSet] at hk
      by_cases h1 : n = k
      · rw [if_pos h1] at hk
        cases hk
        cases hl
        show (if sz = 1 then 8 else sz) ≠ 1
        by_cases hone : sz = 1
        · rw [if_pos hone]
          omega
        · rw [if_neg hone]
          exact hone
      · rw [if_neg h1] at hk
        exact hns k ni v hk hl hssa
    · intro hlt
      rw [hsum2] at hlt
      have hlt1 : sumLocals t1 < 4294967296 := by omega
      obtain ⟨hbd, hdj⟩ := hcond hlt1
      have hoff : localsSizeT t1 = sumLocals t1 := by
        rw [localsSizeT_eq]
        omega
      constructor
      · intro k ni v hk hl
        rw [mapGet_mapSet] at hk
        rw [hsum2]
        by_cases h1 : n = k
        · rw [if_pos h1] at hk
          cases hk
          cases hl
          show localsSizeT t1 + (if sz = 1 then 8 else sz) ≤ _
          omega
        · rw [if_neg h1] at hk
          have := hbd k ni v hk hl
          omega
      · intro k k' ni ni' v v' hkk hk hk' hl hl'
        rw [mapGet_mapSet] at hk hk'
        by_cases h1 : n = k
        · rw [if_pos h1] at hk
          cases hk
          cases hl
          by_cases h2 : n = k'
          · exact absurd (h1.symm.trans h2) hkk
          · rw [if_neg h2] at hk'
            have hb := hbd k' ni' v' hk' hl'
            apply not_overlaps_right
            show v'.offset + v'.size ≤ localsSizeT t1
            omega
        · rw [if_neg h1] at hk
          by_cases h2 : n = k'
          · rw [if_pos h2] at hk'
            cases hk'
            cases hl'
            have hb := hbd k ni v hk hl
            apply not_overlaps_left
            show v.offset + v.size ≤ localsSizeT t1
            omega
          · rw [if_neg h2] at hk'
            exact hdj k k' ni ni' v v' hkk hk hk' hl hl'

theorem TEvol_inv {t1 t2 : List (String × NameInfo)} (hev : TEvol t1 t2)
    (hinv : TableInv t1) : TableInv t2 := by
  induction hev with
  | refl => exact hinv
  | tail _ hs ih => exact TStep_inv hs ih

/-! ### The pipeline mutates the table only by `TStep`s -/

/-- Full characterization of a successful `asmAllocLocal`. -/
theorem asmAllocLocal_char (st : FState) (n : String) (t : Ty) (info : NameInfo)
    (st' : FState) (h : asmAllocLocal st n t = .ok info st') :
    ∃ sz, sizeof t = some sz ∧
      info = ⟨n, t, some ⟨n, localsSizeT st.ssaNames,
        if sz = 1 then 8 else sz, false⟩, none⟩ ∧
      st' = { st with ssaNames := mapSet st.ssaNames n info } := by
  unfold asmAllocLocal liftOpt at h
  rcases hs : sizeof t with _ | sz <;> rw [hs] at h
  · simp at h
  · simp only [ERes.bind_ok] at h
    cases h
    exact ⟨sz, rfl, rfl, rfl⟩

theorem asmAllocLocal_tevol (st : FState) (n : String) (t : Ty) (info : NameInfo)
    (st' : FState) (hfresh : mapGet st.ssaNames n = none)
    (h : asmAllocLocal st n t = .ok info st') :
    TEvol st.ssaNames st'.ssaNames ∧ mapGet st'.ssaNames n = some info := by
  obtain ⟨sz, hsz, hinfo, hst⟩ := asmAllocLocal_char st n t info st' h
  subst hst
  constructor
  · show TEvol st.ssaNames (mapSet st.ssaNames n info)
    rw [hinfo]
    exact TEvol.single (TStep.alloc n t sz hfresh hsz)
  · show mapGet (mapSet st.ssaNames n info) n = some info
    rw [mapGet_mapSet, if_pos rfl]

theorem allocReg_names (st : FState) (t : RegType) (s : Nat) (r : Register)
    (st' : FState) (h : allocReg st t s = .ok r st') : st'.ssaNames = st.ssaNames := by
  unfold allocReg at h
  split at h
  · cases h
    rfl
  · split at h
    · split at h
      · cases h
        rfl
      · cases h
    · cases h

theorem allocValueOnDemand_tevol (st : FState) (v : Value) (st' : FState)
    (h : allocValueOnDemand st v = .ok () st') : TEvol st.ssaNames st'.ssaNames := by
  unfold allocValueOnDemand at h
  split at h
  · cases h
    exact TEvol.refl _
  · rename_i hns
    split at h
    · cases h
      exact TEvol.refl _
    · rcases ha : asmAllocLocal st v.name v.typ with ⟨info, stm⟩ | ⟨m, stm⟩ | m <;>
        rw [ha] at h <;> simp only [ERes.bind_ok, ERes.bind_err, ERes.bind_fatal] at h
      · cases h
        exact (asmAllocLocal_tevol st v.name v.typ info st'
          (Option.not_isSome_iff_eq_none.mp hns) ha).1
      · cases h
      · cases h

theorem computePhiEdges_names (blk : Block) (φ : PhiInstr) :
    ∀ (es : List (Nat × Value)) (st st' : FState),
      computePhiEdges st blk φ es = .ok () st' → st'.ssaNames = st.ssaNames := by
  intro es
  induction es with
  | nil =>
    intro st st' h
    cases h
    rfl
  | cons e rest ih =>
    intro st st' h
    rcases e with ⟨i, edge⟩
    unfold computePhiEdges at h
    split at h
    · have h2 := ih _ _ h
      exact h2
    · cases h

theorem computeBasicBlockPhi_names (blk : Block) :
    ∀ (instrs : List Instr) (st st' : FState),
      computeBasicBlockPhi st blk instrs = .ok () st' → st'.ssaNames = st.ssaNames := by
  intro instrs
  induction instrs with
  | nil =>
    intro st st' h
    cases h
    rfl
  | cons i rest ih =>
    intro st st' h
    cases i
    case phi p =>
      have h2 : ERes.bind (computePhiInstr st blk p)
          (fun _ st => computeBasicBlockPhi st blk rest) = .ok () st' := h
      obtain ⟨⟨⟩, stm, h3, h4⟩ := eres_bind_ok h2
      rw [ih _ _ h4]
      exact computePhiEdges_names blk p p.edges.enum st stm h3
    all_goals exact ih _ _ h

theorem computePhi_names :
    ∀ (blocks : List Block) (st st' : FState),
      computePhi st blocks = .ok () st' → st'.ssaNames = st.ssaNames := by
  intro blocks
  induction blocks with
  | nil =>
    intro st st' h
    cases h
    rfl
  | cons blk rest ih =>
    intro st st' h
    unfold computePhi at h
    obtain ⟨⟨⟩, stm, h1, h2⟩ := eres_bind_ok h
    rw [ih _ _ h2]
    exact computeBasicBlockPhi_names blk blk.instrs st stm h1

/-- When no non-SSA local has size 1, the final zeroing pass writes nothing
back to the state. -/
theorem zeroNonSsaLoop_state :
    ∀ (entries : List (String × NameInfo)) (st : FState) (l : List String)
      (st' : FState),
      (∀ e ∈ entries, ∀ v, e.2.locl = some v → v.isSsa = false → v.size ≠ 1) →
      zeroNonSsaLoop st entries = .ok l st' → st' = st := by
  intro entries
  induction entries with
  | nil =>
    intro st l st' _ h
    cases h
    rfl
  | cons e rest ih =>
    intro st l st' hno h
    rcases e with ⟨k0, ni⟩
    unfold zeroNonSsaLoop at h
    split at h
    · exact ih st l st' (fun e2 he2 => hno e2 (List.mem_cons_of_mem _ he2)) h
    · rename_i v hv
      split at h
      · exact ih st l st' (fun e2 he2 => hno e2 (List.mem_cons_of_mem _ he2)) h
      · rename_i hssa
        have hisf : v.isSsa = false := by
          unfold NameInfo.IsSsaLocal at hssa
          rw [hv] at hssa
          simpa using hssa
        have hne : v.size ≠ 1 := hno (k0, ni) (by simp) v hv hisf
        simp only [if_neg hne] at h
        obtain ⟨ls, stm, h1, h2⟩ := eres_bind_ok h
        cases h2
        exact ih st ls _ (fun e2 he2 => hno e2 (List.mem_cons_of_mem _ he2)) h1

theorem asmStoreValAddr_tevol (st : FState) (val : Value) (addr : NameInfo) :
    (∀ l st', asmStoreValAddr st val addr = .ok l st' →
        TEvol st.ssaNames st'.ssaNames) ∧
    (∀ m st', asmStoreValAddr st val addr = .err m st' →
        TEvol st.ssaNames st'.ssaNames) := by
  constructor
  · intro l st' h
    unfold asmStoreValAddr at h
    have h2 := eres_bind_ok h
    clear h
    obtain ⟨u, st1, ha, h⟩ := h2
    obtain ⟨⟩ := u
    have hE1 := allocValueOnDemand_tevol st val st1 ha
    split at h
    · cases h
    · have h2 := eres_bind_ok h
      clear h
      obtain ⟨size, st2, hf, h⟩ := h2
      have hst2 := fsizeof_state _ _ _ _ hf
      subst hst2
      split at h
      · cases h
      · have h2 := eres_bind_ok h
        clear h
        obtain ⟨reg, st3, hrg, h⟩ := h2
        have hn3 := allocReg_names _ _ _ _ _ hrg
        have h2 := eres_bind_ok h
        clear h
        obtain ⟨body, st4, hc, h⟩ := h2
        have hst4 := storeChunks_state _ _ _ _ _ _ _ hc
        subst hst4
        cases h
        simpa only [freeReg, hn3] using hE1
  · intro m st' h
    unfold asmStoreValAddr at h
    rcases eres_bind_err h with h1 | ⟨u, st1, ha, h1⟩
    · exact absurd h1 (allocValueOnDemand_no_err _ _ _ _)
    · obtain ⟨⟩ := u
      have hE1 := allocValueOnDemand_tevol st val st1 ha
      split at h1
      · cases h1
        exact hE1
      · rcases eres_bind_err h1 with h2 | ⟨size, st2, hf, h2⟩
        · exact absurd h2 (fsizeof_no_err _ _ _ _)
        · have hst2 := fsizeof_state _ _ _ _ hf
          subst hst2
          split at h2
          · cases h2
          · rcases eres_bind_err h2 with h3 | ⟨reg, st3, hrg, h3⟩
            · exact absurd h3 (allocReg_no_err _ _ _ _ _)
            · rcases eres_bind_err h3 with h4 | ⟨body, st4, hc, h4⟩
              · exact absurd h4 (storeChunks_no_err _ _ _ _ _ _ _)
              · cases h4

theorem asmStore_tevol (st : FState) (instr : StoreInstr) :
    ∀ l st', asmStore st instr = .ok l st' → TEvol st.ssaNames st'.ssaNames := by
  intro l st' h
  unfold asmStore at h
  have h2 := eres_bind_ok h
  clear h
  obtain ⟨u, st1, ha, h⟩ := h2
  obtain ⟨⟩ := u
  have hE1 := allocValueOnDemand_tevol st instr.val st1 ha
  have h2 := eres_bind_ok h
  clear h
  obtain ⟨u, st2, hb, h⟩ := h2
  obtain ⟨⟩ := u
  have hE2 := allocValueOnDemand_tevol st1 instr.addr st2 hb
  have h2 := eres_bind_ok h
  clear h
  obtain ⟨size, st3, hf, h⟩ := h2
  have hst3 := fsizeof_state _ _ _ _ hf
  subst hst3
  split at h
  · cases h
  · have h2 := eres_bind_ok h
    clear h
    obtain ⟨reg, st4, hrg, h⟩ := h2
    have hn4 := allocReg_names _ _ _ _ _ hrg
    have h2 := eres_bind_ok h
    clear h
    obtain ⟨body, st5, hc, h⟩ := h2
    obtain ⟨hst5, -⟩ := storeChunksAddr_ok_elim _ _ _ _ _ _ _ hc
    subst hst5
    cases h
    simpa only [freeReg, hn4] using TEvol.trans hE1 hE2

theorem asmBinOpLoadXY_tevol (st : FState) (instr : BinOpInstr)
    (res : List String × Register × Register) (st' : FState)
    (h : asmBinOpLoadXY st instr = .ok res st') :
    TEvol st.ssaNames st'.ssaNames := by
  unfold asmBinOpLoadXY at h
  have h2 := eres_bind_ok h
  clear h
  obtain ⟨u, st1, ha, h⟩ := h2
  obtain ⟨⟩ := u
  have hE1 := allocValueOnDemand_tevol st instr.toValue st1 ha
  have h2 := eres_bind_ok h
  clear h
  obtain ⟨u, st2, hb, h⟩ := h2
  obtain ⟨⟩ := u
  have hE2 := allocValueOnDemand_tevol st1 instr.x st2 hb
  have h2 := eres_bind_ok h
  clear h
  obtain ⟨u, st3, hc, h⟩ := h2
  obtain ⟨⟩ := u
  have hE3 := allocValueOnDemand_tevol st2 instr.y st3 hc
  have h2 := eres_bind_ok h
  clear h
  obtain ⟨sx, st4, hsx, h⟩ := h2
  have hst4 := fsizeof_state _ _ _ _ hsx
  subst hst4
  have h2 := eres_bind_ok h
  clear h
  obtain ⟨x, st5, hx, h⟩ := h2
  have hn5 := allocReg_names _ _ _ _ _ hx
  have h2 := eres_bind_ok h
  clear h
  obtain ⟨sy, st6, hsy, h⟩ := h2
  have hst6 := fsizeof_state _ _ _ _ hsy
  subst hst6
  have h2 := eres_bind_ok h
  clear h
  obtain ⟨y, st7, hy, h⟩ := h2
  have hn7 := allocReg_names _ _ _ _ _ hy
  have h2 := bind_asmLoadValue_ok h
  clear h
  obtain ⟨lx, hlx, h⟩ := h2
  have h2 := bind_asmLoadValue_ok h
  clear h
  obtain ⟨ly, hly, h⟩ := h2
  cases h
  simpa only [hn7, hn5] using TEvol.trans (TEvol.trans hE1 hE2) hE3

theorem allocReg_ite_names {c : Prop} [Decidable c] {st : FState}
    {t1 t2 : RegType} {s1 s2 : Nat} {r : Register} {st' : FState}
    (h : (if c then allocReg st t1 s1 else allocReg st t2 s2) = .ok r st') :
    st'.ssaNames = st.ssaNames := by
  split at h <;> exact allocReg_names _ _ _ _ _ h

theorem asmBinOp_tevol (st : FState) (instr : BinOpInstr) :
    ∀ l st', asmBinOp st instr = .ok l st' → TEvol st.ssaNames st'.ssaNames := by
  intro l st' h
  unfold asmBinOp at h
  have h2 := eres_bind_ok h
  clear h
  obtain ⟨u, st1, ha, h⟩ := h2
  obtain ⟨⟩ := u
  have hE1 := allocValueOnDemand_tevol _ _ _ ha
  have h2 := eres_bind_ok h
  clear h
  obtain ⟨sz, st2, hsz, h⟩ := h2
  have hst2 := fsizeof_state _ _ _ _ hsz
  subst hst2
  have h2 := eres_bind_ok h
  clear h
  obtain ⟨regVal, st3, hrv, h⟩ := h2
  have hn3 := allocReg_ite_names hrv
  have h2 := eres_bind_ok h
  clear h
  obtain ⟨lxy, st4, hxy, h⟩ := h2
  have hE4 := asmBinOpLoadXY_tevol _ _ _ _ hxy
  have h2 := eres_bind_ok h
  clear h
  obtain ⟨opLines, st5, hop, h⟩ := h2
  have hst5 := binOpLines_state _ _ _ _ _ _ _ hop
  subst hst5
  dsimp only [] at h
  split at h
  · cases h
  · have h2 := bind_asmStoreReg_ok h
    clear h
    obtain ⟨sl, hsl, h⟩ := h2
    cases h
    refine TEvol.trans hE1 ?_
    rw [← hn3]
    simpa only [freeReg] using hE4

theorem assignmentBind_tevol {st : FState} {n : String} {t : Ty} {a : NameInfo}
    {st' : FState}
    (h : (match mapGet st.ssaNames n with
          | some a => ERes.ok a st
          | none => asmAllocLocal st n t) = .ok a st') :
    TEvol st.ssaNames st'.ssaNames ∧ mapGet st'.ssaNames n = some a := by
  rcases hao : mapGet st.ssaNames n with _ | x <;> rw [hao] at h
  · exact asmAllocLocal_tevol st n t a st' hao h
  · cases h
    exact ⟨TEvol.refl _, hao⟩

theorem asmUnOpPointer_tevol (st : FState) (instr : UnOpInstr) :
    ∀ l st', asmUnOpPointer st instr = .ok l st' → TEvol st.ssaNames st'.ssaNames := by
  intro l st' h
  unfold asmUnOpPointer at h
  split at h
  · cases h
  · split at h
    · cases h
    · have h2 := eres_bind_ok h
      clear h
      obtain ⟨assignment, st1, hasn, h⟩ := h2
      obtain ⟨hE1, hG1⟩ := assignmentBind_tevol hasn
      have h2 := eres_bind_ok h
      clear h
      obtain ⟨xrs, st2, hx, h⟩ := h2
      have hst2 := memRegOffsetSize_state _ _ _ _ hx
      subst hst2
      have h2 := eres_bind_ok h
      clear h
      obtain ⟨ars, st3, ha2, h⟩ := h2
      have hst3 := memRegOffsetSize_state _ _ _ _ ha2
      subst hst3
      split at h
      · cases h
      · have h2 := eres_bind_ok h
        clear h
        obtain ⟨tmp1, st4, ht1, h⟩ := h2
        have hn4 := allocReg_names _ _ _ _ _ ht1
        have h2 := eres_bind_ok h
        clear h
        obtain ⟨tmp2, st5, ht2, h⟩ := h2
        have hn5 := allocReg_names _ _ _ _ _ ht2
        cases h
        refine TEvol.tail hE1 ?_
        simp only [freeReg]
        rw [hn5, hn4]
        exact TStep.rebind instr.name assignment hG1

theorem asmUnOp_tevol (st : FState) (instr : UnOpInstr) :
    ∀ l st', asmUnOp st instr = .ok l st' → TEvol st.ssaNames st'.ssaNames := by
  intro l st' h
  unfold asmUnOp at h
  have h2 := eres_bind_ok h
  clear h
  obtain ⟨lines, st1, hin, h⟩ := h2
  cases h
  rcases hop : instr.op <;> rw [hop] at hin
  · cases hin
    exact TEvol.refl _
  · cases hin
    exact TEvol.refl _
  · cases hin
    exact TEvol.refl _
  · exact asmUnOpPointer_tevol st instr _ _ hin
  · cases hin

theorem asmIndexAddr_tevol (st : FState) (instr : IndexAddrInstr) :
    ∀ l st', asmIndexAddr st instr = .ok l st' → TEvol st.ssaNames st'.ssaNames := by
  intro l st' h
  unfold asmIndexAddr at h
  have h2 := eres_bind_ok h
  clear h
  obtain ⟨assignment, st1, hasn, h⟩ := h2
  obtain ⟨hE1, hG1⟩ := assignmentBind_tevol hasn
  have h2 := eres_bind_ok h
  clear h
  obtain ⟨lines, st2, hlines, h⟩ := h2
  cases h
  have hn2 : st2.ssaNames = st1.ssaNames := by
    rcases hk : instr.index.kind <;> rw [hk] at hlines
    · have h2 := eres_bind_ok hlines
      clear hlines
      obtain ⟨tmpReg, stA, hta, h3⟩ := h2
      have hnA := allocReg_names _ _ _ _ _ hta
      split at h3
      · cases h3
      · have h2 := eres_bind_ok h3
        clear h3
        obtain ⟨size, stB, hsz, h3⟩ := h2
        have hstB : stB = stA := by
          unfold liftOpt at hsz
          split at hsz
          · cases hsz
            rfl
          · cases hsz
        subst hstB
        have h2 := eres_bind_ok h3
        clear h3
        obtain ⟨xrs, stC, hx, h3⟩ := h2
        have hstC := memRegOffsetSize_state _ _ _ _ hx
        subst hstC
        have h2 := eres_bind_ok h3
        clear h3
        obtain ⟨ars, stD, ha3, h3⟩ := h2
        have hstD := memRegOffsetSize_state _ _ _ _ ha3
        subst hstD
        cases h3
        simpa only [freeReg] using hnA
    · have h2 := eres_bind_ok hlines
      clear hlines
      obtain ⟨tmpReg, stA, hta, h3⟩ := h2
      have hnA := allocReg_names _ _ _ _ _ hta
      have h2 := eres_bind_ok h3
      clear h3
      obtain ⟨tmp2Reg, stB, htb, h3⟩ := h2
      have hnB := allocReg_names _ _ _ _ _ htb
      split at h3
      · cases h3
      · have h2 := eres_bind_ok h3
        clear h3
        obtain ⟨xrs, stC, hx, h3⟩ := h2
        have hstC := memRegOffsetSize_state _ _ _ _ hx
        subst hstC
        split at h3
        · cases h3
        · have h2 := eres_bind_ok h3
          clear h3
          obtain ⟨prs, stD, hp, h3⟩ := h2
          have hstD := memRegOffsetSize_state _ _ _ _ hp
          subst hstD
          split at h3
          · cases h3
          · have h2 := eres_bind_ok h3
            clear h3
            obtain ⟨ars, stE, ha3, h3⟩ := h2
            have hstE := memRegOffsetSize_state _ _ _ _ ha3
            subst hstE
            cases h3
            simpa only [freeReg] using hnB.trans hnA
    · cases hlines
      rfl
  refine TEvol.tail hE1 ?_
  show TStep st1.ssaNames (mapSet st2.ssaNames instr.name assignment)
  rw [hn2]
  exact TStep.rebindKey instr.name assignment hG1

theorem asmAllocInstr_tevol (st : FState) (instr : AllocInstr) :
    (∀ l st', asmAllocInstr st instr = .ok l st' → TEvol st.ssaNames st'.ssaNames) ∧
    (∀ m st', asmAllocInstr st instr = .err m st' → TEvol st.ssaNames st'.ssaNames) := by
  unfold asmAllocInstr
  constructor
  · intro l st' h
    split at h
    · cases h
    · split at h
      · cases h
      · rename_i info hinfo
        split at h
        · cases h
        · cases h
          exact TEvol.single (TStep.rebindKey instr.name info hinfo)
  · intro m st' h
    split at h
    · cases h
      exact TEvol.refl _
    · split at h
      · cases h
      · split at h <;> cases h

theorem asmPhi_tevol (st : FState) (phi : PhiInstr) :
    ∀ l st', asmPhi st phi = .ok l st' → TEvol st.ssaNames st'.ssaNames := by
  intro l st' h
  unfold asmPhi at h
  have h2 := eres_bind_ok h
  clear h
  obtain ⟨u, st1, ha, h⟩ := h2
  obtain ⟨⟩ := u
  cases h
  exact allocValueOnDemand_tevol _ _ _ ha

theorem preambleStores_tevol (entries : List (Value × PhiInstr)) :
    ∀ (st : FState) (l : List String) (st' : FState),
      preambleStores st entries = .ok l st' → TEvol st.ssaNames st'.ssaNames := by
  induction entries with
  | nil =>
    intro st l st' h
    cases h
    exact TEvol.refl _
  | cons e rest ih =>
    intro st l st' h
    unfold preambleStores at h
    have h2 := eres_bind_ok h
    clear h
    obtain ⟨l1, st1, hs, h⟩ := h2
    have h2 := eres_bind_ok h
    clear h
    obtain ⟨ls, st2, hr, h⟩ := h2
    cases h
    exact TEvol.trans (asmStore_tevol st _ _ _ hs) (ih st1 _ _ hr)

theorem asmJumpPreamble_tevol (st : FState) (bi ji : Nat) :
    ∀ l st', asmJumpPreamble st bi ji = .ok l st' → TEvol st.ssaNames st'.ssaNames :=
  fun l st' h => preambleStores_tevol (phiGet st.phiInfo bi ji) st l st' h

theorem asmJump_tevol (st : FState) (blk : Block) :
    ∀ l st', asmJump st blk = .ok l st' → TEvol st.ssaNames st'.ssaNames := by
  intro l st' h
  unfold asmJump at h
  split at h
  · have h2 := eres_bind_ok h
    clear h
    obtain ⟨pre, st1, hp, h⟩ := h2
    cases h
    exact asmJumpPreamble_tevol st _ _ _ _ hp
  · cases h

theorem asmIf_tevol (st : FState) (blk : Block) (cond : Value) :
    (∀ l st', asmIf st blk cond = .ok l st' → TEvol st.ssaNames st'.ssaNames) ∧
    (∀ m st', asmIf st blk cond = .err m st' → TEvol st.ssaNames st'.ssaNames) := by
  unfold asmIf
  constructor
  · intro l st' h
    split at h
    · split at h
      · cases h
      · have h2 := eres_bind_ok h
        clear h
        obtain ⟨preF, st1, hpF, h⟩ := h2
        have hE1 := asmJumpPreamble_tevol st _ _ _ _ hpF
        have h2 := eres_bind_ok h
        clear h
        obtain ⟨rs, st2, hm, h⟩ := h2
        have hst2 := memRegOffsetSize_state _ _ _ _ hm
        subst hst2
        have h2 := eres_bind_ok h
        clear h
        obtain ⟨preT, st3, hpT, h⟩ := h2
        have hE2 := asmJumpPreamble_tevol _ _ _ _ _ hpT
        cases h
        exact TEvol.trans hE1 hE2
    · cases h
  · intro m st' h
    split at h
    · split at h
      · cases h
        exact TEvol.refl _
      · rcases eres_bind_err h with h1 | ⟨preF, st1, hpF, h1⟩
        · exact absurd h1 ((asmJumpPreamble_balance st _ _).2 _ _)
        rcases eres_bind_err h1 with h2 | ⟨rs, st2, hm, h2⟩
        · exact absurd h2 (memRegOffsetSize_no_err _ _ _ _)
        rcases eres_bind_err h2 with h3 | ⟨preT, st3, hpT, h3⟩
        · exact absurd h3 ((asmJumpPreamble_balance st2 _ _).2 _ _)
        cases h3
    · cases h

theorem asmCopyToRet_tevol (st : FState) (fn : SsaFn) (vals : List Value) :
    (∀ l st', asmCopyToRet st fn vals = .ok l st' → TEvol st.ssaNames st'.ssaNames) ∧
    (∀ m st', asmCopyToRet st fn vals = .err m st' → TEvol st.ssaNames st'.ssaNames) := by
  unfold asmCopyToRet
  constructor
  · intro l st' h
    split at h
    · cases h
      exact TEvol.refl _
    · split at h
      · cases h
      · have h2 := eres_bind_ok h
        clear h
        obtain ⟨psz, st1, hps, h⟩ := h2
        have hst1 := paramsSizeE_state _ _ _ _ hps
        subst hst1
        have h2 := eres_bind_ok h
        clear h
        obtain ⟨rsz, st2, hrs, h⟩ := h2
        have hst2 := retSizeE_state _ _ _ _ hrs
        subst hst2
        exact (asmStoreValAddr_tevol _ _ _).1 _ _ h
    · cases h
  · intro m st' h
    split at h
    · cases h
    · split at h
      · cases h
      · rcases eres_bind_err h with h1 | ⟨psz, st1, hps, h1⟩
        · exact absurd h1 (paramsSizeE_no_err _ _ _ _)
        have hst1 := paramsSizeE_state _ _ _ _ hps
        subst hst1
        rcases eres_bind_err h1 with h2 | ⟨rsz, st2, hrs, h2⟩
        · exact absurd h2 (retSizeE_no_err _ _ _ _)
        have hst2 := retSizeE_state _ _ _ _ hrs
        subst hst2
        exact (asmStoreValAddr_tevol _ _ _).2 _ _ h2
    · cases h
      exact TEvol.refl _

theorem asmReturn_tevol (st : FState) (fn : SsaFn) (r : RetInstr) :
    (∀ l st', asmReturn st fn r = .ok l st' → TEvol st.ssaNames st'.ssaNames) ∧
    (∀ m st', asmReturn st fn r = .err m st' → TEvol st.ssaNames st'.ssaNames) := by
  unfold asmReturn
  constructor
  · intro l st' h
    have h2 := eres_bind_ok h
    clear h
    obtain ⟨copy, st1, hc, h⟩ := h2
    cases h
    exact (asmCopyToRet_tevol st fn r.results).1 _ _ hc
  · intro m st' h
    rcases eres_bind_err h with h1 | ⟨copy, st1, hc, h1⟩
    · exact (asmCopyToRet_tevol st fn r.results).2 _ _ h1
    · cases h1

/-- Every single instruction emission (successful or ending in a recoverable
error) mutates the name table only by `TStep`s. -/
theorem asmInstr_tevol (st : FState) (fn : SsaFn) (blk : Block) (i : Instr) :
    (∀ lines st', asmInstr st fn blk i = .ok lines st' →
        TEvol st.ssaNames st'.ssaNames) ∧
    (∀ m st', asmInstr st fn blk i = .err m st' →
        TEvol st.ssaNames st'.ssaNames) := by
  cases i with
  | alloc a => exact asmAllocInstr_tevol st a
  | binOp b =>
    exact ⟨asmBinOp_tevol st b,
           fun m st' h => absurd h ((asmBinOp_balance st b).2 m st')⟩
  | cond c => exact asmIf_tevol st blk c
  | indexAddr ia =>
    exact ⟨asmIndexAddr_tevol st ia,
           fun m st' h => absurd h ((asmIndexAddr_balance st ia).2 m st')⟩
  | jump =>
    exact ⟨asmJump_tevol st blk,
           fun m st' h => absurd h ((asmJump_balance st blk).2 m st')⟩
  | phi p =>
    exact ⟨asmPhi_tevol st p,
           fun m st' h => absurd h ((asmPhi_balance st p).2 m st')⟩
  | ret r => exact asmReturn_tevol st fn r
  | store s =>
    exact ⟨asmStore_tevol st s,
           fun m st' h => absurd h ((asmStore_balance st s).2 m st')⟩
  | unOp u =>
    exact ⟨asmUnOp_tevol st u,
           fun m st' h => absurd h ((asmUnOp_balance st u).2 m st')⟩
  | unsupported txt =>
    constructor
    · intro lines st' h
      cases h
      exact TEvol.refl _
    · intro m st' h
      cases h

/-! ### The pre-passes establish the invariant -/

/-- No binding in the table carries a local slot. -/
def NoLocals (tbl : List (String × NameInfo)) : Prop :=
  ∀ k ni, mapGet tbl k = some ni → ni.locl = none

/-- Every local slot in the table is a declared SSA local. -/
def SsaOnlyLocals (tbl : List (String × NameInfo)) : Prop :=
  ∀ k ni v, mapGet tbl k = some ni → ni.locl = some v → v.isSsa = true

theorem namesMatch_mapSet (tbl : List (String × NameInfo)) (k : String)
    (v : NameInfo) (hnm : NamesMatch tbl) (hv : v.name = k) :
    NamesMatch (mapSet tbl k v) := by
  intro k2 ni h
  rw [mapGet_mapSet] at h
  by_cases hk : k = k2
  · rw [if_pos hk] at h
    cases h
    rw [hv]
    exact hk
  · rw [if_neg hk] at h
    exact hnm k2 ni h

theorem paramsDisjoint_mapSet_noparam (tbl : List (String × NameInfo)) (k : String)
    (v : NameInfo) (hpd : ParamsDisjoint tbl) (hv : v.param = none) :
    ParamsDisjoint (mapSet tbl k v) := by
  intro k1 k2 ni1 ni2 p1 p2 hkk h1 h2 hp1 hp2
  rw [mapGet_mapSet] at h1 h2
  by_cases ha : k = k1
  · rw [if_pos ha] at h1
    cases h1
    rw [hv] at hp1
    exact Option.noConfusion hp1
  · rw [if_neg ha] at h1
    by_cases hb : k = k2
    · rw [if_pos hb] at h2
      cases h2
      rw [hv] at hp2
      exact Option.noConfusion hp2
    · rw [if_neg hb] at h2
      exact hpd k1 k2 ni1 ni2 p1 p2 hkk h1 h2 hp1 hp2

theorem noLocals_mapSet (tbl : List (String × NameInfo)) (k : String)
    (v : NameInfo) (hnl : NoLocals tbl) (hv : v.locl = none) :
    NoLocals (mapSet tbl k v) := by
  intro k2 ni h
  rw [mapGet_mapSet] at h
  by_cases hk : k = k2
  · rw [if_pos hk] at h
    cases h
    exact hv
  · rw [if_neg hk] at h
    exact hnl k2 ni h

theorem sumLocals_eq_zero (tbl : List (String × NameInfo))
    (hnd : (tbl.map Prod.fst).Nodup) (hnl : NoLocals tbl) : sumLocals tbl = 0 := by
  unfold sumLocals
  apply List.sum_eq_zero
  intro x hx
  obtain ⟨e, he, hex⟩ := List.mem_map.mp hx
  rcases e with ⟨k, ni⟩
  have hget := mapGet_of_mem tbl k ni he hnd
  rw [← hex]
  show localSizeOf ni = 0
  unfold localSizeOf
  rw [hnl k ni hget]

/-- The side conditions re-established by binding one parameter at the
running offset. -/
theorem paramStep_side (tbl : List (String × NameInfo)) (pname : String)
    (pty : Ty) (off psize : Nat) (lenOff : Option Nat)
    (hnd : (tbl.map Prod.fst).Nodup) (hnm : NamesMatch tbl) (hnl : NoLocals tbl)
    (hbelow : ∀ k ni p, mapGet tbl k = some ni → ni.param = some p →
      p.offset + p.size ≤ off)
    (hpd : ParamsDisjoint tbl) :
    (((mapSet tbl pname ⟨pname, pty, none, some ⟨pname, off, psize, lenOff⟩⟩).map
        Prod.fst).Nodup) ∧
    NamesMatch (mapSet tbl pname ⟨pname, pty, none, some ⟨pname, off, psize, lenOff⟩⟩) ∧
    NoLocals (mapSet tbl pname ⟨pname, pty, none, some ⟨pname, off, psize, lenOff⟩⟩) ∧
    (∀ k ni p, mapGet (mapSet tbl pname
        ⟨pname, pty, none, some ⟨pname, off, psize, lenOff⟩⟩) k = some ni →
      ni.param = some p → p.offset + p.size ≤ off + psize) ∧
    ParamsDisjoint (mapSet tbl pname
      ⟨pname, pty, none, some ⟨pname, off, psize, lenOff⟩⟩) := by
  refine ⟨keys_mapSet_nodup _ _ _ hnd, namesMatch_mapSet _ _ _ hnm rfl,
          noLocals_mapSet _ _ _ hnl rfl, ?_, ?_⟩
  · intro k ni p hget hp
    rw [mapGet_mapSet] at hget
    by_cases hk : pname = k
    · rw [if_pos hk] at hget
      cases hget
      cases hp
      dsimp only
      omega
    · rw [if_neg hk] at hget
      have := hbelow k ni p hget hp
      omega
  · intro k1 k2 ni1 ni2 p1 p2 hkk h1 h2 hp1 hp2
    rw [mapGet_mapSet] at h1 h2
    by_cases ha : pname = k1
    · rw [if_pos ha] at h1
      cases h1
      cases hp1
      by_cases hb : pname = k2
      · exact absurd (ha.symm.trans hb) hkk
      · rw [if_neg hb] at h2
        have := hbelow k2 ni2 p2 h2 hp2
        apply not_overlaps_right
        dsimp only
        omega
    · rw [if_neg ha] at h1
      by_cases hb : pname = k2
      · rw [if_pos hb] at h2
        cases h2
        cases hp2
        have := hbelow k1 ni1 p1 h1 hp1
        apply not_overlaps_left
        dsimp only
        omega
      · rw [if_neg hb] at h2
        exact hpd k1 k2 ni1 ni2 p1 p2 hkk h1 h2 hp1 hp2

/-- Loop invariant of the parameter binding pass: parameters are laid out at
cumulative disjoint frame-pointer offsets, and no local slot is created. -/
theorem asmParamsLoop_inv :
    ∀ (ps : List (String × Ty)) (off : Nat) (st : FState) (st' : FState),
      (st.ssaNames.map Prod.fst).Nodup →
      NamesMatch st.ssaNames →
      NoLocals st.ssaNames →
      (∀ k ni p, mapGet st.ssaNames k = some ni → ni.param = some p →
        p.offset + p.size ≤ off) →
      ParamsDisjoint st.ssaNames →
      ((∃ out, asmParamsLoop st off ps = .ok out st') ∨
        (∃ m, asmParamsLoop st off ps = .err m st')) →
      (st'.ssaNames.map Prod.fst).Nodup ∧ NamesMatch st'.ssaNames ∧
      NoLocals st'.ssaNames ∧ ParamsDisjoint st'.ssaNames := by
  intro ps
  induction ps with
  | nil =>
    intro off st st' hnd hnm hnl hbelow hpd h
    rcases h with ⟨out, h⟩ | ⟨m, h⟩ <;> cases h
    · exact ⟨hnd, hnm, hnl, hpd⟩
  | cons p rest ih =>
    intro off st st' hnd hnm hnl hbelow hpd h
    rcases p with ⟨pname, pty⟩
    rcases h with ⟨out, h⟩ | ⟨m, h⟩
    · unfold asmParamsLoop at h
      have h2 := eres_bind_ok h
      clear h
      obtain ⟨psize, st1, hsz, h⟩ := h2
      have hst1 : st1 = st := by
        unfold liftOpt at hsz
        split at hsz
        · cases hsz
          rfl
        · cases hsz
      subst hst1
      split at h
      · rename_i elem
        obtain ⟨h1, h2, h3, h4, h5⟩ := paramStep_side _ pname
          (Ty.slice elem) off psize (some (off + pointerSize)) hnd hnm hnl hbelow hpd
        exact ih (off + psize) _ st' h1 h2 h3 h4 h5 (Or.inl ⟨out, h⟩)
      · obtain ⟨h1, h2, h3, h4, h5⟩ := paramStep_side _ pname
          (Ty.basic .int) off psize none hnd hnm hnl hbelow hpd
        exact ih (off + psize) _ st' h1 h2 h3 h4 h5 (Or.inl ⟨out, h⟩)
      · cases h
    · unfold asmParamsLoop at h
      rcases eres_bind_err h with h1 | ⟨psize, st1, hsz, h1⟩
      · unfold liftOpt at h1
        split at h1 <;> cases h1
      · have hst1 : st1 = st := by
          unfold liftOpt at hsz
          split at hsz
          · cases hsz
            rfl
          · cases hsz
        subst hst1
        split at h1
        · rename_i elem
          obtain ⟨hh1, hh2, hh3, hh4, hh5⟩ := paramStep_side _ pname
            (Ty.slice elem) off psize (some (off + pointerSize)) hnd hnm hnl hbelow hpd
          exact ih (off + psize) _ st' hh1 hh2 hh3 hh4 hh5 (Or.inr ⟨m, h1⟩)
        · obtain ⟨hh1, hh2, hh3, hh4, hh5⟩ := paramStep_side _ pname
            (Ty.basic .int) off psize none hnd hnm hnl hbelow hpd
          exact ih (off + psize) _ st' hh1 hh2 hh3 hh4 hh5 (Or.inr ⟨m, h1⟩)
        · cases h1
          exact ⟨hnd, hnm, hnl, hpd⟩

/-- A table whose locals are all SSA, lie below the running total and are
pairwise disjoint satisfies the full invariant. -/
theorem tableInv_of_ssa (tbl : List (String × NameInfo))
    (hnd : (tbl.map Prod.fst).Nodup) (hnm : NamesMatch tbl)
    (hpd : ParamsDisjoint tbl) (hssa : SsaOnlyLocals tbl)
    (hbelow : ∀ k ni v, mapGet tbl k = some ni → ni.locl = some v →
      v.offset + v.size ≤ sumLocals tbl)
    (hdj : LocalsDisjoint tbl) : TableInv tbl ∧ SsaOnlyLocals tbl := by
  refine ⟨⟨hnd, hnm, hpd, ?_, fun _ => ⟨hbelow, hdj⟩⟩, hssa⟩
  intro k ni v hg hl hf
  have := hssa k ni v hg hl
  rw [hf] at this
  exact Bool.noConfusion this

/-- The side conditions re-established by binding and zeroing one declared
SSA local at the running offset. -/
theorem zeroSsaStep_side (tbl : List (String × NameInfo)) (lname : String)
    (typ2 : Ty) (off size : Nat)
    (hnd : (tbl.map Prod.fst).Nodup) (hnm : NamesMatch tbl)
    (hpd : ParamsDisjoint tbl) (hssa : SsaOnlyLocals tbl)
    (hsum : sumLocals tbl = off)
    (hbelow : ∀ k ni v, mapGet tbl k = some ni → ni.locl = some v →
      v.offset + v.size ≤ off)
    (hdj : LocalsDisjoint tbl)
    (hfree : ∀ ni, mapGet tbl lname = some ni → ni.locl = none) :
    (((mapSet tbl lname ⟨lname, typ2, some ⟨lname, off, size, true⟩, none⟩).map
        Prod.fst).Nodup) ∧
    NamesMatch (mapSet tbl lname ⟨lname, typ2, some ⟨lname, off, size, true⟩, none⟩) ∧
    ParamsDisjoint (mapSet tbl lname
      ⟨lname, typ2, some ⟨lname, off, size, true⟩, none⟩) ∧
    SsaOnlyLocals (mapSet tbl lname
      ⟨lname, typ2, some ⟨lname, off, size, true⟩, none⟩) ∧
    sumLocals (mapSet tbl lname ⟨lname, typ2, some ⟨lname, off, size, true⟩, none⟩) =
      off + size ∧
    (∀ k ni v, mapGet (mapSet tbl lname
        ⟨lname, typ2, some ⟨lname, off, size, true⟩, none⟩) k = some ni →
      ni.locl = some v → v.offset + v.size ≤ off + size) ∧
    LocalsDisjoint (mapSet tbl lname
      ⟨lname, typ2, some ⟨lname, off, size, true⟩, none⟩) := by
  have hsum2 : sumLocals (mapSet tbl lname
      ⟨lname, typ2, some ⟨lname, off, size, true⟩, none⟩) = off + size := by
    have harg : mapGet tbl lname = none ∨
        ∃ o, mapGet tbl lname = some o ∧ o.locl = none := by
      rcases hg : mapGet tbl lname with _ | o
      · exact Or.inl rfl
      · exact Or.inr ⟨o, rfl, hfree o hg⟩
    rw [sumLocals_mapSet_nonlocal tbl lname _ harg, hsum]
    rfl
  refine ⟨keys_mapSet_nodup _ _ _ hnd, namesMatch_mapSet _ _ _ hnm rfl,
          paramsDisjoint_mapSet_noparam _ _ _ hpd rfl, ?_, hsum2, ?_, ?_⟩
  · intro k ni v hg hl
    rw [mapGet_mapSet] at hg
    by_cases hk : lname = k
    · rw [if_pos hk] at hg
      cases hg
      cases hl
      rfl
    · rw [if_neg hk] at hg
      exact hssa k ni v hg hl
  · intro k ni v hg hl
    rw [mapGet_mapSet] at hg
    by_cases hk : lname = k
    · rw [if_pos hk] at hg
      cases hg
      cases hl
      dsimp only
      omega
    · rw [if_neg hk] at hg
      have := hbelow k ni v hg hl
      omega
  · intro k1 k2 ni1 ni2 v1 v2 hkk h1 h2 hl1 hl2
    rw [mapGet_mapSet] at h1 h2
    by_cases ha : lname = k1
    · rw [if_pos ha] at h1
      cases h1
      cases hl1
      by_cases hb : lname = k2
      · exact absurd (ha.symm.trans hb) hkk
      · rw [if_neg hb] at h2
        have := hbelow k2 ni2 v2 h2 hl2
        apply not_overlaps_right
        dsimp only
        omega
    · rw [if_neg ha] at h1
      by_cases hb : lname = k2
      · rw [if_pos hb] at h2
        cases h2
        cases hl2
        have := hbelow k1 ni1 v1 h1 hl1
        apply not_overlaps_left
        dsimp only
        omega
      · rw [if_neg hb] at h2
        exact hdj k1 k2 ni1 ni2 v1 v2 hkk h1 h2 hl1 hl2

/-- Loop invariant of the SSA-locals zeroing pass: with pairwise-distinct
declared local names, the pass tiles the local slots from offset 0 upward,
keeping every table invariant. -/
theorem zeroSsaLoop_inv :
    ∀ (ls : List LocalDecl) (off : Nat) (st : FState) (st' : FState),
      (st.ssaNames.map Prod.fst).Nodup → NamesMatch st.ssaNames →
      ParamsDisjoint st.ssaNames → SsaOnlyLocals st.ssaNames →
      sumLocals st.ssaNames = off →
      (∀ k ni v, mapGet st.ssaNames k = some ni → ni.locl = some v →
        v.offset + v.size ≤ off) →
      LocalsDisjoint st.ssaNames →
      (ls.map (fun l => l.name)).Nodup →
      (∀ l ∈ ls, ∀ ni, mapGet st.ssaNames l.name = some ni → ni.locl = none) →
      ((∃ out, zeroSsaLoop st off ls = .ok out st') ∨
        (∃ m, zeroSsaLoop st off ls = .err m st')) →
      TableInv st'.ssaNames ∧ SsaOnlyLocals st'.ssaNames := by
  intro ls
  induction ls with
  | nil =>
    intro off st st' hnd hnm hpd hssa hsum hbelow hdj hndl hfree h
    rcases h with ⟨out, h⟩ | ⟨m, h⟩ <;> cases h
    · exact tableInv_of_ssa _ hnd hnm hpd hssa (hsum ▸ hbelow) hdj
  | cons l rest ih =>
    intro off st st' hnd hnm hpd hssa hsum hbelow hdj hndl hfree h
    have hside : ∀ (typ2 : Ty) (size : Nat),
        l.typ = Ty.ptr typ2 →
        ((∃ out, zeroSsaLoop { st with ssaNames := mapSet st.ssaNames l.name ⟨l.name, typ2, some ⟨l.name, off, size, true⟩, none⟩ } (off + size) rest = .ok out st') ∨
          (∃ m, zeroSsaLoop { st with ssaNames := mapSet st.ssaNames l.name ⟨l.name, typ2, some ⟨l.name, off, size, true⟩, none⟩ } (off + size) rest = .err m st')) →
        TableInv st'.ssaNames ∧ SsaOnlyLocals st'.ssaNames := by
      intro typ2 size htyp hrec
      obtain ⟨s1, s2, s3, s4, s5, s6, s7⟩ := zeroSsaStep_side st.ssaNames l.name
        typ2 off size hnd hnm hpd hssa hsum hbelow hdj
        (fun ni hg => hfree l (by simp) ni hg)
      rw [List.map_cons, List.nodup_cons] at hndl
      refine ih (off + size) _ st' s1 s2 s3 s4 s5 s6 s7 hndl.2 ?_ hrec
      intro l2 hl2 ni hg
      show ni.locl = none
      rw [show ({ st with ssaNames := mapSet st.ssaNames l.name ⟨l.name, typ2, some ⟨l.name, off, size, true⟩, none⟩ } : FState).ssaNames = mapSet st.ssaNames l.name ⟨l.name, typ2, some ⟨l.name, off, size, true⟩, none⟩ from rfl, mapGet_mapSet] at hg
      by_cases hk : l.name = l2.name
      · exact absurd (hk ▸ (List.mem_map.mpr ⟨l2, hl2, rfl⟩)) hndl.1
      · rw [if_neg hk] at hg
        exact hfree l2 (List.mem_cons_of_mem _ hl2) ni hg
    rcases h with ⟨out, h⟩ | ⟨m, h⟩
    · unfold zeroSsaLoop at h
      split at h
      · cases h
      · split at h
        · rename_i typ2 heq
          have h2 := eres_bind_ok h
          clear h
          obtain ⟨size, st1, hsz, h⟩ := h2
          have hst1 : st1 = st := by
            unfold liftOpt at hsz
            split at hsz
            · cases hsz
              rfl
            · cases hsz
          subst hst1
          have h2 := eres_bind_ok h
          clear h
          obtain ⟨lsout, stm, hrec, hfin⟩ := h2
          cases hfin
          exact hside typ2 size heq (Or.inl ⟨lsout, hrec⟩)
        · cases h
    · unfold zeroSsaLoop at h
      split at h
      · cases h
        exact tableInv_of_ssa _ hnd hnm hpd hssa (hsum ▸ hbelow) hdj
      · split at h
        · rename_i typ2 heq
          rcases eres_bind_err h with h1 | ⟨size, st1, hsz, h1⟩
          · unfold liftOpt at h1
            split at h1 <;> cases h1
          · have hst1 : st1 = st := by
              unfold liftOpt at hsz
              split at hsz
              · cases hsz
                rfl
              · cases hsz
            subst hst1
            rcases eres_bind_err h1 with h2 | ⟨lsout, stm, hrec, h2⟩
            · exact hside typ2 size heq (Or.inr ⟨m, h2⟩)
            · cases h2
        · cases h

theorem asmZeroRetValue_state (st : FState) (fn : SsaFn) (l : List String)
    (st' : FState) (h : asmZeroRetValue st fn = .ok l st') : st' = st := by
  unfold asmZeroRetValue at h
  have h2 := eres_bind_ok h
  clear h
  obtain ⟨off, st1, hp, h⟩ := h2
  have hst1 := paramsSizeE_state _ _ _ _ hp
  subst hst1
  have h2 := eres_bind_ok h
  clear h
  obtain ⟨sz, st2, hrs, h⟩ := h2
  have hst2 := retSizeE_state _ _ _ _ hrs
  subst hst2
  cases h
  rfl

theorem asmParams_inv (fn : SsaFn) (st' : FState)
    (h : (∃ ps, asmParams initState fn = .ok ps st') ∨
      (∃ m, asmParams initState fn = .err m st')) :
    (st'.ssaNames.map Prod.fst).Nodup ∧ NamesMatch st'.ssaNames ∧
    NoLocals st'.ssaNames ∧ ParamsDisjoint st'.ssaNames := by
  apply asmParamsLoop_inv fn.params 0 initState st' ?_ ?_ ?_ ?_ ?_ h
  · exact List.nodup_nil
  · intro k ni hk
    exact Option.noConfusion hk
  · intro k ni hk
    exact Option.noConfusion hk
  · intro k ni p hk _
    exact Option.noConfusion hk
  · intro k1 k2 ni1 ni2 p1 p2 _ hk _ _ _
    exact Option.noConfusion hk

theorem zeroSsaEntry_inv (fn : SsaFn) (st st' : FState)
    (hndl : (fn.locals.map (fun l => l.name)).Nodup)
    (hp1 : (st.ssaNames.map Prod.fst).Nodup ∧ NamesMatch st.ssaNames ∧
      NoLocals st.ssaNames ∧ ParamsDisjoint st.ssaNames)
    (h : (∃ out, asmZeroSsaLocals st fn = .ok out st') ∨
      (∃ m, asmZeroSsaLocals st fn = .err m st')) :
    TableInv st'.ssaNames ∧ SsaOnlyLocals st'.ssaNames := by
  obtain ⟨hnd, hnm, hnl, hpd⟩ := hp1
  apply zeroSsaLoop_inv fn.locals 0 st st' hnd hnm hpd ?_ ?_ ?_ ?_ hndl ?_ h
  · intro k ni v hg hl
    rw [hnl k ni hg] at hl
    exact Option.noConfusion hl
  · exact sumLocals_eq_zero _ hnd hnl
  · intro k ni v hg hl
    rw [hnl k ni hg] at hl
    exact Option.noConfusion hl
  · intro k1 k2 ni1 ni2 v1 v2 hkk h1 h2 hl1 hl2
    rw [hnl k1 ni1 h1] at hl1
    exact Option.noConfusion hl1
  · intro l hl ni hg
    exact hnl _ ni hg

/-! ### Reachable compilation states -/

/-- The states the `asmFunc` pipeline passes through for one function, at
instruction-emission granularity.  Phase 0 is the fresh `Function.init` state,
phase 1 follows the parameter binding pass (and the return-slot zeroing,
which leaves the state untouched), phase 2 runs from the SSA-locals pre-pass
on: the phi pre-pass, every per-instruction emission step (successful or
ending in a recoverable error), and the final zeroing pass under any map
iteration order (any permutation of the table). -/
inductive Reach (fn : SsaFn) : Nat → FState → Prop
  | init : Reach fn 0 initState
  | params {ps : List String} {st' : FState} :
      asmParams initState fn = .ok ps st' → Reach fn 1 st'
  | paramsErr {m : String} {st' : FState} :
      asmParams initState fn = .err m st' → Reach fn 1 st'
  | zeroRet {st : FState} {zr : List String} {st' : FState} : Reach fn 1 st →
      asmZeroRetValue st fn = .ok zr st' → Reach fn 1 st'
  | zeroSsa {st : FState} {zs : List String} {st' : FState} : Reach fn 1 st →
      asmZeroSsaLocals st fn = .ok zs st' → Reach fn 2 st'
  | zeroSsaErr {st : FState} {m : String} {st' : FState} : Reach fn 1 st →
      asmZeroSsaLocals st fn = .err m st' → Reach fn 2 st'
  | phiPass {st st' : FState} : Reach fn 2 st →
      computePhi st fn.blocks = .ok () st' → Reach fn 2 st'
  | instrOk {st : FState} {blk : Block} {i : Instr} {lines : List String}
      {st' : FState} : Reach fn 2 st →
      asmInstr st fn blk i = .ok lines st' → Reach fn 2 st'
  | instrErr {st : FState} {blk : Block} {i : Instr} {m : String}
      {st' : FState} : Reach fn 2 st →
      asmInstr st fn blk i = .err m st' → Reach fn 2 st'
  | zeroNonSsa {ord : List (String × NameInfo) → List (String × NameInfo)}
      {st : FState} {lines : List String} {st' : FState} : Reach fn 2 st →
      (ord st.ssaNames).Perm st.ssaNames →
      asmZeroNonSsaLocals ord st = .ok lines st' → Reach fn 2 st'

/-- The table facts available in each phase. -/
def PhaseInv : Nat → List (String × NameInfo) → Prop
  | 0, tbl => tbl = []
  | 1, tbl => (tbl.map Prod.fst).Nodup ∧ NamesMatch tbl ∧ NoLocals tbl ∧
      ParamsDisjoint tbl
  | _ + 2, tbl => TableInv tbl

/-- Every reachable state's name table satisfies its phase invariant,
provided the declared SSA locals carry pairwise-distinct names. -/
theorem reach_inv (fn : SsaFn)
    (hndl : (fn.locals.map (fun l => l.name)).Nodup) :
    ∀ (ph : Nat) (st : FState), Reach fn ph st → PhaseInv ph st.ssaNames := by
  intro ph st hr
  induction hr with
  | init => rfl
  | params hps => exact asmParams_inv fn _ (Or.inl ⟨_, hps⟩)
  | paramsErr hps => exact asmParams_inv fn _ (Or.inr ⟨_, hps⟩)
  | zeroRet hrch hz ih =>
    have hst := asmZeroRetValue_state _ _ _ _ hz
    rw [hst]
    exact ih
  | zeroSsa hrch hz ih =>
    exact (zeroSsaEntry_inv fn _ _ hndl ih (Or.inl ⟨_, hz⟩)).1
  | zeroSsaErr hrch hz ih =>
    exact (zeroSsaEntry_inv fn _ _ hndl ih (Or.inr ⟨_, hz⟩)).1
  | phiPass hrch hp ih =>
    have hn := computePhi_names fn.blocks _ _ hp
    rw [hn]
    exact ih
  | instrOk hrch hins ih =>
    exact TEvol_inv ((asmInstr_tevol _ fn _ _).1 _ _ hins) ih
  | instrErr hrch hins ih =>
    exact TEvol_inv ((asmInstr_tevol _ fn _ _).2 _ _ hins) ih
  | zeroNonSsa hrch hperm hz ih =>
    have hst : _ = _ := zeroNonSsaLoop_state _ _ _ _ ?_ hz
    · rw [hst]
      exact ih
    · intro e he v hl hf
      rcases e with ⟨k, ni⟩
      have hmem := hperm.subset he
      have hget := mapGet_of_mem _ k ni hmem ih.1
      exact ih.2.2.2.1 k ni v hget hl hf

/-- **C7 (amended).**  For every compiled function whose declared SSA locals
carry pairwise-distinct names, at every point of the compilation at which the
exact (untruncated) total of bound local-slot sizes is below 2^32, no two
bound storage locations with the same base register — frame-pointer-based
parameter/return slots on one side, stack-pointer-based local slots on the
other — overlap in their [offset, offset+size) byte ranges. -/
theorem reach_slot_disjoint (fn : SsaFn) (ph : Nat) (st : FState)
    (hndl : (fn.locals.map (fun l => l.name)).Nodup)
    (hr : Reach fn ph st)
    (hsum : sumLocals st.ssaNames < 4294967296) :
    ∀ k k' ni ni', k ≠ k' →
      mapGet st.ssaNames k = some ni → mapGet st.ssaNames k' = some ni' →
      (∀ p p', ni.param = some p → ni'.param = some p' →
        ¬ overlaps p.offset p.size p'.offset p'.size) ∧
      (∀ v v', ni.locl = some v → ni'.locl = some v' →
        ¬ overlaps v.offset v.size v'.offset v'.size) := by
  intro k k' ni ni' hkk hk hk'
  have hinv := reach_inv fn hndl ph st hr
  match ph, hinv with
  | 0, hinv =>
    rw [hinv] at hk
    exact absurd hk (fun hx => Option.noConfusion hx)
  | 1, hinv =>
    obtain ⟨hnd, hnm, hnl, hpd⟩ := hinv
    refine ⟨fun p p' hp hp' => hpd k k' ni ni' p p' hkk hk hk' hp hp', ?_⟩
    intro v v' hv hv'
    rw [hnl k ni hk] at hv
    exact Option.noConfusion hv
  | (n + 2), hinv =>
    obtain ⟨hnd, hnm, hpd, hns, hcond⟩ := hinv
    obtain ⟨hbd, hdj⟩ := hcond hsum
    exact ⟨fun p p' hp hp' => hpd k k' ni ni' p p' hkk hk hk' hp hp',
           fun v v' hv hv' => hdj k k' ni ni' v v' hkk hk hk' hv hv'⟩

/-- A two-int-parameter function for exercising the disjointness theorem. -/
def fnW : SsaFn :=
  ⟨"add", [("x", .basic .int), ("y", .basic .int)], [], [], [.basic .int]⟩

/-- The state after `asmParams` on `fnW`: `x` at FP+0, `y` at FP+8. -/
def stW : FState :=
  ⟨[("x", ⟨"x", .basic .int, none, some ⟨"x", 0, 8, none⟩⟩),
    ("y", ⟨"y", .basic .int, none, some ⟨"y", 8, 8, none⟩⟩)],
   registers.map (fun r => (r.name, false)), [], 0, 0⟩

/-- Witness for C7: after parameter binding of a two-int-parameter function,
the two frame-pointer slots `[0, 8)` and `[8, 16)` do not overlap. -/
theorem reach_slot_disjoint_witness : ¬ overlaps 0 8 8 8 :=
  ((reach_slot_disjoint fnW 1 stW (by decide)
      (Reach.params (by decide : asmParams initState fnW = .ok [] stW))
      (by decide)) "x" "y"
    ⟨"x", .basic .int, none, some ⟨"x", 0, 8, none⟩⟩
    ⟨"y", .basic .int, none, some ⟨"y", 8, 8, none⟩⟩
    (by decide) (by decide) (by decide)).1
    ⟨"x", 0, 8, none⟩ ⟨"y", 8, 8, none⟩ rfl rfl

/-- A function with two declared locals named `x` (plus `y`): the second
binding of `x` overwrites the first, so the table's local sizes no longer
cover the zeroed layout. -/
def fnC : SsaFn :=
  ⟨"f", [],
   [⟨"x", .ptr (.basic .int), false⟩, ⟨"x", .ptr (.basic .int), false⟩,
    ⟨"y", .ptr (.basic .int), false⟩],
   [], [.basic .int]⟩

/-- The state after the SSA-locals pass on `fnC`: `x` bound at SP+8 (the
second declaration's offset), `y` at SP+16. -/
def stZC : FState :=
  ⟨[("x", ⟨"x", .basic .int, some ⟨"x", 8, 8, true⟩, none⟩),
    ("y", ⟨"y", .basic .int, some ⟨"y", 16, 8, true⟩, none⟩)],
   registers.map (fun r => (r.name, false)), [], 0, 0⟩

/-- `stZC` after a phi instruction allocates `t0` on demand: `localsSize` is
16 (8 + 8 over the table, not 24 of the zeroed layout), so `t0` lands on
`[16, 24)` — exactly `y`'s slot. -/
def stC : FState :=
  ⟨[("x", ⟨"x", .basic .int, some ⟨"x", 8, 8, true⟩, none⟩),
    ("y", ⟨"y", .basic .int, some ⟨"y", 16, 8, true⟩, none⟩),
    ("t0", ⟨"t0", .basic .int, some ⟨"t0", 16, 8, false⟩, none⟩)],
   registers.map (fun r => (r.name, false)), [], 0, 0⟩

/-- **C7 (counterexample to the unamended claim).**  With duplicate declared
local names the pipeline reaches a state whose bound stack-pointer slots
overlap: compiling `fnC` zeroes `x` twice (the second binding overwriting the
first) and `y` at `[16, 24)`; the on-demand slot for a phi destination is then
placed at the table's size total 16, overlapping `y` byte for byte — even
though the frame stays far below 2^32. -/
theorem reach_slot_overlap_cex :
    Reach fnC 2 stC ∧
    mapGet stC.ssaNames "y" =
      some ⟨"y", .basic .int, some ⟨"y", 16, 8, true⟩, none⟩ ∧
    mapGet stC.ssaNames "t0" =
      some ⟨"t0", .basic .int, some ⟨"t0", 16, 8, false⟩, none⟩ ∧
    ("y" : String) ≠ "t0" ∧
    overlaps 16 8 16 8 ∧
    sumLocals stC.ssaNames < 4294967296 := by
  have h1 : asmParams initState fnC = .ok [] initState := by decide
  have h2 : asmZeroSsaLocals initState fnC =
      .ok ["        MOVQ $0, x+0(SP)", "        MOVQ $0, x+8(SP)",
           "        MOVQ $0, y+16(SP)"] stZC := by decide
  have h3 : asmInstr stZC fnC ⟨0, [], [], []⟩ (.phi ⟨"t0", .basic .int, "", []⟩) =
      .ok ["        // BEGIN ssa.Phi, name (t0), comment (), value (phi [])",
           "        // END ssa.Phi, phi []"] stC := by decide
  exact ⟨Reach.instrOk (Reach.zeroSsa (Reach.params h1) h2) h3,
         by decide, by decide, by decide, ⟨16, by omega⟩, by decide⟩

/-! ### C4: map-iteration-order dependence of the output -/

/-- A one-parameter function whose block emission allocates two on-demand
locals (`t0`, `t1`, the two binop destinations). -/
def fnD : SsaFn :=
  ⟨"dbl", [("x", .basic .int)], [],
   [⟨0,
     [.binOp ⟨"t0", .basic .int, .add, ⟨"x", .basic .int, .parameter⟩,
        ⟨"x", .basic .int, .parameter⟩⟩,
      .binOp ⟨"t1", .basic .int, .add, ⟨"t0", .basic .int, .opaq⟩,
        ⟨"x", .basic .int, .parameter⟩⟩,
      .ret ⟨[⟨"t0", .basic .int, .opaq⟩]⟩],
     [], []⟩],
   [.basic .int]⟩

/-- **C4 (refuted: code bug).**  The produced assembly is not byte-for-byte
stable across runs: `asmZeroNonSsaLocals` ranges over the Go map `f.ssaNames`,
whose iteration order is unspecified and varies between runs.  Modelling the
iteration order as an explicit parameter, two legitimate orders (the table
order and its reverse — both permutations of the table) both compile `fnD`
successfully but emit the zeroing instructions for the on-demand locals
`t0`/`t1` in different orders, so the outputs differ. -/
theorem asmFunc_order_dependent :
    (∀ tbl : List (String × NameInfo), (List.reverse tbl).Perm tbl) ∧
    (∃ out1 st1, asmFunc (fun m => m) fnD = .ok out1 st1) ∧
    (∃ out2 st2, asmFunc List.reverse fnD = .ok out2 st2) ∧
    asmFunc (fun m => m) fnD ≠ asmFunc List.reverse fnD := by
  refine ⟨fun tbl => List.reverse_perm tbl, ⟨_, _, rfl⟩, ⟨_, _, rfl⟩, by decide⟩

/-! ### C1: the frame-size fixup -/

/-- Distinct reset sizes render distinct lines: cancelling the fixed
enclosing text reduces this to the injectivity of the decimal rendering. -/
theorem asmResetStackPointer_inj (a b : Nat)
    (h : asmResetStackPointer indent a = asmResetStackPointer indent b) : a = b := by
  apply numStr_injective
  unfold asmResetStackPointer asmAddImm32Reg at h
  have hd := congrArg String.data h
  simp only [String.data_append] at hd
  have h1 := List.append_cancel_right hd
  have h2 := List.append_cancel_right h1
  have h3 := List.append_cancel_left h2
  exact String.ext h3

/-- **C1 (amended).**  For every compiled function whose final frame size
differs from the reserved placeholder `dummySpSize`, after the fixup the
sentinel stack-pointer-reset text appears nowhere in the output; every
occurrence has been replaced by the reset text for the one frame-size value
`localsSize`, that value is the sum of the sizes of all local slots reduced
mod 2^32, and the emitted TEXT header declares the same value. -/
theorem asmFunc_fixup_spec (ord : List (String × NameInfo) → List (String × NameInfo))
    (fn : SsaFn) (asm : List String) (st : FState)
    (hbody : asmFuncBody ord fn = .ok asm st)
    (hne : localsSize st ≠ dummySpSize) :
    sentinelLine ∉ fixupRets st asm ∧
    fixupRets st asm = asm.map
      (fun l => if l = sentinelLine
        then asmResetStackPointer indent (localsSize st) else l) ∧
    localsSize st = sumLocals st.ssaNames % 4294967296 ∧
    (∀ out st2, asmFunc ord fn = .ok out st2 →
      st2 = st ∧
      ∃ prsz, out = headerLine fn.name (localsSize st) prsz :: fixupRets st asm) := by
  refine ⟨?_, rfl, localsSizeT_eq st.ssaNames, ?_⟩
  · intro hmem
    unfold fixupRets at hmem
    obtain ⟨l, hl, heq⟩ := List.mem_map.mp hmem
    split at heq
    · exact hne (asmResetStackPointer_inj _ _ heq)
    · rename_i hs
      exact hs heq
  · intro out st2 h
    unfold asmFunc at h
    rw [hbody] at h
    simp only [ERes.bind_ok] at h
    have h2 := eres_bind_ok h
    clear h
    obtain ⟨psz, stp, hp, h⟩ := h2
    have hstp := paramsSizeE_state _ _ _ _ hp
    subst hstp
    have h2 := eres_bind_ok h
    clear h
    obtain ⟨rsz, str2, hrs, h⟩ := h2
    have hstr := retSizeE_state _ _ _ _ hrs
    subst hstr
    cases h
    exact ⟨rfl, psz + rsz, rfl⟩

/-- The pre-fixup body text of `fnW` (no instructions, frame size 0). -/
def asmW : List String := ["        SUBQ $0, SP", "        MOVQ $0, ret0+16(FP)"]

/-- Witness for C1 on the two-parameter function `fnW`: its body compiles
with frame size 0 ≠ `dummySpSize`, and the sentinel is absent from the fixed
output. -/
theorem asmFunc_fixup_spec_witness :
    asmFuncBody (fun m => m) fnW = .ok asmW stW ∧ localsSize stW ≠ dummySpSize ∧
    sentinelLine ∉ fixupRets stW asmW :=
  ⟨by decide, by decide,
   (asmFunc_fixup_spec (fun m => m) fnW asmW stW (by decide) (by decide)).1⟩

/-- A function whose only local is a phi destination of type
`[4294967295]int8`, allocated on demand: the final frame size equals
`dummySpSize` exactly. -/
def fnX : SsaFn :=
  ⟨"g", [], [],
   [⟨0, [.phi ⟨"p0", .array 4294967295 (.basic .int8), "", []⟩, .ret ⟨[]⟩], [], []⟩],
   [.basic .int]⟩

/-- The state after block emission of `fnX`: `p0` bound at SP+0 with size
4294967295. -/
def stP : FState :=
  ⟨[("p0", ⟨"p0", .array 4294967295 (.basic .int8),
      some ⟨"p0", 0, 4294967295, false⟩, none⟩)],
   registers.map (fun r => (r.name, false)), [], 0, 0⟩

/-- The zeroing text of `p0` (kept symbolic: half a billion lines). -/
def znX : List String := asmZeroMemory indent "p0" 0 4294967295 (getRegister REG_SP)

/-- The emitted text of `fnX`'s one basic block, sentinel included. -/
def bbsX : List String :=
  ["block0:",
   "        // BEGIN ssa.Phi, name (p0), comment (), value (phi [])",
   "        // END ssa.Phi, phi []",
   "        // BEGIN ssa.Return",
   "        ADDQ $4294967295, SP",
   "        RET",
   "        // END ssa.Return"]

/-- The full pre-fixup body text of `fnX`. -/
def asmX : List String :=
  [] ++ asmSetStackPointer stP ++ ["        MOVQ $0, ret0+0(FP)"] ++ [] ++ znX ++ bbsX

/-- **C1 (counterexample to the unamended claim).**  When the genuine frame
size equals the reserved placeholder (4294967295, reachable with a
`[4294967295]int8` on-demand local), the fixup replaces the sentinel by
itself and the sentinel text survives in the final output. -/
theorem fixup_sentinel_survives_cex :
    asmFuncBody (fun m => m) fnX = .ok asmX stP ∧
    localsSize stP = dummySpSize ∧
    sentinelLine ∈ fixupRets stP asmX := by
  have h1 : asmParams initState fnX = .ok [] initState := by decide
  have h2 : asmZeroRetValue initState fnX =
      .ok ["        MOVQ $0, ret0+0(FP)"] initState := by decide
  have h3 : asmZeroSsaLocals initState fnX = .ok [] initState := by decide
  have h4 : computePhi initState fnX.blocks = .ok () initState := by decide
  have h5 : asmBasicBlocks initState fnX fnX.blocks = .ok bbsX stP := by decide
  have h6 : asmZeroNonSsaLocals (fun m => m) stP = .ok znX stP := by
    show zeroNonSsaLoop stP stP.ssaNames = .ok znX stP
    simp [zeroNonSsaLoop, NameInfo.IsSsaLocal, znX, stP]
  have hloc : localsSize stP = dummySpSize := by decide
  refine ⟨?_, hloc, ?_⟩
  · unfold asmFuncBody
    rw [h1]
    simp only [ERes.bind_ok]
    rw [h2]
    simp only [ERes.bind_ok]
    rw [h3]
    simp only [ERes.bind_ok]
    rw [h4]
    simp only [ERes.bind_ok]
    rw [h5]
    simp only [ERes.bind_ok]
    rw [h6]
    simp only [ERes.bind_ok]
    rfl
  · unfold fixupRets
    apply List.mem_map.mpr
    refine ⟨sentinelLine, ?_, ?_⟩
    · exact List.mem_append_right _ (by decide : sentinelLine ∈ bbsX)
    · show (if sentinelLine = sentinelLine
        then asmResetStackPointer indent (localsSize stP) else sentinelLine) =
          sentinelLine
      rw [if_pos rfl, hloc]
      rfl

end Gensimd
